import Mathlib

/-!
# beta3: tonewheel organ synthesiser

A shallow embedding of `src/beta3.c` and a verification of its note registry,
MIDI event handling, drawbar quantisation, tonewheel foldback, envelope,
sample loop and tone generator.

Conventions of the embedding:

* `note_index_t` is `unsigned char`: values are natural numbers and every
  conversion to it is written `u8`, reduction modulo 256.  The clock
  `global_time` is a 32-bit unsigned counter.
* `sample_t` values (`float`) are modelled by exact rationals.  The values
  stored by the event handlers are table constants, `0`, and `1 + n` for an
  integer `n`, so no rounding of arithmetic results is involved there; the
  envelope and the mix are computed in exact arithmetic.  The sample values of
  a wave, which the program computes with `sin`, are a parameter of the model.
* The `double` arithmetic of `compute_tone_wave`, which decides the loop
  length of a wave, is modelled as IEEE 754 binary64 arithmetic, each operation
  evaluated in double precision: a finite double is the rational it denotes,
  every multiplication and division is rounded to the nearest double, ties to
  even, and a result that is not finite (infinity or NaN) is `none`.
* The note array of a manual has `NUM_KEYS + 1 = 62` slots.  It is modelled as
  a map from slot index to slot; an access to a slot at or beyond index 62 is
  undefined behaviour in C and is reported as `none`.
* A bounded loop is modelled by recursion on the number of iterations left, an
  unbounded one by recursion on a fuel argument; `exit(1)` in
  `compute_tone_wave` is the result `none`.
-/

namespace Beta3

/-! ## Constants -/

/-- The macro `OCTAVE`. -/
abbrev OCTAVE : Nat := 12

/-- The macro `FIFTH`. -/
abbrev FIFTH : Nat := 7

/-- The macro `THIRD`. -/
abbrev THIRD : Nat := 4

/-- The macro `NUM_WAVES`. -/
abbrev NUM_WAVES : Nat := 91

/-- The macro `NUM_KEYS`, which expands to `5 * OCTAVE + 1`. -/
abbrev NUM_KEYS : Nat := 5 * OCTAVE + 1

/-- The macro `DUMMY_NOTE`: the sentinel slot of the active list. -/
abbrev DUMMY_NOTE : Nat := NUM_KEYS

/-- The macro `NUM_DRAWBARS`. -/
abbrev NUM_DRAWBARS : Nat := 9

/-- Number of slots of `manual_t.notes`, declared `notes[NUM_KEYS + 1]`. -/
abbrev NOTES_LEN : Nat := NUM_KEYS + 1

/-- Conversion of a C `int` to `unsigned char` (`note_index_t`). -/
def u8 (x : Int) : Nat := (x % 256).toNat

/-! ## Data model -/

/-- The struct `envelope_t`. -/
structure envelope_t where
  step : Int
  ref_time : Nat
  amplitude : ℚ
  rate : ℚ
deriving DecidableEq

/-- The struct `note_info_t`. -/
structure note_info_t where
  is_on : Bool
  envelope : envelope_t
  next : Nat
  prev : Nat
deriving DecidableEq

/-- The array `note_info_t notes[]`, addressed by slot index. -/
abbrev notes_t := Nat → note_info_t

/-! ## Note registry -/

/-- The function `add_note`.  The result is `none` when a slot outside the
62-slot array would be accessed; otherwise it is the array after the call
together with the returned `_Bool`. -/
def add_note (notes : notes_t) (note_index : Nat) : Option (notes_t × Bool) :=
  if NOTES_LEN ≤ note_index then none
  else if (notes note_index).is_on then some (notes, false)
  else
    let n1 := Function.update notes note_index { notes note_index with is_on := true }
    let first_index := (n1 DUMMY_NOTE).next
    let n2 := Function.update n1 DUMMY_NOTE { n1 DUMMY_NOTE with next := note_index }
    let n3 := Function.update n2 note_index { n2 note_index with next := first_index }
    let n4 := Function.update n3 note_index { n3 note_index with prev := DUMMY_NOTE }
    if NOTES_LEN ≤ first_index then none
    else some (Function.update n4 first_index { n4 first_index with prev := note_index }, true)

/-- The function `remove_note`, with the same conventions as `add_note`. -/
def remove_note (notes : notes_t) (note_index : Nat) : Option (notes_t × Bool) :=
  if NOTES_LEN ≤ note_index then none
  else if !(notes note_index).is_on then some (notes, false)
  else
    let n1 := Function.update notes note_index { notes note_index with is_on := false }
    let next := (n1 note_index).next
    let prev := (n1 note_index).prev
    if NOTES_LEN ≤ prev then none
    else
      let n2 := Function.update n1 prev { n1 prev with next := next }
      if NOTES_LEN ≤ next then none
      else some (Function.update n2 next { n2 next with prev := prev }, true)

/-- The active-note traversal of `process_callback`,
`for (i = notes[DUMMY_NOTE].next; i != DUMMY_NOTE; i = notes[i].next)`,
started at `i` and bounded by `fuel` loop iterations.  It returns the notes
visited, in order; `none` when the fuel runs out before the sentinel is reached
or when a visited index lies outside the array. -/
def walk_next (notes : notes_t) : Nat → Nat → Option (List Nat)
  | fuel, i =>
    if i = DUMMY_NOTE then some []
    else if NOTES_LEN ≤ i then none
    else
      match fuel with
      | 0 => none
      | f + 1 => (walk_next notes f (notes i).next).map (fun l => i :: l)

/-- The same traversal run backwards, through `prev`. -/
def walk_prev (notes : notes_t) : Nat → Nat → Option (List Nat)
  | fuel, i =>
    if i = DUMMY_NOTE then some []
    else if NOTES_LEN ≤ i then none
    else
      match fuel with
      | 0 => none
      | f + 1 => (walk_prev notes f (notes i).prev).map (fun l => i :: l)

/-- The notes the renderer visits for one sample, with at most `NUM_KEYS`
loop iterations allowed. -/
def active_notes (notes : notes_t) : Option (List Nat) :=
  walk_next notes NUM_KEYS (notes DUMMY_NOTE).next

/-- The notes met from the sentinel backwards through `prev`. -/
def active_notes_rev (notes : notes_t) : Option (List Nat) :=
  walk_prev notes NUM_KEYS (notes DUMMY_NOTE).prev

/-- Registry well-formedness: following `next` from the sentinel comes back to
the sentinel within `NUM_KEYS` loop iterations; the notes visited are pairwise
distinct, all have `is_on` set, and every key with `is_on` set is visited;
along the cycle (sentinel included) `prev` undoes `next`. -/
def wf (notes : notes_t) : Prop :=
  ∃ l, active_notes notes = some l ∧ l.Nodup ∧
    (∀ x ∈ l, (notes x).is_on = true) ∧
    (∀ k, k < NUM_KEYS → (notes k).is_on = true → k ∈ l) ∧
    (∀ x ∈ DUMMY_NOTE :: l, (notes (notes x).next).prev = x)

instance (notes : notes_t) : Decidable (wf notes) :=
  match h : active_notes notes with
  | none => isFalse (by rintro ⟨l, hl, -⟩; rw [h] at hl; cases hl)
  | some l =>
    if hc : l.Nodup ∧ (∀ x ∈ l, (notes x).is_on = true) ∧
        (∀ k, k < NUM_KEYS → (notes k).is_on = true → k ∈ l) ∧
        (∀ x ∈ DUMMY_NOTE :: l, (notes (notes x).next).prev = x)
    then isTrue ⟨l, h, hc⟩
    else isFalse (by
      rintro ⟨l', hl', hc'⟩
      rw [h] at hl'
      cases hl'
      exact hc hc')

/-! ## Instrument state and MIDI handling -/

/-- The macro `DB_G0`. -/
def DB_G0 : ℚ := 0.0

/-- The macro `DB_G1`. -/
def DB_G1 : ℚ := 0.0891

/-- The macro `DB_G2`. -/
def DB_G2 : ℚ := 0.125

/-- The macro `DB_G3`. -/
def DB_G3 : ℚ := 0.178

/-- The macro `DB_G4`. -/
def DB_G4 : ℚ := 0.25

/-- The macro `DB_G5`. -/
def DB_G5 : ℚ := 0.355

/-- The macro `DB_G6`. -/
def DB_G6 : ℚ := 0.5

/-- The macro `DB_G7`. -/
def DB_G7 : ℚ := 0.708

/-- The macro `DB_G8`. -/
def DB_G8 : ℚ := 1

/-- The table `DB_G` of the nine drawbar gain levels. -/
def DB_G : List ℚ := [DB_G0, DB_G1, DB_G2, DB_G3, DB_G4, DB_G5, DB_G6, DB_G7, DB_G8]

/-- The part of `instrument_t` that the MIDI handler and the sample loop read
or write: the sample rate, the global clock, and the note array and drawbar
gains of `manuals[0]`. -/
structure instrument_t where
  sample_rate : Nat
  global_time : Nat
  notes : notes_t
  drawbar_gains : Nat → ℚ

/-- The first three bytes of a MIDI event, `buffer[0]`, `buffer[1]`,
`buffer[2]` of `jack_midi_event_t`. -/
structure jack_midi_event_t where
  status : Nat
  data1 : Nat
  data2 : Nat
deriving DecidableEq

/-- The drawbar level computed for a control value, `(cc_val + 8) >> 4`. -/
def db_pos (cc_val : Nat) : Nat := (cc_val + 8) >>> 4

/-- The body of the MIDI loop of `process_callback` for one event.  The result
is `none` where the C code has undefined behaviour: an access outside the note
array, a read of `DB_G` at an index of 9 or more, an integer division by a
zero sample rate. -/
def midi_event (my : instrument_t) (ev : jack_midi_event_t) : Option instrument_t :=
  let code := ev.status
  if code = 0x90 then
    let note_index := u8 ((ev.data1 : Int) - 3 * OCTAVE)
    if note_index < NUM_KEYS then
      match add_note my.notes note_index with
      | none => none
      | some (notes, false) => some { my with notes := notes }
      | some (notes, true) =>
        if my.sample_rate = 0 then none
        else
          let e0 := (notes note_index).envelope
          let e1 := { e0 with amplitude := 0 }
          let e2 := { e1 with rate := 1 + ((100000 / my.sample_rate : Nat) : ℚ) }
          let e3 := { e2 with ref_time := my.global_time }
          some { my with
            notes := Function.update notes note_index { notes note_index with envelope := e3 } }
    else some my
  else if code = 0x80 then
    let note_index := u8 ((ev.data1 : Int) - 3 * OCTAVE)
    if note_index < NUM_KEYS then
      match remove_note my.notes note_index with
      | none => none
      | some (notes, _) => some { my with notes := notes }
    else some my
  else if code = 0xB0 then
    let cc_num := ev.data1
    let cc_val := ev.data2
    if 16 ≤ cc_num ∧ cc_num ≤ 24 then
      let db_num := cc_num - 16
      match DB_G[db_pos cc_val]? with
      | none => none
      | some g => some { my with drawbar_gains := Function.update my.drawbar_gains db_num g }
    else some my
  else some my

/-- The MIDI loop of `process_callback`: the events of a block, in order. -/
def midi_in (my : instrument_t) : List jack_midi_event_t → Option instrument_t
  | [] => some my
  | ev :: evs =>
    match midi_event my ev with
    | none => none
    | some my1 => midi_in my1 evs

/-- The global `my` before `main` runs: static storage, all zero. -/
def my_zero : instrument_t where
  sample_rate := 0
  global_time := 0
  notes := fun _ => { is_on := false, envelope := { step := 0, ref_time := 0, amplitude := 0, rate := 0 }, next := 0, prev := 0 }
  drawbar_gains := fun _ => 0

/-- The registry and drawbar part of `init` (the call of `init_tone_generator`,
which fills the wavetable or exits, does not touch these fields). -/
def init (my : instrument_t) : instrument_t :=
  let n1 := Function.update my.notes DUMMY_NOTE { my.notes DUMMY_NOTE with next := DUMMY_NOTE }
  let n2 := Function.update n1 DUMMY_NOTE { n1 DUMMY_NOTE with prev := DUMMY_NOTE }
  let g0 := Function.update my.drawbar_gains 0 DB_G8
  let g1 := Function.update g0 1 DB_G8
  let g2 := Function.update g1 2 DB_G8
  { my with notes := n2, drawbar_gains := g2 }

/-- The start-up sequence of `main` on the zeroed global: store the sample
rate, call `init`, reset the clock. -/
def startup (sample_rate : Nat) : instrument_t :=
  { init { my_zero with sample_rate := sample_rate } with global_time := 0 }

/-! ## Tonewheel lookup -/

/-- The table `drawbar_harmonic_offset`, of element type `note_index_t`: the
initialiser `-OCTAVE` is stored converted to `unsigned char`. -/
def drawbar_harmonic_offset : List Nat :=
  [u8 (-(OCTAVE : Int)), FIFTH, 0, OCTAVE, OCTAVE + FIFTH, 2 * OCTAVE, 2 * OCTAVE + THIRD,
    2 * OCTAVE + FIFTH, 3 * OCTAVE]

/-- The loop `while (wave_index >= NUM_WAVES) wave_index -= OCTAVE;`, bounded by
`fuel` evaluations of its condition. -/
def upper_foldback : Nat → Nat → Option Nat
  | 0, _ => none
  | fuel + 1, wave_index =>
    if NUM_WAVES ≤ wave_index then upper_foldback fuel (u8 ((wave_index : Int) - OCTAVE))
    else some wave_index

/-- The wave index that `process_callback` computes for note `note_index` and
drawbar `d`; `none` when `d` is not a drawbar or the fuel of the foldback loop
runs out. -/
def tap_wave_index (fuel note_index d : Nat) : Option Nat :=
  match drawbar_harmonic_offset[d]? with
  | none => none
  | some off =>
    let wave_index := u8 ((note_index : Int) + OCTAVE + off)
    if wave_index < OCTAVE then some (u8 ((wave_index : Int) + OCTAVE))
    else upper_foldback fuel wave_index

/-! ## Envelope and sample loop -/

/-- The function `update_envelope`, with the amplitude and the rate taken as
exact rationals. -/
def update_envelope (envelope : envelope_t) : envelope_t :=
  let amp := envelope.amplitude
  if amp ≠ 1 then
    if amp < DB_G1 then { envelope with amplitude := DB_G1 }
    else
      let amp1 := amp * envelope.rate
      let amp2 := if amp1 > 1 then 1 else amp1
      { envelope with amplitude := amp2 }
  else envelope

/-- The struct `wave_t`: the loop length and the sample buffer of that many
samples (the field `indexx`, which the program never writes or reads, is left
out). -/
structure wave_t where
  length : Nat
  samples : List ℚ

/-- The array `tone_generator_t.waves`, addressed by wave index.  It is
constant once `init` has run and is passed to the sample loop as an argument
of its own. -/
abbrev tone_generator_t := Nat → wave_t

/-- The body of the drawbar loop of `process_callback` for tap `d` of note
`note_index`: the running `sample` after the tap has been added.  The result is
`none` where the C code has undefined behaviour: a remainder by a zero wave
length, a read outside the sample buffer of the wave, a tap outside the offset
table. -/
def tap_mix (tone_generator : tone_generator_t) (drawbar_gains : Nat → ℚ)
    (global_time : Nat) (envelope : ℚ) (note_index d : Nat) (sample : ℚ) : Option ℚ :=
  match tap_wave_index 256 note_index d with
  | none => none
  | some wave_index =>
    let wave := tone_generator wave_index
    let drawbar_gain := drawbar_gains d
    if wave_index < NUM_WAVES then
      if wave.length = 0 then none
      else
        match wave.samples[global_time % wave.length]? with
        | none => none
        | some s => some (sample + envelope * drawbar_gain * s)
    else some sample

/-- The loop `for (int d = 0; d < NUM_DRAWBARS; d++)` over the taps still to
be visited. -/
def drawbar_loop (tone_generator : tone_generator_t) (drawbar_gains : Nat → ℚ)
    (global_time : Nat) (envelope : ℚ) (note_index : Nat) : List Nat → ℚ → Option ℚ
  | [], sample => some sample
  | d :: ds, sample =>
    match tap_mix tone_generator drawbar_gains global_time envelope note_index d sample with
    | none => none
    | some sample1 =>
      drawbar_loop tone_generator drawbar_gains global_time envelope note_index ds sample1

/-- The loop over the active notes of `process_callback` for one output
sample, started at note `i` with the running `sample`, bounded by `fuel`
iterations: each visited note is mixed with the amplitude it has on entry and
then has its envelope updated.  The result is the note array and the sample at
the end of the loop. -/
def note_loop (tone_generator : tone_generator_t) (drawbar_gains : Nat → ℚ)
    (global_time : Nat) : Nat → notes_t → Nat → ℚ → Option (notes_t × ℚ)
  | fuel, notes, i, sample =>
    if i = DUMMY_NOTE then some (notes, sample)
    else if NOTES_LEN ≤ i then none
    else
      match fuel with
      | 0 => none
      | f + 1 =>
        let envelope := (notes i).envelope.amplitude
        match drawbar_loop tone_generator drawbar_gains global_time envelope i
            (List.range NUM_DRAWBARS) sample with
        | none => none
        | some sample1 =>
          let notes1 := Function.update notes i
            { notes i with envelope := update_envelope (notes i).envelope }
          note_loop tone_generator drawbar_gains global_time f notes1 (notes1 i).next sample1

/-- The body of the sample loop of `process_callback`: the state after one
output sample and the value written to the output buffer.  The clock is a
32-bit unsigned counter. -/
def render_sample (tone_generator : tone_generator_t) (my : instrument_t) :
    Option (instrument_t × ℚ) :=
  match note_loop tone_generator my.drawbar_gains my.global_time NUM_KEYS my.notes
      (my.notes DUMMY_NOTE).next 0 with
  | none => none
  | some (notes, sample) =>
    some ({ my with notes := notes, global_time := (my.global_time + 1) % 2 ^ 32 }, sample)

/-- The sample loop of `process_callback` for `nframes` frames: the state at
the end of the block and the output buffer. -/
def audio_out (tone_generator : tone_generator_t) :
    Nat → instrument_t → Option (instrument_t × List ℚ)
  | 0, my => some (my, [])
  | nframes + 1, my =>
    match render_sample tone_generator my with
    | none => none
    | some (my1, sample) =>
      match audio_out tone_generator nframes my1 with
      | none => none
      | some (my2, out) => some (my2, sample :: out)

/-- The function `process_callback`: the MIDI events of the block are applied,
then the block is rendered. -/
def process_callback (tone_generator : tone_generator_t) (my : instrument_t)
    (events : List jack_midi_event_t) (nframes : Nat) : Option (instrument_t × List ℚ) :=
  match midi_in my events with
  | none => none
  | some my1 => audio_out tone_generator nframes my1

/-! ## Tone generator -/

/-- The table `driving`. -/
def driving : List Int := [85, 71, 67, 105, 103, 84, 74, 98, 96, 88, 67, 108]

/-- The table `driven`. -/
def driven : List Int := [104, 82, 73, 108, 100, 77, 64, 80, 74, 64, 46, 70]

/-- The arguments of one call of `compute_tone_wave` made by
`init_tone_generator`: the wave slot, the target frequency and the wobble
frequency. -/
structure tone_request where
  wave_index : Nat
  note_freq : ℚ
  lfo_freq : ℚ
deriving DecidableEq

/-- The expression `freq` of `init_tone_generator` for group `i`, the current
`teeth` and position `j`, over exact rationals; `none` when a table would be
read outside its twelve entries. -/
def tone_freq (i teeth j : Nat) : Option ℚ :=
  if i < 7 then
    match driving[j]?, driven[j]? with
    | some a, some b => some (20 * (teeth : ℚ) * (a : ℚ) / (b : ℚ))
    | _, _ => none
  else
    match driving[j + 5]?, driven[j + 5]? with
    | some a, some b => some (20 * 192 * (a : ℚ) / (b : ℚ))
    | _, _ => none

/-- The inner loop of `init_tone_generator` over the positions `j` still to be
visited, from the current `wave_index`: the calls made and the `wave_index` at
the end.  The result is `none` when a table or the wave array would be accessed
out of bounds. -/
def tone_group (i teeth : Nat) : List Nat → Nat → Option (List tone_request × Nat)
  | [], wave_index => some ([], wave_index)
  | j :: js, wave_index =>
    match tone_freq i teeth j with
    | none => none
    | some freq =>
      if NUM_WAVES ≤ wave_index then none
      else
        match tone_group i teeth js (wave_index + 1) with
        | none => none
        | some (rs, w) =>
          some ({ wave_index := wave_index, note_freq := freq,
                  lfo_freq := freq / (teeth : ℚ) } :: rs, w)

/-- The outer loop of `init_tone_generator` over the groups `i` still to be
visited, with the current `teeth` and `wave_index`. -/
def tone_groups : List Nat → Nat → Nat → Option (List tone_request)
  | [], _, _ => some []
  | i :: is, teeth, wave_index =>
    let jmax := if i < 7 then 12 else 7
    match tone_group i teeth (List.range jmax) wave_index with
    | none => none
    | some (rs, w) =>
      match tone_groups is (teeth * 2) w with
      | none => none
      | some rest => some (rs ++ rest)

/-- The calls of `compute_tone_wave` that `init_tone_generator` makes, in
order. -/
def tone_requests : Option (List tone_request) := tone_groups (List.range 8) 2 0

/-! ## Double arithmetic -/

/-- Rounding of a rational to the nearest integer, ties to the even one. -/
def round_even (y : ℚ) : ℤ :=
  if Int.fract y < 1 / 2 then ⌊y⌋
  else if 1 / 2 < Int.fract y then ⌊y⌋ + 1
  else if ⌊y⌋ % 2 = 0 then ⌊y⌋ else ⌊y⌋ + 1

/-- The exponent of the unit in the last place of the binary64 format at `x`:
53 significant bits below the leading bit of `x`, and `-1074` throughout the
subnormal range. -/
def ulp_exp (x : ℚ) : ℤ := max (Int.log 2 |x|) (-1022) - 52

/-- Rounding to binary64 with the exponent unbounded above: the nearest
multiple of the unit in the last place, ties to even. -/
def round_double (x : ℚ) : ℚ := (round_even (x / 2 ^ ulp_exp x) : ℚ) * 2 ^ ulp_exp x

/-- The double that the exact result `x` of an operation is rounded to; `none`
when the rounded value is beyond the largest finite double, where the
operation returns an infinity. -/
def to_double (x : ℚ) : Option ℚ :=
  if |round_double x| < 2 ^ 1024 then some (round_double x) else none

/-- The product `a * b` of two finite doubles. -/
def double_mul (a b : ℚ) : Option ℚ := to_double (a * b)

/-- The quotient `a / b` of two finite doubles; a division by zero returns an
infinity or NaN. -/
def double_div (a b : ℚ) : Option ℚ := if b = 0 then none else to_double (a / b)

/-- The expression `motor_freq * teeth * driving[j] / driven[j]` of
`init_tone_generator` in double arithmetic, evaluated from left to right, for
the values `teeth`, `a` and `b` of its integer operands (`teeth` is 192 in the
last group). -/
def double_freq (teeth : Nat) (a b : Int) : Option ℚ :=
  (double_mul 20 (teeth : ℚ)).bind
    (fun x => (double_mul x (a : ℚ)).bind (fun y => double_div y (b : ℚ)))

/-! ## Tone waves -/

/-- The C function `fmod(x, 1.0)`: the remainder of the division by 1
truncated towards zero.  The function is exact on finite doubles. -/
def fmod1 (x : ℚ) : ℚ := x - (if 0 ≤ x then (⌊x⌋ : ℚ) else (⌈x⌉ : ℚ))

/-- The phase `double ph = note_freq * k / my.sample_rate` that
`compute_tone_wave` computes at sample index `k`: the integers `k` and
`my.sample_rate` are converted exactly, the product is rounded, then the
quotient.  The result is `none` when `ph` is an infinity or NaN. -/
def phase (note_freq : ℚ) (sample_rate k : Nat) : Option ℚ :=
  (double_mul note_freq (k : ℚ)).bind (fun p => double_div p (sample_rate : ℚ))

/-- The loop test `ph >= 9.5 && fabs(fmod(ph, 1.0)) < 1e-4` on a finite phase;
the constant `1e-4` is the double nearest to 1/10000. -/
def loop_test (ph : ℚ) : Prop := ph ≥ 9.5 ∧ |fmod1 ph| < round_double 1e-4

instance (ph : ℚ) : Decidable (loop_test ph) := by
  unfold loop_test
  infer_instance

/-- The loop test of `compute_tone_wave` at sample index `k`.  It fails on a
phase that is not finite: `NaN >= 9.5` is false, and `fmod` of an infinity is
NaN, on which the comparison with `1e-4` is false. -/
def loop_closes (note_freq : ℚ) (sample_rate k : Nat) : Prop :=
  match phase note_freq sample_rate k with
  | none => False
  | some ph => loop_test ph

instance (note_freq : ℚ) (sample_rate k : Nat) : Decidable (loop_closes note_freq sample_rate k) := by
  unfold loop_closes
  cases phase note_freq sample_rate k <;> infer_instance

/-- The loop of `compute_tone_wave` from sample index `k`, with `remaining`
indices left before `work->length`, on the work buffer `work`.  The argument
`note_freq` is the value of the double parameter.  The sample value stored at
index `k`, a floating-point expression in `sin`, is the parameter `synth k`.
The result is the wave (loop length and copied samples) together with the work
buffer, or `none` when the loop runs to the end of the work buffer and the
program exits. -/
def tone_wave_scan (note_freq : ℚ) (sample_rate : Nat) (synth : Nat → ℚ) :
    Nat → Nat → (Nat → ℚ) → Option (wave_t × (Nat → ℚ))
  | 0, _, _ => none
  | remaining + 1, k, work =>
    if loop_closes note_freq sample_rate k then
      some ({ length := k, samples := (List.range k).map work }, work)
    else
      tone_wave_scan note_freq sample_rate synth remaining (k + 1)
        (Function.update work k (synth k))

/-- The function `compute_tone_wave` on a work buffer of `work_length`
samples. -/
def compute_tone_wave (note_freq : ℚ) (sample_rate : Nat) (synth : Nat → ℚ)
    (work_length : Nat) (work : Nat → ℚ) : Option (wave_t × (Nat → ℚ)) :=
  tone_wave_scan note_freq sample_rate synth work_length 0 work

/-- The calls of `compute_tone_wave` run in order on the shared work buffer,
each storing its wave in its slot; `none` when one of them exits.  A call
receives the frequency as the double `freq`: the products in the expression
of `freq` are integers, which doubles hold exactly, so `freq` is the exact
quotient of the call rounded once (`tone_freq_double`).  With a `freq`
that is not finite every loop test fails and the call exits.  The sample
values synthesised in the call for `r` are the parameter `synth r`. -/
def run_requests (sample_rate : Nat) (synth : tone_request → Nat → ℚ) (work_length : Nat) :
    List tone_request → (Nat → ℚ) → tone_generator_t → Option tone_generator_t
  | [], _, waves => some waves
  | r :: rs, work, waves =>
    (to_double r.note_freq).bind (fun freq =>
      (compute_tone_wave freq sample_rate (synth r) work_length work).bind (fun res =>
        run_requests sample_rate synth work_length rs res.2
          (Function.update waves r.wave_index res.1)))

/-- The function `init_tone_generator`: the work buffer has
`10 * my.sample_rate` samples, computed in 32-bit unsigned arithmetic. -/
def init_tone_generator (sample_rate : Nat) (synth : tone_request → Nat → ℚ) (work : Nat → ℚ)
    (waves : tone_generator_t) : Option tone_generator_t :=
  match tone_requests with
  | none => none
  | some rs => run_requests sample_rate synth ((10 * sample_rate) % 2 ^ 32) rs work waves

/-! ## Definitions taken from the specification -/

/-- The semitone offsets of the nine taps as the specification lists them,
`-12, +7, 0, +12, +19, +24, +28, +31, +36`. -/
def spec_offset : List Int := [-12, 7, 0, 12, 19, 24, 28, 31, 36]

/-- Subtract 12 repeatedly until the value is below 91 (at most `n` times). -/
def spec_fold_down : Nat → Int → Int
  | 0, i => i
  | n + 1, i => if 91 ≤ i then spec_fold_down n (i - 12) else i

/-- The foldback rule in the words of the specification: a requested index
below 0 is raised by 12, one at or beyond 91 is lowered by 12 until it is
below 91, any other is kept. -/
def spec_fold (i : Int) : Int :=
  if i < 0 then i + 12 else if 91 ≤ i then spec_fold_down i.toNat i else i

/-- The foldback rule with the lower threshold of the code: a requested index
below 12 is raised by 12. -/
def fold_low12 (i : Int) : Int :=
  if i < 12 then i + 12 else if 91 ≤ i then spec_fold_down i.toNat i else i

/-- The tonewheel of tap `d` of note `note_index`, as the code folds it back. -/
def tap_wheel (note_index d : Nat) : Nat := (tap_wave_index 256 note_index d).getD 0

/-- The contribution of one note to a sample: the sum over the nine taps of
amplitude times drawbar gain times the wave sample at `clock mod length`. -/
def note_value (tone_generator : tone_generator_t) (drawbar_gains : Nat → ℚ)
    (amplitude : ℚ) (note_index clock : Nat) : ℚ :=
  ((List.range NUM_DRAWBARS).map (fun d =>
    amplitude * drawbar_gains d *
      (tone_generator (tap_wheel note_index d)).samples.getD
        (clock % (tone_generator (tap_wheel note_index d)).length) 0)).sum

/-- The per-sample mix of the specification: the sum of the contributions of
the notes of `l`, each with its own amplitude, all at the same clock value. -/
def mix_value (tone_generator : tone_generator_t) (drawbar_gains : Nat → ℚ)
    (amplitude : Nat → ℚ) (l : List Nat) (clock : Nat) : ℚ :=
  (l.map (fun i => note_value tone_generator drawbar_gains (amplitude i) i clock)).sum

/-- The state after `n` output samples, as the specification describes it: the
envelope of every note of `l` has been updated `n` times and the 32-bit clock
has advanced by `n`. -/
def advance (my : instrument_t) (l : List Nat) (n : Nat) : instrument_t :=
  { my with
    notes := fun x =>
      if x ∈ l then { my.notes x with envelope := update_envelope^[n] (my.notes x).envelope }
      else my.notes x
    global_time := (my.global_time + n) % 2 ^ 32 }

/-- Every wave of the tone generator has a positive loop length and a sample
buffer of that length. -/
def waves_ok (tone_generator : tone_generator_t) : Prop :=
  ∀ w, w < NUM_WAVES →
    0 < (tone_generator w).length ∧ (tone_generator w).samples.length = (tone_generator w).length

/-- The gear ratio of chromatic position `j`, `driving[j] / driven[j]`. -/
def gear (j : Nat) : ℚ := ((driving.getD j 0 : Int) : ℚ) / ((driven.getD j 1 : Int) : ℚ)

/-- The target frequency of wheel `w` in the words of the specification:
`20 * 2^(i+1) * driving[j] / driven[j]` for wheel `12 * i + j` of the first
seven groups, `20 * 192 * driving[j+5] / driven[j+5]` for wheel `84 + j`. -/
def spec_wheel_freq (w : Nat) : ℚ :=
  if w < 84 then 20 * 2 ^ (w / 12 + 1) * gear (w % 12)
  else 20 * 192 * gear (w - 84 + 5)

/-- The call of `compute_tone_wave` for wheel `w` in the words of the
specification: slot `w`, the target frequency of the wheel, and that frequency
divided by the teeth count `2^(w / 12 + 1)` of its group. -/
def spec_request (w : Nat) : tone_request :=
  { wave_index := w, note_freq := spec_wheel_freq w,
    lfo_freq := spec_wheel_freq w / 2 ^ (w / 12 + 1) }

/-- The phase `f * k / sr` of the specification, over exact rationals. -/
def exact_phase (note_freq : ℚ) (sample_rate k : Nat) : ℚ :=
  note_freq * (k : ℚ) / (sample_rate : ℚ)

/-- A phase within `1e-4` of an integer, on either side. -/
def spec_near_integer (x : ℚ) : Prop := |x - (round x : ℚ)| < 1e-4

instance (x : ℚ) : Decidable (spec_near_integer x) := by
  unfold spec_near_integer
  infer_instance

/-- The loop point in the words of the specification: the exact phase at
index `k` has passed 9.5 cycles and is within `1e-4` of an integer. -/
def spec_loop_point (note_freq : ℚ) (sample_rate k : Nat) : Prop :=
  9.5 ≤ exact_phase note_freq sample_rate k ∧
    spec_near_integer (exact_phase note_freq sample_rate k)

/-- A tone generator for examples: every wave is the single sample 1. -/
def unit_waves : tone_generator_t := fun _ => { length := 1, samples := [1] }

/-- A tone generator for examples: the wave of wheel `w` has the two samples
1 and `w`. -/
def wheel_waves : tone_generator_t := fun w => { length := 2, samples := [1, (w : ℚ)] }

/-- The state of the end-to-end scenario: the instrument initialised at
48000 Hz, clock 0, no active note, drawbar gains 0, 0, 1, 0, 0, 0, 0, 0, 0. -/
def scenario_my : instrument_t :=
  { startup 48000 with drawbar_gains := fun d => if d = 2 then 1 else 0 }

/-! ## Abstract view of the registry -/

/-- A doubly linked segment: `next` leads from `p` through the notes of `l` to
`q`, and `prev` leads back. -/
def seg (notes : notes_t) : Nat → List Nat → Nat → Prop
  | p, [], q => (notes p).next = q ∧ (notes q).prev = p
  | p, x :: xs, q => (notes p).next = x ∧ (notes x).prev = p ∧ seg notes x xs q

/-- The registry holds exactly the list `l` of active keys: the sentinel and
`l` form a doubly linked cycle, `l` has no repetition, its members are keys
with `is_on` set, and every key with `is_on` set is a member. -/
def holds (notes : notes_t) (l : List Nat) : Prop :=
  seg notes DUMMY_NOTE l DUMMY_NOTE ∧ l.Nodup ∧
    (∀ x ∈ l, x < NUM_KEYS ∧ (notes x).is_on = true) ∧
    (∀ k, k < NUM_KEYS → (notes k).is_on = true → k ∈ l)

/-- A registry with key 5 sounding: the start-up registry after `add_note` of 5. -/
def notes_key5 : notes_t :=
  match add_note (startup 48000).notes 5 with
  | some (notes, _) => notes
  | none => (startup 48000).notes

/-- A write to the note array made by `process_callback`: a call of
`add_note`, a call of `remove_note`, or an assignment to the envelope of a
note (the note-on handler and `update_envelope` make such assignments). -/
inductive registry_call where
  | add (key : Nat)
  | remove (key : Nat)
  | set_envelope (key : Nat) (e : envelope_t)
deriving DecidableEq

/-- The note a registry call addresses. -/
def registry_call.key : registry_call → Nat
  | .add key => key
  | .remove key => key
  | .set_envelope key _ => key

/-- The note array after one registry call. -/
def run_call (notes : notes_t) : registry_call → Option notes_t
  | .add key => (add_note notes key).map Prod.fst
  | .remove key => (remove_note notes key).map Prod.fst
  | .set_envelope key e =>
    if NOTES_LEN ≤ key then none
    else some (Function.update notes key { notes key with envelope := e })

/-- The note array after a sequence of registry calls. -/
def run_calls (notes : notes_t) : List registry_call → Option notes_t
  | [] => some notes
  | c :: cs =>
    match run_call notes c with
    | none => none
    | some n1 => run_calls n1 cs

/-! # Theorems -/

/-! ## Constants and conversions -/

theorem NUM_KEYS_eq : NUM_KEYS = 61 := rfl

theorem DUMMY_NOTE_eq : DUMMY_NOTE = 61 := rfl

theorem NOTES_LEN_eq : NOTES_LEN = 62 := rfl

/-! ## Effect of the registry operations on the fields -/

/-- A successful `add_note`, field by field. -/
theorem add_note_fields (notes : notes_t) (k : Nat) (hk : k < 61)
    (hoff : (notes k).is_on = false) (hf : (notes 61).next < 62) :
    ∃ notes', add_note notes k = some (notes', true) ∧
      (∀ x, (notes' x).is_on = if x = k then true else (notes x).is_on) ∧
      (∀ x, (notes' x).next =
        if x = 61 then k else if x = k then (notes 61).next else (notes x).next) ∧
      (∀ x, (notes' x).prev =
        if x = (notes 61).next then k else if x = k then 61 else (notes x).prev) ∧
      (∀ x, (notes' x).envelope = (notes x).envelope) := by
  have hk61 : k ≠ 61 := by omega
  have h61k : (61 : Nat) ≠ k := by omega
  have hk62 : ¬ 62 ≤ k := by omega
  have hf62 : ¬ 62 ≤ (notes 61).next := by omega
  simp only [add_note, NOTES_LEN_eq, DUMMY_NOTE_eq, hoff, hk62, Function.update_apply, h61k,
    if_false, Bool.false_eq_true, hf62]
  refine ⟨_, rfl, ?_, ?_, ?_, ?_⟩
  · intro x
    simp only [Function.update_apply]
    split_ifs <;> (try dsimp only at *) <;> first | rfl | omega | (congr 2; omega)
  · intro x
    simp only [Function.update_apply]
    split_ifs <;> (try dsimp only at *) <;> first | rfl | omega | (congr 2; omega)
  · intro x
    simp only [Function.update_apply]
    split_ifs <;> (try dsimp only at *) <;> first | rfl | omega | (congr 2; omega)
  · intro x
    simp only [Function.update_apply]
    split_ifs <;> (try dsimp only at *) <;> first | rfl | omega | (congr 2; omega)

/-- A successful `remove_note`, field by field. -/
theorem remove_note_fields (notes : notes_t) (k : Nat) (hk : k < 62)
    (hon : (notes k).is_on = true) (hp : (notes k).prev < 62) (hn : (notes k).next < 62) :
    ∃ notes', remove_note notes k = some (notes', true) ∧
      (∀ x, (notes' x).is_on = if x = k then false else (notes x).is_on) ∧
      (∀ x, (notes' x).next = if x = (notes k).prev then (notes k).next else (notes x).next) ∧
      (∀ x, (notes' x).prev = if x = (notes k).next then (notes k).prev else (notes x).prev) ∧
      (∀ x, (notes' x).envelope = (notes x).envelope) := by
  have hk62 : ¬ 62 ≤ k := by omega
  have hp62 : ¬ 62 ≤ (notes k).prev := by omega
  have hn62 : ¬ 62 ≤ (notes k).next := by omega
  simp only [remove_note, NOTES_LEN_eq, hon, hk62, Function.update_same, Bool.not_true,
    Bool.false_eq_true, if_false, hp62, hn62]
  refine ⟨_, rfl, ?_, ?_, ?_, ?_⟩
  · intro x
    simp only [Function.update_apply]
    split_ifs <;> (try dsimp only at *) <;> first | rfl | omega | (congr 2; omega)
  · intro x
    simp only [Function.update_apply]
    split_ifs <;> (try dsimp only at *) <;> first | rfl | omega | (congr 2; omega)
  · intro x
    simp only [Function.update_apply]
    split_ifs <;> (try dsimp only at *) <;> first | rfl | omega | (congr 2; omega)
  · intro x
    simp only [Function.update_apply]
    split_ifs <;> (try dsimp only at *) <;> first | rfl | omega | (congr 2; omega)

/-! ## Doubly linked segments -/

/-- A segment only depends on the `next` links of its source side and the
`prev` links of its target side. -/
theorem seg_congr (n n' : notes_t) (l : List Nat) : ∀ (p q : Nat),
    (∀ x ∈ p :: l, (n' x).next = (n x).next) →
    (∀ x ∈ l ++ [q], (n' x).prev = (n x).prev) →
    seg n p l q → seg n' p l q := by
  induction l with
  | nil =>
    intro p q hn hp h
    simp only [seg] at h ⊢
    rw [hn p (by simp), hp q (by simp)]
    exact h
  | cons y ys ih =>
    intro p q hn hp h
    simp only [seg] at h ⊢
    refine ⟨?_, ?_, ih y q ?_ ?_ h.2.2⟩
    · rw [hn p (by simp)]; exact h.1
    · rw [hp y (by simp)]; exact h.2.1
    · intro x hx
      exact hn x (List.mem_cons_of_mem _ hx)
    · intro x hx
      exact hp x (by simpa using Or.inr (by simpa using hx))

/-- The first `next` link of a segment leads into the segment or to its end. -/
theorem seg_next_mem (n : notes_t) (l : List Nat) (p q : Nat) (h : seg n p l q) :
    (n p).next ∈ l ++ [q] := by
  cases l with
  | nil => simp only [seg] at h; simp [h.1]
  | cons y ys => simp only [seg] at h; simp [h.1]

/-- The last `prev` link of a segment leads into the segment or to its start. -/
theorem seg_prev_mem (n : notes_t) (l : List Nat) : ∀ (p q : Nat), seg n p l q →
    (n q).prev ∈ p :: l := by
  induction l with
  | nil => intro p q h; simp only [seg] at h; simp [h.2]
  | cons y ys ih =>
    intro p q h
    simp only [seg] at h
    exact List.mem_cons_of_mem _ (ih y q h.2.2)

/-- Along a segment `prev` undoes `next`. -/
theorem seg_prev_next (n : notes_t) (l : List Nat) : ∀ (p q : Nat), seg n p l q →
    ∀ x ∈ p :: l, (n (n x).next).prev = x := by
  induction l with
  | nil =>
    intro p q h x hx
    simp only [seg] at h
    simp only [List.mem_singleton] at hx
    subst hx
    rw [h.1, h.2]
  | cons y ys ih =>
    intro p q h x hx
    simp only [seg] at h
    rcases List.mem_cons.1 hx with rfl | hx'
    · rw [h.1, h.2.1]
    · exact ih y q h.2.2 x hx'

/-- Along a segment `next` undoes `prev`. -/
theorem seg_next_prev (n : notes_t) (l : List Nat) : ∀ (p q : Nat), seg n p l q →
    ∀ x ∈ l ++ [q], (n (n x).prev).next = x := by
  induction l with
  | nil =>
    intro p q h x hx
    simp only [seg] at h
    simp only [List.nil_append, List.mem_singleton] at hx
    subst hx
    rw [h.2, h.1]
  | cons y ys ih =>
    intro p q h x hx
    simp only [seg] at h
    rcases List.mem_cons.1 hx with rfl | hx'
    · rw [h.2.1, h.1]
    · exact ih y q h.2.2 x hx'

/-- A segment through `l1 ++ x :: l2` splits at `x`. -/
theorem seg_append (n : notes_t) (l1 : List Nat) : ∀ (p x : Nat) (l2 : List Nat) (q : Nat),
    seg n p (l1 ++ x :: l2) q ↔ seg n p l1 x ∧ seg n x l2 q := by
  induction l1 with
  | nil =>
    intro p x l2 q
    simp only [List.nil_append, seg]
    tauto
  | cons y ys ih =>
    intro p x l2 q
    rw [List.cons_append]
    simp only [seg]
    rw [ih y x l2 q]
    tauto

/-- The forward traversal of a segment that ends at the sentinel visits
exactly the notes of the segment. -/
theorem seg_walk_next (n : notes_t) (l : List Nat) : ∀ (p fuel : Nat),
    seg n p l 61 → (∀ x ∈ l, x < 61) → l.length ≤ fuel →
    walk_next n fuel (n p).next = some l := by
  induction l with
  | nil =>
    intro p fuel h _ _
    simp only [seg] at h
    unfold walk_next
    rw [h.1, if_pos DUMMY_NOTE_eq.symm]
  | cons y ys ih =>
    intro p fuel h hlt hlen
    simp only [seg] at h
    have hy : y < 61 := hlt y (by simp)
    cases fuel with
    | zero => simp at hlen
    | succ f =>
      unfold walk_next
      rw [h.1, if_neg (by simp only [DUMMY_NOTE_eq]; omega),
        if_neg (by simp only [NOTES_LEN_eq]; omega)]
      simp only
      rw [ih y f h.2.2 (fun x hx => hlt x (List.mem_cons_of_mem _ hx))
        (by simpa using hlen)]
      rfl

/-- The backward traversal of a segment that starts at the sentinel visits
the notes of the segment in reverse order. -/
theorem seg_walk_prev (n : notes_t) (l : List Nat) : ∀ (q fuel : Nat),
    seg n 61 l q → (∀ x ∈ l, x < 61) → l.length ≤ fuel →
    walk_prev n fuel (n q).prev = some l.reverse := by
  induction l using List.reverseRecOn with
  | nil =>
    intro q fuel h _ _
    simp only [seg] at h
    unfold walk_prev
    rw [h.2, if_pos DUMMY_NOTE_eq.symm]
    rfl
  | append_singleton ys y ih =>
    intro q fuel h hlt hlen
    rw [seg_append] at h
    obtain ⟨h1, h2⟩ := h
    simp only [seg] at h2
    have hy : y < 61 := hlt y (by simp)
    cases fuel with
    | zero => simp at hlen
    | succ f =>
      unfold walk_prev
      rw [h2.2, if_neg (by simp only [DUMMY_NOTE_eq]; omega),
        if_neg (by simp only [NOTES_LEN_eq]; omega)]
      simp only
      rw [ih y f h1 (fun x hx => hlt x (by simp [hx])) (by simpa using hlen)]
      simp

/-- A successful forward traversal yields a segment, provided `prev` undoes
`next` along it. -/
theorem walk_next_seg (n : notes_t) (l : List Nat) : ∀ (p fuel : Nat),
    walk_next n fuel (n p).next = some l →
    (∀ x ∈ p :: l, (n (n x).next).prev = x) →
    seg n p l 61 ∧ (∀ x ∈ l, x < 61) ∧ l.length ≤ fuel := by
  induction l with
  | nil =>
    intro p fuel h hpn
    unfold walk_next at h
    by_cases h61 : (n p).next = 61
    · have := hpn p (by simp)
      rw [h61] at this
      simp [seg, h61, this]
    · rw [if_neg (by simpa only [DUMMY_NOTE_eq] using h61)] at h
      split_ifs at h
      cases fuel with
      | zero => simp at h
      | succ f => simp at h
  | cons y ys ih =>
    intro p fuel h hpn
    unfold walk_next at h
    by_cases h61 : (n p).next = 61
    · rw [if_pos (by simpa only [DUMMY_NOTE_eq] using h61)] at h
      simp at h
    · rw [if_neg (by simpa only [DUMMY_NOTE_eq] using h61)] at h
      split_ifs at h with h62
      cases fuel with
      | zero => simp at h
      | succ f =>
        simp only [Option.map_eq_some'] at h
        obtain ⟨l', hl', hcons⟩ := h
        injection hcons with hhead htail
        subst htail
        have hpy : (n p).next = y := hhead
        rw [hpy] at hl'
        obtain ⟨hs, hlt, hlen⟩ := ih y f hl' (fun x hx => hpn x (List.mem_cons_of_mem _ hx))
        have hprev := hpn p (by simp)
        rw [hpy] at hprev
        refine ⟨⟨hpy, hprev, hs⟩, ?_, by simpa using hlen⟩
        intro x hx
        rcases List.mem_cons.1 hx with rfl | hx'
        · simp only [NOTES_LEN_eq] at h62
          omega
        · exact hlt x hx'

/-- Unlinking `k` from between two segments joins them. -/
theorem seg_splice (n n' : notes_t) (k q : Nat) (l2 : List Nat) (l1 : List Nat) : ∀ (p : Nat),
    seg n p l1 k → seg n k l2 q →
    (p :: (l1 ++ k :: l2)).Nodup → q ∉ l1 ++ k :: l2 →
    (∀ x, (n' x).next = if x = (n k).prev then (n k).next else (n x).next) →
    (∀ x, (n' x).prev = if x = (n k).next then (n k).prev else (n x).prev) →
    seg n' p (l1 ++ l2) q := by
  induction l1 with
  | nil =>
    intro p h1 h2 hnd hq hnext hprev
    simp only [seg] at h1
    simp only [List.nil_append, List.nodup_cons, List.mem_cons, not_or] at hnd hq
    cases l2 with
    | nil =>
      simp only [seg] at h2
      simp only [List.nil_append, seg]
      rw [hnext p, hprev q, h1.2, h2.1]
      simp
    | cons y ys =>
      simp only [seg] at h2
      simp only [List.nil_append, seg]
      simp only [List.nodup_cons, List.mem_cons, not_or] at hnd hq
      refine ⟨?_, ?_, ?_⟩
      · rw [hnext p, h1.2, h2.1]; simp
      · rw [hprev y, h1.2, h2.1]; simp
      · refine seg_congr n n' ys y q ?_ ?_ h2.2.2
        · intro x hx
          rw [hnext x, h1.2, if_neg]
          rintro rfl
          rcases List.mem_cons.1 hx with rfl | hx'
          · exact hnd.1.2.1 rfl
          · exact hnd.1.2.2 hx'
        · intro x hx
          rw [hprev x, h2.1, if_neg]
          rintro rfl
          rcases List.mem_append.1 hx with hx' | hx'
          · exact hnd.2.2.1 hx'
          · simp only [List.mem_singleton] at hx'
            exact hq.2.1 hx'.symm
  | cons z zs ih =>
    intro p h1 h2 hnd hq hnext hprev
    simp only [seg] at h1
    rw [List.cons_append] at hnd hq
    have hnd' := (List.nodup_cons.1 hnd).2
    have hpn := (List.nodup_cons.1 hnd).1
    have hq' : q ∉ zs ++ k :: l2 := fun hm => hq (List.mem_cons_of_mem _ hm)
    have hs := ih z h1.2.2 h2 hnd' hq' hnext hprev
    rw [List.cons_append]
    simp only [seg]
    refine ⟨?_, ?_, hs⟩
    · rw [hnext p, if_neg, h1.1]
      intro hp
      have hm := seg_prev_mem n zs z k h1.2.2
      rw [← hp] at hm
      exact hpn (by
        rcases List.mem_cons.1 hm with rfl | hm'
        · simp
        · simp [hm'])
    · rw [hprev z, if_neg, h1.2.1]
      intro hz
      have hm := seg_next_mem n l2 k q h2
      rw [← hz] at hm
      rcases List.mem_append.1 hm with hm' | hm'
      · have := (List.nodup_cons.1 hnd').1
        exact this (by simp [hm'])
      · simp only [List.mem_singleton] at hm'
        exact hq (by simp [hm'])

/-! ## The registry as a list of active keys -/

/-- A list without repetition of numbers below `m` has at most `m` members. -/
theorem nodup_length_le (l : List Nat) (m : Nat) (hnd : l.Nodup) (hlt : ∀ x ∈ l, x < m) :
    l.length ≤ m := by
  have hsub : l.toFinset ⊆ Finset.range m := by
    intro x hx
    exact Finset.mem_range.2 (hlt x (List.mem_toFinset.1 hx))
  have hcard := Finset.card_le_card hsub
  rw [List.toFinset_card_of_nodup hnd, Finset.card_range] at hcard
  exact hcard

/-- The renderer visits exactly the list held by the registry. -/
theorem holds_active (n : notes_t) (l : List Nat) (h : holds n l) :
    active_notes n = some l := by
  obtain ⟨hs, hnd, hon, _⟩ := h
  exact seg_walk_next n l 61 61 hs (fun x hx => (hon x hx).1)
    (nodup_length_le l 61 hnd (fun x hx => (hon x hx).1))

/-- The backward traversal meets the list held by the registry, reversed. -/
theorem holds_active_rev (n : notes_t) (l : List Nat) (h : holds n l) :
    active_notes_rev n = some l.reverse := by
  obtain ⟨hs, hnd, hon, _⟩ := h
  exact seg_walk_prev n l 61 61 hs (fun x hx => (hon x hx).1)
    (nodup_length_le l 61 hnd (fun x hx => (hon x hx).1))

/-- A registry that holds a list is well formed. -/
theorem holds_wf (n : notes_t) (l : List Nat) (h : holds n l) : wf n := by
  refine ⟨l, holds_active n l h, h.2.1, fun x hx => (h.2.2.1 x hx).2, h.2.2.2, ?_⟩
  exact seg_prev_next n l 61 61 h.1

/-- A well-formed registry holds the list its traversal returns. -/
theorem wf_holds (n : notes_t) (l : List Nat) (hwf : wf n) (hl : active_notes n = some l) :
    holds n l := by
  obtain ⟨l', hl', hnd, hon, hall, hpn⟩ := hwf
  rw [hl] at hl'
  cases hl'
  obtain ⟨hs, hlt, _⟩ := walk_next_seg n l 61 61 hl hpn
  exact ⟨hs, hnd, fun x hx => ⟨hlt x hx, hon x hx⟩, hall⟩

/-- A well-formed registry holds some list. -/
theorem wf_exists_holds (n : notes_t) (hwf : wf n) : ∃ l, holds n l := by
  obtain ⟨l, hl, _⟩ := id hwf
  exact ⟨l, wf_holds n l hwf hl⟩

/-- Adding an inactive key to a registry that holds `l` succeeds and gives a
registry that holds `k :: l`. -/
theorem add_note_holds (n : notes_t) (k : Nat) (l : List Nat) (h : holds n l)
    (hk : k < 61) (hoff : (n k).is_on = false) :
    ∃ n', add_note n k = some (n', true) ∧ holds n' (k :: l) ∧
      (∀ x, (n' x).is_on = if x = k then true else (n x).is_on) ∧
      (∀ x, (n' x).envelope = (n x).envelope) ∧
      (∀ x, (n' x).next = if x = 61 then k else if x = k then (n 61).next else (n x).next) ∧
      (∀ x, (n' x).prev = if x = (n 61).next then k else if x = k then 61 else (n x).prev) ∧
      (n 61).next ≠ k := by
  obtain ⟨hs, hnd, hon, hall⟩ := h
  change seg n 61 l 61 at hs
  have hkl : k ∉ l := by
    intro hm
    have := (hon k hm).2
    rw [hoff] at this
    cases this
  have hfm := seg_next_mem n l 61 61 hs
  have hf : (n 61).next < 62 := by
    rcases List.mem_append.1 hfm with hm | hm
    · have := (hon _ hm).1
      simp only [NUM_KEYS_eq] at this
      omega
    · simp only [List.mem_singleton] at hm
      omega
  have hfk : (n 61).next ≠ k := by
    intro he
    rw [he] at hfm
    rcases List.mem_append.1 hfm with hm | hm
    · exact hkl hm
    · simp only [List.mem_singleton] at hm
      omega
  obtain ⟨n', hadd, hison, hnext, hprev, henv⟩ := add_note_fields n k hk hoff hf
  refine ⟨n', hadd, ⟨?_, ?_, ?_, ?_⟩, hison, henv, hnext, hprev, hfk⟩
  · -- the cycle
    show seg n' 61 (k :: l) 61
    simp only [seg]
    refine ⟨?_, ?_, ?_⟩
    · rw [hnext 61, if_pos rfl]
    · rw [hprev k, if_neg (Ne.symm hfk), if_pos rfl]
    · cases l with
      | nil =>
        simp only [seg] at hs ⊢
        rw [hnext k, hprev 61, if_neg (by omega), if_pos rfl, hs.1, if_pos rfl]
        exact ⟨rfl, rfl⟩
      | cons y ys =>
        simp only [seg] at hs ⊢
        have hy : y < 61 := (hon y (by simp)).1
        have hyk : y ≠ k := fun he => hkl (by simp [he])
        refine ⟨?_, ?_, seg_congr n n' ys y 61 ?_ ?_ hs.2.2⟩
        · rw [hnext k, if_neg (by omega), if_pos rfl, hs.1]
        · rw [hprev y, hs.1, if_pos rfl]
        · intro x hx
          have hx61 : x < 61 := (hon x hx).1
          have hxk : x ≠ k := fun he => hkl (by rw [← he]; exact hx)
          rw [hnext x, if_neg (by omega), if_neg hxk]
        · intro x hx
          rw [hprev x, hs.1]
          have hxy : x ≠ y := by
            rintro rfl
            rcases List.mem_append.1 hx with hm | hm
            · exact (List.nodup_cons.1 hnd).1 hm
            · simp only [List.mem_singleton] at hm
              omega
          have hxk : x ≠ k := by
            rintro rfl
            rcases List.mem_append.1 hx with hm | hm
            · exact hkl (List.mem_cons_of_mem _ hm)
            · simp only [List.mem_singleton] at hm
              omega
          rw [if_neg hxy, if_neg hxk]
  · exact List.nodup_cons.2 ⟨hkl, hnd⟩
  · intro x hx
    rcases List.mem_cons.1 hx with rfl | hx'
    · exact ⟨hk, by rw [hison x, if_pos rfl]⟩
    · refine ⟨(hon x hx').1, ?_⟩
      rw [hison x]
      split_ifs
      · rfl
      · exact (hon x hx').2
  · intro j hj hjon
    rw [hison j] at hjon
    by_cases hjk : j = k
    · simp [hjk]
    · rw [if_neg hjk] at hjon
      exact List.mem_cons_of_mem _ (hall j hj hjon)

/-- Removing an active key from a registry that holds `l1 ++ k :: l2` succeeds
and gives a registry that holds `l1 ++ l2`. -/
theorem remove_note_holds (n : notes_t) (k : Nat) (l1 l2 : List Nat)
    (h : holds n (l1 ++ k :: l2)) :
    ∃ n', remove_note n k = some (n', true) ∧ holds n' (l1 ++ l2) ∧
      (∀ x, (n' x).is_on = if x = k then false else (n x).is_on) ∧
      (∀ x, (n' x).envelope = (n x).envelope) ∧
      (∀ x, (n' x).next = if x = (n k).prev then (n k).next else (n x).next) ∧
      (∀ x, (n' x).prev = if x = (n k).next then (n k).prev else (n x).prev) := by
  obtain ⟨hs, hnd, hon, hall⟩ := h
  change seg n 61 (l1 ++ k :: l2) 61 at hs
  have hk : k < 61 := (hon k (by simp)).1
  have hkon : (n k).is_on = true := (hon k (by simp)).2
  obtain ⟨hs1, hs2⟩ := (seg_append n l1 61 k l2 61).1 hs
  have hlt62 : ∀ x ∈ 61 :: (l1 ++ k :: l2), x < 62 := by
    intro x hx
    rcases List.mem_cons.1 hx with rfl | hx'
    · omega
    · have := (hon x hx').1
      simp only [NUM_KEYS_eq] at this
      omega
  have hp : (n k).prev < 62 := by
    have hm := seg_prev_mem n l1 61 k hs1
    exact hlt62 _ (by
      rcases List.mem_cons.1 hm with he | hm'
      · simp [he]
      · simp [hm'])
  have hn : (n k).next < 62 := by
    have hm := seg_next_mem n l2 k 61 hs2
    rcases List.mem_append.1 hm with hm' | hm'
    · exact hlt62 _ (by simp [hm'])
    · simp only [List.mem_singleton] at hm'
      omega
  obtain ⟨n', hrem, hison, hnext, hprev, henv⟩ := remove_note_fields n k (by omega) hkon hp hn
  have h61 : (61 : Nat) ∉ l1 ++ k :: l2 := by
    intro hm
    have := (hon 61 hm).1
    simp only [NUM_KEYS_eq] at this
    omega
  have hkl1 : k ∉ l1 := by
    intro hm
    have := List.nodup_append.1 hnd
    exact this.2.2 hm (by simp)
  have hkl2 : k ∉ l2 := by
    intro hm
    have := (List.nodup_append.1 hnd).2.1
    exact (List.nodup_cons.1 this).1 hm
  refine ⟨n', hrem, ⟨?_, ?_, ?_, ?_⟩, hison, henv, hnext, hprev⟩
  · exact seg_splice n n' k 61 l2 l1 61 hs1 hs2 (List.nodup_cons.2 ⟨h61, hnd⟩) h61 hnext hprev
  · have hsub : (l1 ++ l2).Sublist (l1 ++ k :: l2) :=
      List.Sublist.append (List.Sublist.refl l1) (List.sublist_cons_self k l2)
    exact hnd.sublist hsub
  · intro x hx
    have hx' : x ∈ l1 ++ k :: l2 := by
      rcases List.mem_append.1 hx with hm | hm
      · simp [hm]
      · simp [hm]
    have hxk : x ≠ k := by
      rintro rfl
      rcases List.mem_append.1 hx with hm | hm
      · exact hkl1 hm
      · exact hkl2 hm
    refine ⟨(hon x hx').1, ?_⟩
    rw [hison x, if_neg hxk]
    exact (hon x hx').2
  · intro j hj hjon
    rw [hison j] at hjon
    by_cases hjk : j = k
    · rw [if_pos hjk] at hjon
      cases hjon
    · rw [if_neg hjk] at hjon
      have hm := hall j hj hjon
      rcases List.mem_append.1 hm with hm' | hm'
      · simp [hm']
      · rcases List.mem_cons.1 hm' with he | hm''
        · exact absurd he hjk
        · simp [hm'']

/-- Deleting `k` from a list in which it occurs once. -/
theorem filter_ne_append (k : Nat) (l1 l2 : List Nat) (h1 : k ∉ l1) (h2 : k ∉ l2) :
    (l1 ++ k :: l2).filter (fun x => x ≠ k) = l1 ++ l2 := by
  rw [List.filter_append, List.filter_cons]
  have e1 : l1.filter (fun x => x ≠ k) = l1 :=
    List.filter_eq_self.2 (fun x hx => by
      have : x ≠ k := fun he => h1 (he ▸ hx)
      simpa using this)
  have e2 : l2.filter (fun x => x ≠ k) = l2 :=
    List.filter_eq_self.2 (fun x hx => by
      have : x ≠ k := fun he => h2 (he ▸ hx)
      simpa using this)
  rw [e1, e2]
  simp

/-- The start-up registry holds the empty list. -/
theorem holds_startup (sample_rate : Nat) : holds (startup sample_rate).notes [] := by
  refine ⟨?_, List.nodup_nil, ?_, ?_⟩
  · simp [seg, startup, init, my_zero]
  · intro x hx
    cases hx
  · intro k hk hon
    simp only [startup, init, my_zero, Function.update_apply] at hon
    split_ifs at hon

/-- On a registry that holds a list, `add_note` of a key returns, and the
registry then holds a list again; only the flag of that key can change. -/
theorem add_note_total (n : notes_t) (j : Nat) (l : List Nat) (h : holds n l) (hj : j < 61) :
    ∃ n' b l', add_note n j = some (n', b) ∧ holds n' l' ∧
      (∀ x, x ≠ j → (n' x).is_on = (n x).is_on) := by
  cases hon : (n j).is_on with
  | true =>
    refine ⟨n, false, l, ?_, h, fun _ _ => rfl⟩
    simp only [add_note, NOTES_LEN_eq, hon, if_true]
    rw [if_neg (by omega)]
  | false =>
    obtain ⟨n', hadd, hh, hison, _⟩ := add_note_holds n j l h hj hon
    refine ⟨n', true, j :: l, hadd, hh, ?_⟩
    intro x hx
    rw [hison x, if_neg hx]

/-- On a registry that holds a list, `remove_note` of a key returns, and the
registry then holds a list again; no flag is set by it. -/
theorem remove_note_total (n : notes_t) (j : Nat) (l : List Nat) (h : holds n l) (hj : j < 61) :
    ∃ n' b l', remove_note n j = some (n', b) ∧ holds n' l' ∧
      (∀ x, (n' x).is_on = true → (n x).is_on = true) := by
  cases hon : (n j).is_on with
  | false =>
    refine ⟨n, false, l, ?_, h, fun _ hx => hx⟩
    simp only [remove_note, NOTES_LEN_eq, hon]
    rw [if_neg (by omega)]
    simp
  | true =>
    have hm : j ∈ l := h.2.2.2 j (by simp only [NUM_KEYS_eq]; omega) hon
    obtain ⟨l1, l2, rfl⟩ := List.append_of_mem hm
    obtain ⟨n', hrem, hh, hison, _⟩ := remove_note_holds n j l1 l2 h
    refine ⟨n', true, l1 ++ l2, hrem, hh, ?_⟩
    intro x hx
    rw [hison x] at hx
    split_ifs at hx
    exact hx

/-- An assignment to the envelope of a note leaves the list held by the
registry as it is. -/
theorem holds_set_envelope (n : notes_t) (l : List Nat) (j : Nat) (e : envelope_t)
    (h : holds n l) : holds (Function.update n j { n j with envelope := e }) l := by
  obtain ⟨hs, hnd, hon, hall⟩ := h
  have hfield : ∀ x, ((Function.update n j { n j with envelope := e }) x).is_on = (n x).is_on ∧
      ((Function.update n j { n j with envelope := e }) x).next = (n x).next ∧
      ((Function.update n j { n j with envelope := e }) x).prev = (n x).prev := by
    intro x
    simp only [Function.update_apply]
    split_ifs with hx
    · subst hx
      exact ⟨rfl, rfl, rfl⟩
    · exact ⟨rfl, rfl, rfl⟩
  refine ⟨seg_congr n _ l 61 61 (fun x _ => (hfield x).2.1) (fun x _ => (hfield x).2.2) hs,
    hnd, ?_, ?_⟩
  · intro x hx
    exact ⟨(hon x hx).1, by rw [(hfield x).1]; exact (hon x hx).2⟩
  · intro k hk hkon
    rw [(hfield k).1] at hkon
    exact hall k hk hkon

/-- A registry call on a key keeps the registry well formed and sets no flag
other than that of an added key. -/
theorem run_call_holds (n : notes_t) (c : registry_call) (l : List Nat) (h : holds n l)
    (hc : c.key < 61) :
    ∃ n' l', run_call n c = some n' ∧ holds n' l' ∧
      (∀ k, c ≠ registry_call.add k → (n' k).is_on = true → (n k).is_on = true) := by
  cases c with
  | add j =>
    obtain ⟨n', b, l', hadd, hh, hison⟩ := add_note_total n j l h hc
    refine ⟨n', l', by simp [run_call, hadd], hh, ?_⟩
    intro k hk hon
    have hkj : k ≠ j := fun he => hk (by rw [he])
    rw [← hison k hkj]
    exact hon
  | remove j =>
    obtain ⟨n', b, l', hrem, hh, hison⟩ := remove_note_total n j l h hc
    exact ⟨n', l', by simp [run_call, hrem], hh, fun k _ hon => hison k hon⟩
  | set_envelope j e =>
    have hj : j < 61 := hc
    refine ⟨Function.update n j { n j with envelope := e }, l, ?_, ?_, ?_⟩
    · simp only [run_call, NOTES_LEN_eq]
      rw [if_neg (by omega)]
    · exact holds_set_envelope n l j e h
    · intro k _ hon
      simp only [Function.update_apply] at hon
      split_ifs at hon with hx
      · subst hx
        exact hon
      · exact hon

/-- A sequence of registry calls on keys runs to completion and keeps the
registry well formed; a key that none of the calls adds is not switched on. -/
theorem run_calls_holds (cs : List registry_call) : ∀ (n : notes_t) (l : List Nat),
    holds n l → (∀ c ∈ cs, c.key < 61) →
    ∃ n' l', run_calls n cs = some n' ∧ holds n' l' ∧
      (∀ k, (∀ c ∈ cs, c ≠ registry_call.add k) → (n' k).is_on = true → (n k).is_on = true) := by
  induction cs with
  | nil =>
    intro n l h _
    exact ⟨n, l, rfl, h, fun _ _ hon => hon⟩
  | cons c cs ih =>
    intro n l h hkeys
    obtain ⟨n1, l1, hrun, hh1, hon1⟩ := run_call_holds n c l h (hkeys c (by simp))
    obtain ⟨n2, l2, hrun2, hh2, hon2⟩ := ih n1 l1 hh1 (fun c' hc' => hkeys c' (by simp [hc']))
    refine ⟨n2, l2, by simp [run_calls, hrun, hrun2], hh2, ?_⟩
    intro k hk hon
    exact hon1 k (hk c (by simp)) (hon2 k (fun c' hc' => hk c' (by simp [hc'])) hon)

/-- The last `prev` link of a segment names its last note. -/
theorem seg_prev_getLastD (n : notes_t) (l : List Nat) : ∀ (p q : Nat), seg n p l q →
    (n q).prev = l.getLastD p := by
  induction l with
  | nil => intro p q h; simp only [seg] at h; simpa using h.2
  | cons y ys ih =>
    intro p q h
    simp only [seg] at h
    rw [ih y q h.2.2, List.getLastD_cons]

/-- Key 5 is silent at start-up. -/
theorem startup_key5_off : ((startup 48000).notes 5).is_on = false := by
  simp [startup, init, my_zero, Function.update_apply, DUMMY_NOTE_eq]

/-- The registry `notes_key5` holds the single key 5. -/
theorem holds_key5 : holds notes_key5 [5] := by
  obtain ⟨n', hadd, hh, _⟩ :=
    add_note_holds (startup 48000).notes 5 [] (holds_startup 48000) (by omega)
      startup_key5_off
  have he : notes_key5 = n' := by
    unfold notes_key5
    rw [hadd]
  rw [he]
  exact hh

/-- Key 5 is sounding in `notes_key5`. -/
theorem key5_is_on : (notes_key5 5).is_on = true :=
  (holds_key5.2.2.1 5 (by simp)).2

/-- The early return of `add_note` on a key whose `is_on` is set. -/
theorem add_note_on (notes : notes_t) (k : Nat) (hk : k < 62) (hon : (notes k).is_on = true) :
    add_note notes k = some (notes, false) := by
  have hk62 : ¬ 62 ≤ k := by omega
  simp only [add_note, NOTES_LEN_eq, hon, if_true, hk62, if_false]

/-- The early return of `remove_note` on a key whose `is_on` is clear. -/
theorem remove_note_off (notes : notes_t) (k : Nat) (hk : k < 62)
    (hoff : (notes k).is_on = false) : remove_note notes k = some (notes, false) := by
  have hk62 : ¬ 62 ≤ k := by omega
  simp only [remove_note, NOTES_LEN_eq, hoff, hk62, if_false, Bool.not_false, if_true]

/-- Two note slots with the same four fields are equal. -/
theorem note_info_ext (a b : note_info_t) (h1 : a.is_on = b.is_on)
    (h2 : a.envelope = b.envelope) (h3 : a.next = b.next) (h4 : a.prev = b.prev) : a = b := by
  cases a
  cases b
  simp only [note_info_t.mk.injEq]
  exact ⟨h1, h2, h3, h4⟩

/-! ## The note registry: claims -/

/-- C1: redundant registry operations are no-ops.  For every note array and
every key `k` below 61, `add_note` of a key whose `is_on` is set returns 0 and
leaves the whole note array as it was, and `remove_note` of a key whose `is_on`
is clear returns 0 and leaves the whole note array as it was. -/
theorem redundant_calls_are_noops (notes : notes_t) (k : Nat) (hk : k < NUM_KEYS) :
    ((notes k).is_on = true → add_note notes k = some (notes, false)) ∧
    ((notes k).is_on = false → remove_note notes k = some (notes, false)) := by
  have hk62 : k < 62 := by
    simp only [NUM_KEYS_eq] at hk
    omega
  exact ⟨add_note_on notes k hk62, remove_note_off notes k hk62⟩

/-- C1 at concrete inputs: a second `add_note` of the sounding key 5, and a
`remove_note` of the silent key 5 of the start-up registry. -/
theorem redundant_calls_are_noops_witness :
    5 < NUM_KEYS ∧ (notes_key5 5).is_on = true ∧
    ((startup 48000).notes 5).is_on = false ∧
    add_note notes_key5 5 = some (notes_key5, false) ∧
    remove_note (startup 48000).notes 5 = some ((startup 48000).notes, false) :=
  ⟨by decide, key5_is_on, startup_key5_off,
    (redundant_calls_are_noops notes_key5 5 (by decide)).1 key5_is_on,
    (redundant_calls_are_noops (startup 48000).notes 5 (by decide)).2 startup_key5_off⟩

/-- C2: head insertion.  On a well-formed registry, `add_note` of a key `k`
below 61 that is not active returns 1, sets `is_on` of `k`, leaves every other
`is_on` flag as it was, and the list of notes visited from the sentinel through
`next` becomes `k` followed by the previous list; the previous head has `prev`
equal to `k`, the sentinel has `next` equal to `k`, and `k` has `prev` equal to
the sentinel and `next` equal to the previous head. -/
theorem add_note_head_insertion (notes : notes_t) (k : Nat) (hwf : wf notes)
    (hk : k < NUM_KEYS) (hoff : (notes k).is_on = false) :
    ∃ notes' l, add_note notes k = some (notes', true) ∧
      (notes' k).is_on = true ∧
      (∀ j, j ≠ k → (notes' j).is_on = (notes j).is_on) ∧
      active_notes notes = some l ∧
      active_notes notes' = some (k :: l) ∧
      (notes' (notes DUMMY_NOTE).next).prev = k ∧
      (notes' DUMMY_NOTE).next = k ∧
      (notes' k).prev = DUMMY_NOTE ∧
      (notes' k).next = (notes DUMMY_NOTE).next := by
  obtain ⟨l, hh⟩ := wf_exists_holds notes hwf
  obtain ⟨n', hadd, hh', hison, _, hnext, hprev, hfk⟩ := add_note_holds notes k l hh hk hoff
  have hk61 : k ≠ 61 := by
    simp only [NUM_KEYS_eq] at hk
    omega
  refine ⟨n', l, hadd, ?_, ?_, holds_active notes l hh, holds_active n' (k :: l) hh', ?_, ?_, ?_, ?_⟩
  · rw [hison k, if_pos rfl]
  · intro j hj
    rw [hison j, if_neg hj]
  · rw [DUMMY_NOTE_eq, hprev, if_pos rfl]
  · rw [DUMMY_NOTE_eq, hnext, if_pos rfl]
  · rw [DUMMY_NOTE_eq, hprev, if_neg (Ne.symm hfk), if_pos rfl]
  · rw [DUMMY_NOTE_eq, hnext, if_neg hk61, if_pos rfl]

/-- C2 at a concrete input: key 7 added to the registry in which key 5 sounds. -/
theorem add_note_head_insertion_witness :
    wf notes_key5 ∧ 7 < NUM_KEYS ∧ (notes_key5 7).is_on = false ∧
    ∃ notes', add_note notes_key5 7 = some (notes', true) ∧
      active_notes notes' = some [7, 5] := by
  have hoff : (notes_key5 7).is_on = false := by
    cases h : (notes_key5 7).is_on with
    | false => rfl
    | true =>
      have := holds_key5.2.2.2 7 (by decide) h
      simp at this
  refine ⟨holds_wf _ _ holds_key5, by decide, hoff, ?_⟩
  obtain ⟨notes', l, hadd, _, _, hl, hl', _⟩ :=
    add_note_head_insertion notes_key5 7 (holds_wf _ _ holds_key5) (by decide) hoff
  rw [holds_active _ _ holds_key5] at hl
  cases hl
  exact ⟨notes', hadd, hl'⟩

/-- C3: immediate removal.  On a well-formed registry, `remove_note` of an
active key `k` below 61 returns 1, clears `is_on` of `k`, leaves every other
`is_on` flag as it was, and the list of notes visited from the sentinel through
`next` becomes the previous list with `k` deleted, the other notes in their
previous order.  After any later sequence of registry calls on keys that
contains no `add_note` of `k`, the traversal still returns and does not
visit `k`. -/
theorem remove_note_immediate (notes : notes_t) (k : Nat) (hwf : wf notes)
    (hk : k < NUM_KEYS) (hon : (notes k).is_on = true) :
    ∃ notes' l, remove_note notes k = some (notes', true) ∧
      (notes' k).is_on = false ∧
      (∀ j, j ≠ k → (notes' j).is_on = (notes j).is_on) ∧
      active_notes notes = some l ∧
      active_notes notes' = some (l.filter (fun x => x ≠ k)) ∧
      ∀ calls : List registry_call,
        (∀ c ∈ calls, c.key < NUM_KEYS ∧ c ≠ registry_call.add k) →
        ∃ later l', run_calls notes' calls = some later ∧
          active_notes later = some l' ∧ k ∉ l' := by
  obtain ⟨l, hh⟩ := wf_exists_holds notes hwf
  have hm : k ∈ l := hh.2.2.2 k hk hon
  obtain ⟨l1, l2, rfl⟩ := List.append_of_mem hm
  obtain ⟨n', hrem, hh', hison, _⟩ := remove_note_holds notes k l1 l2 hh
  have hnd := hh.2.1
  have hkl1 : k ∉ l1 := fun hx => (List.nodup_append.1 hnd).2.2 hx (by simp)
  have hkl2 : k ∉ l2 := fun hx =>
    (List.nodup_cons.1 (List.nodup_append.1 hnd).2.1).1 hx
  have hkoff : (n' k).is_on = false := by rw [hison k, if_pos rfl]
  refine ⟨n', l1 ++ k :: l2, hrem, hkoff, ?_, holds_active notes _ hh, ?_, ?_⟩
  · intro j hj
    rw [hison j, if_neg hj]
  · rw [filter_ne_append k l1 l2 hkl1 hkl2]
    exact holds_active n' _ hh'
  · intro calls hcalls
    obtain ⟨later, l', hrun, hhl, hflag⟩ :=
      run_calls_holds calls n' (l1 ++ l2) hh' (fun c hc => (hcalls c hc).1)
    refine ⟨later, l', hrun, holds_active later l' hhl, ?_⟩
    intro hkl'
    have h1 := (hhl.2.2.1 k hkl').2
    have h2 := hflag k (fun c hc => (hcalls c hc).2) h1
    rw [hkoff] at h2
    cases h2

/-- C3 at a concrete input: key 5 removed from the registry in which only it
sounds. -/
theorem remove_note_immediate_witness :
    wf notes_key5 ∧ 5 < NUM_KEYS ∧ (notes_key5 5).is_on = true ∧
    ∃ notes', remove_note notes_key5 5 = some (notes', true) ∧
      active_notes notes' = some [] := by
  refine ⟨holds_wf _ _ holds_key5, by decide, key5_is_on, ?_⟩
  obtain ⟨notes', l, hrem, _, _, hl, hl', _⟩ :=
    remove_note_immediate notes_key5 5 (holds_wf _ _ holds_key5) (by decide) key5_is_on
  rw [holds_active _ _ holds_key5] at hl
  cases hl
  exact ⟨notes', hrem, by simpa using hl'⟩

/-- C4, as stated, fails when the key is already active: on the well-formed
registry in which key 5 sounds, `add_note` of 5 returns 0 and the following
`remove_note` of 5 switches the key off, so neither the `is_on` flags nor the
list of active notes are those from before. -/
theorem add_remove_active_key_counterexample :
    wf notes_key5 ∧ 5 < NUM_KEYS ∧
    ∃ n1 n2, add_note notes_key5 5 = some (n1, false) ∧
      remove_note n1 5 = some (n2, true) ∧
      (n2 5).is_on ≠ (notes_key5 5).is_on ∧
      active_notes n2 ≠ active_notes notes_key5 := by
  refine ⟨holds_wf _ _ holds_key5, by decide, ?_⟩
  obtain ⟨n2, hrem, hh2, hison, _⟩ := remove_note_holds notes_key5 5 [] [] holds_key5
  refine ⟨notes_key5, n2, add_note_on notes_key5 5 (by omega) key5_is_on, hrem, ?_, ?_⟩
  · rw [hison 5, if_pos rfl, key5_is_on]
    simp
  · rw [holds_active _ _ hh2, holds_active _ _ holds_key5]
    simp

/-- C4, amended: add/remove round trip for a key that is not active.  On a
well-formed registry and for a key `k` below 61 whose `is_on` is clear,
`add_note` of `k` followed by `remove_note` of `k` both return 1 and restore
the shape of the registry: every `is_on` flag is as before and the lists of
active notes met from the sentinel forwards through `next` and backwards
through `prev` are as before.  Every slot other than `k` is restored exactly,
and the envelope of `k` is untouched. -/
theorem add_then_remove_restores (notes : notes_t) (k : Nat) (hwf : wf notes)
    (hk : k < NUM_KEYS) (hoff : (notes k).is_on = false) :
    ∃ n1 n2, add_note notes k = some (n1, true) ∧ remove_note n1 k = some (n2, true) ∧
      (∀ j, (n2 j).is_on = (notes j).is_on) ∧
      active_notes n2 = active_notes notes ∧
      active_notes_rev n2 = active_notes_rev notes ∧
      (∀ j, j ≠ k → n2 j = notes j) ∧
      (n2 k).envelope = (notes k).envelope := by
  obtain ⟨l, hh⟩ := wf_exists_holds notes hwf
  have hk61 : k ≠ 61 := by
    simp only [NUM_KEYS_eq] at hk
    omega
  obtain ⟨n1, hadd, hh1, hison1, henv1, hnext1, hprev1, hfk⟩ :=
    add_note_holds notes k l hh hk hoff
  obtain ⟨n2, hrem, hh2, hison2, henv2, hnext2, hprev2⟩ := remove_note_holds n1 k [] l hh1
  rw [List.nil_append] at hh2
  have hkn : (n1 k).next = (notes 61).next := by
    rw [hnext1, if_neg hk61, if_pos rfl]
  have hkp : (n1 k).prev = 61 := by
    rw [hprev1, if_neg (Ne.symm hfk), if_pos rfl]
  have hback : (notes (notes 61).next).prev = 61 :=
    seg_prev_next notes l 61 61 hh.1 61 (by simp)
  refine ⟨n1, n2, hadd, hrem, ?_, ?_, ?_, ?_, ?_⟩
  · intro j
    rw [hison2, hison1]
    by_cases hj : j = k
    · rw [if_pos hj, hj, hoff]
    · rw [if_neg hj, if_neg hj]
  · rw [holds_active _ _ hh2, holds_active _ _ hh]
  · rw [holds_active_rev _ _ hh2, holds_active_rev _ _ hh]
  · intro j hj
    refine note_info_ext _ _ ?_ ?_ ?_ ?_
    · rw [hison2, hison1, if_neg hj, if_neg hj]
    · rw [henv2, henv1]
    · rw [hnext2, hkp, hkn, hnext1]
      by_cases h61 : j = 61
      · rw [if_pos h61, h61]
      · rw [if_neg h61, if_neg h61, if_neg hj]
    · rw [hprev2, hkp, hkn, hprev1]
      by_cases hjf : j = (notes 61).next
      · rw [if_pos hjf, hjf, hback]
      · rw [if_neg hjf, if_neg hjf, if_neg hj]
  · rw [henv2, henv1]

/-- C4 amended, at a concrete input: key 7 added to and removed from the
registry in which key 5 sounds. -/
theorem add_then_remove_restores_witness :
    wf notes_key5 ∧ 7 < NUM_KEYS ∧ (notes_key5 7).is_on = false ∧
    ∃ n1 n2, add_note notes_key5 7 = some (n1, true) ∧ remove_note n1 7 = some (n2, true) ∧
      active_notes n2 = some [5] := by
  have hoff : (notes_key5 7).is_on = false := by
    cases h : (notes_key5 7).is_on with
    | false => rfl
    | true =>
      have := holds_key5.2.2.2 7 (by decide) h
      simp at this
  refine ⟨holds_wf _ _ holds_key5, by decide, hoff, ?_⟩
  obtain ⟨n1, n2, hadd, hrem, _, hl, _⟩ :=
    add_then_remove_restores notes_key5 7 (holds_wf _ _ holds_key5) (by decide) hoff
  rw [holds_active _ _ holds_key5] at hl
  exact ⟨n1, n2, hadd, hrem, hl⟩

/-- C5: registry well-formedness is an invariant.  The predicate `wf` holds
after start-up; `add_note` and `remove_note` of any key below 61 return on a
well-formed registry, with 1 or with 0, and leave it well formed; so every
sequence of registry calls on keys, run from start-up, ends in a well-formed
registry.  In a well-formed registry the traversal of the renderer returns
after visiting at most 61 notes, the sentinel has the head of the list as
`next` and its tail as `prev`, and points to itself when no note is active. -/
theorem wf_invariant :
    (∀ sample_rate, wf (startup sample_rate).notes) ∧
    (∀ notes k, wf notes → k < NUM_KEYS →
      ∃ notes' b, add_note notes k = some (notes', b) ∧ wf notes') ∧
    (∀ notes k, wf notes → k < NUM_KEYS →
      ∃ notes' b, remove_note notes k = some (notes', b) ∧ wf notes') ∧
    (∀ sample_rate (calls : List registry_call), (∀ c ∈ calls, c.key < NUM_KEYS) →
      ∃ notes, run_calls (startup sample_rate).notes calls = some notes ∧ wf notes) ∧
    (∀ notes, wf notes →
      ∃ l, active_notes notes = some l ∧ l.length ≤ NUM_KEYS ∧
        (notes DUMMY_NOTE).next = l.headD DUMMY_NOTE ∧
        (notes DUMMY_NOTE).prev = l.getLastD DUMMY_NOTE ∧
        (l = [] → (notes DUMMY_NOTE).next = DUMMY_NOTE ∧
          (notes DUMMY_NOTE).prev = DUMMY_NOTE)) := by
  refine ⟨fun sr => holds_wf _ _ (holds_startup sr), ?_, ?_, ?_, ?_⟩
  · intro notes k hwf hk
    obtain ⟨l, hh⟩ := wf_exists_holds notes hwf
    obtain ⟨n', b, l', hadd, hh', _⟩ := add_note_total notes k l hh hk
    exact ⟨n', b, hadd, holds_wf _ _ hh'⟩
  · intro notes k hwf hk
    obtain ⟨l, hh⟩ := wf_exists_holds notes hwf
    obtain ⟨n', b, l', hrem, hh', _⟩ := remove_note_total notes k l hh hk
    exact ⟨n', b, hrem, holds_wf _ _ hh'⟩
  · intro sr calls hcalls
    obtain ⟨n', l', hrun, hh', _⟩ :=
      run_calls_holds calls (startup sr).notes [] (holds_startup sr) hcalls
    exact ⟨n', hrun, holds_wf _ _ hh'⟩
  · intro notes hwf
    obtain ⟨l, hh⟩ := wf_exists_holds notes hwf
    have hs : seg notes 61 l 61 := hh.1
    have hlen : l.length ≤ 61 :=
      nodup_length_le l 61 hh.2.1 (fun x hx => (hh.2.2.1 x hx).1)
    have hhead : (notes 61).next = l.headD 61 := by
      cases l with
      | nil => simp only [seg] at hs; simpa using hs.1
      | cons y ys => simp only [seg] at hs; simpa using hs.1
    have hlast : (notes 61).prev = l.getLastD 61 := seg_prev_getLastD notes l 61 61 hs
    refine ⟨l, holds_active notes l hh, hlen, hhead, hlast, ?_⟩
    intro hl
    subst hl
    simp only [seg] at hs
    exact hs

/-- C5 at concrete inputs: a second `add_note` of key 5 and a `remove_note` of
key 5 on the well-formed registry in which key 5 sounds. -/
theorem wf_invariant_witness :
    wf notes_key5 ∧ 5 < NUM_KEYS ∧
    (∃ notes' b, add_note notes_key5 5 = some (notes', b) ∧ wf notes') ∧
    (∃ notes' b, remove_note notes_key5 5 = some (notes', b) ∧ wf notes') :=
  ⟨holds_wf _ _ holds_key5, by decide,
    wf_invariant.2.1 notes_key5 5 (holds_wf _ _ holds_key5) (by decide),
    wf_invariant.2.2.1 notes_key5 5 (holds_wf _ _ holds_key5) (by decide)⟩

/-! ## Drawbar quantisation -/

/-- The shift by four bits is division by 16. -/
theorem db_pos_eq (v : Nat) : db_pos v = (v + 8) / 16 := by
  simp [db_pos, Nat.shiftRight_eq_div_pow]

/-- C8: drawbar quantisation.  For a control value `v` in 0..127 the level
`(v + 8) >> 4` is at most 8 and so indexes the nine-entry table `DB_G`; it is
`v / 16` rounded to the nearest integer, no integer being nearer to `v / 16`;
it is monotonically non-decreasing in `v`; 0 maps to 0, 64 to 4, 127 to 8,
and every value in 120..127 maps to 8. -/
theorem drawbar_quantization (v : Nat) (hv : v ≤ 127) :
    db_pos v ≤ 8 ∧
    (∃ g, DB_G[db_pos v]? = some g) ∧
    round ((v : ℚ) / 16) = (db_pos v : ℤ) ∧
    (∀ m : ℤ, |(v : ℚ) / 16 - (db_pos v : ℚ)| ≤ |(v : ℚ) / 16 - (m : ℚ)|) ∧
    (∀ w, v ≤ w → db_pos v ≤ db_pos w) ∧
    db_pos 0 = 0 ∧ db_pos 64 = 4 ∧ db_pos 127 = 8 ∧
    (120 ≤ v → db_pos v = 8) := by
  have hle : db_pos v ≤ 8 := by
    rw [db_pos_eq]
    omega
  have hlo : 16 * db_pos v ≤ v + 8 := by
    rw [db_pos_eq]
    omega
  have hhi : v + 8 < 16 * db_pos v + 16 := by
    rw [db_pos_eq]
    omega
  have hloq : (16 : ℚ) * (db_pos v : ℚ) ≤ (v : ℚ) + 8 := by exact_mod_cast hlo
  have hhiq : (v : ℚ) + 8 < 16 * (db_pos v : ℚ) + 16 := by exact_mod_cast hhi
  refine ⟨hle, ?_, ?_, ?_, ?_, ?_, ?_, ?_, ?_⟩
  · have hlen : db_pos v < DB_G.length := by
      simp only [DB_G, List.length_cons, List.length_nil]
      omega
    exact ⟨DB_G[db_pos v], List.getElem?_eq_getElem hlen⟩
  · rw [round_eq, Int.floor_eq_iff]
    constructor
    · push_cast
      linarith
    · push_cast
      linarith
  · intro m
    have h1 : |(v : ℚ) / 16 - (db_pos v : ℚ)| ≤ 1 / 2 := by
      rw [abs_le]
      constructor <;> linarith
    rcases lt_trichotomy m (db_pos v : ℤ) with hm | hm | hm
    · have hm' : (m : ℚ) + 1 ≤ (db_pos v : ℚ) := by exact_mod_cast hm
      have : (1 : ℚ) / 2 ≤ (v : ℚ) / 16 - (m : ℚ) := by linarith
      exact h1.trans (this.trans (le_abs_self _))
    · rw [hm]
      simp
    · have hm' : (db_pos v : ℚ) + 1 ≤ (m : ℚ) := by exact_mod_cast hm
      have : (1 : ℚ) / 2 ≤ -((v : ℚ) / 16 - (m : ℚ)) := by linarith
      exact h1.trans (this.trans (neg_le_abs _))
  · intro w hw
    rw [db_pos_eq, db_pos_eq]
    omega
  · rfl
  · rfl
  · rfl
  · intro h120
    rw [db_pos_eq]
    omega

/-- C8 at the control value 64. -/
theorem drawbar_quantization_witness :
    64 ≤ 127 ∧ db_pos 64 ≤ 8 ∧ round ((64 : ℚ) / 16) = 4 := by
  have h := drawbar_quantization 64 (by decide)
  refine ⟨by decide, h.1, ?_⟩
  have h3 := h.2.2.1
  have e : db_pos 64 = 4 := rfl
  rw [e] at h3
  exact_mod_cast h3

/-! ## Tonewheel lookup and foldback -/

/-- The upper foldback loop on a wave index below 115, given fuel for three
evaluations of its condition. -/
theorem upper_foldback_lt_115 (f w : Nat) (hw : w < 115) :
    upper_foldback (f + 3) w =
      some (if w < 91 then w else if w < 103 then w - 12 else w - 24) := by
  by_cases h1 : w < 91
  · rw [if_pos h1]
    simp only [upper_foldback, NUM_WAVES]
    rw [if_neg (by omega)]
  · by_cases h2 : w < 103
    · have e : u8 ((w : Int) - OCTAVE) = w - 12 := by
        simp only [u8, OCTAVE]
        omega
      rw [if_neg h1, if_pos h2]
      simp only [upper_foldback, NUM_WAVES]
      rw [if_pos (by omega), e, if_neg (by omega)]
    · have e : u8 ((w : Int) - OCTAVE) = w - 12 := by
        simp only [u8, OCTAVE]
        omega
      have e2 : u8 (((w - 12 : Nat) : Int) - OCTAVE) = w - 24 := by
        simp only [u8, OCTAVE]
        omega
      rw [if_neg h1, if_neg h2]
      simp only [upper_foldback, NUM_WAVES]
      rw [if_pos (by omega), e, if_pos (by omega), e2, if_neg (by omega)]

/-- Repeated lowering by 12 of a requested index from 91 to 114. -/
theorem spec_fold_down_lt_115 (i : Int) (h1 : 91 ≤ i) (h2 : i < 115) :
    spec_fold_down i.toNat i = if i < 103 then i - 12 else i - 24 := by
  obtain ⟨m, hm⟩ : ∃ m, i.toNat = m + 2 := ⟨i.toNat - 2, by omega⟩
  rw [hm]
  by_cases h3 : i < 103
  · rw [if_pos h3]
    simp only [spec_fold_down]
    rw [if_pos h1, if_neg (by omega)]
  · rw [if_neg h3]
    simp only [spec_fold_down]
    rw [if_pos h1, if_pos (by omega)]
    cases m with
    | zero => simp only [spec_fold_down]; omega
    | succ m' =>
      simp only [spec_fold_down]
      rw [if_neg (by omega)]
      omega

/-- The foldback of the code on a requested index `note_index + 12 + off`,
for the offset byte `u8 off` of a tap. -/
theorem foldback_core (f note_index : Nat) (off : Int) (hn : note_index ≤ 60)
    (hoff : off = -12 ∨ (0 ≤ off ∧ off ≤ 36)) :
    ∃ w : Nat,
      (if u8 ((note_index : Int) + OCTAVE + (u8 off : Nat)) < OCTAVE
        then some (u8 ((u8 ((note_index : Int) + OCTAVE + (u8 off : Nat)) : Int) + OCTAVE))
        else upper_foldback (f + 3) (u8 ((note_index : Int) + OCTAVE + (u8 off : Nat)))) = some w ∧
      (w : Int) = fold_low12 ((note_index : Int) + 12 + off) := by
  have hi0 : 0 ≤ (note_index : Int) + 12 + off := by omega
  have hi1 : (note_index : Int) + 12 + off ≤ 108 := by omega
  have hw0 : u8 ((note_index : Int) + OCTAVE + (u8 off : Nat)) =
      ((note_index : Int) + 12 + off).toNat := by
    simp only [u8, OCTAVE]
    omega
  rw [hw0]
  generalize hI : (note_index : Int) + 12 + off = i at hi0 hi1
  by_cases h12 : i < 12
  · refine ⟨(i + 12).toNat, ?_, ?_⟩
    · rw [if_pos (by simp only [OCTAVE]; omega)]
      congr 1
      simp only [u8, OCTAVE]
      omega
    · simp only [fold_low12]
      rw [if_pos h12]
      omega
  · rw [if_neg (by simp only [OCTAVE]; omega), upper_foldback_lt_115 f _ (by omega)]
    refine ⟨_, rfl, ?_⟩
    simp only [fold_low12]
    rw [if_neg h12]
    by_cases h91 : 91 ≤ i
    · rw [if_pos h91, spec_fold_down_lt_115 i h91 (by omega)]
      split_ifs <;> omega
    · rw [if_neg h91]
      split_ifs <;> omega

/-- C10, as stated, fails for the sub-octave tap of the lowest key: the
requested index is `0 + 12 + (-12) = 0`, which the rule of the specification
keeps, while the code looks up wheel 12. -/
theorem foldback_low_octave_counterexample :
    spec_offset[0]? = some (-12) ∧
    (∀ fuel, tap_wave_index fuel 0 0 = some 12) ∧
    spec_fold ((0 : Int) + 12 + (-12)) = 0 ∧
    ¬ ∃ fuel w, tap_wave_index fuel 0 0 = some w ∧
      (w : Int) = spec_fold ((0 : Int) + 12 + (-12)) := by
  have hcode : ∀ fuel, tap_wave_index fuel 0 0 = some 12 := by
    intro fuel
    simp [tap_wave_index, drawbar_harmonic_offset, u8]
  refine ⟨rfl, hcode, by decide, ?_⟩
  rintro ⟨fuel, w, hw, hs⟩
  rw [hcode fuel] at hw
  cases hw
  revert hs
  decide

/-- C10, amended: the foldback rule with the lower threshold 12.  For every key
index `note_index` in 0..60 and every tap `d` in 0..8, whose semitone offset
is `off` in the list -12, +7, 0, +12, +19, +24, +28, +31, +36 and is stored in
the code as the byte `u8 off`, the wave index the renderer looks up (given
fuel for three evaluations of the loop condition) is
`fold_low12 (note_index + 12 + off)`, where `fold_low12 i` is `i + 12` if `i` is
below 12, `i` lowered by 12 repeatedly until below 91 if `i` is at least 91,
and `i` otherwise.  As instances, `fold_low12` maps -1 to 11 and 91 to 79. -/
theorem foldback_rule (note_index d fuel : Nat) (hn : note_index ≤ 60) (hd : d ≤ 8)
    (hf : 3 ≤ fuel) :
    ∃ (off : Int) (w : Nat), spec_offset[d]? = some off ∧
      drawbar_harmonic_offset[d]? = some (u8 off) ∧
      tap_wave_index fuel note_index d = some w ∧
      (w : Int) = fold_low12 ((note_index : Int) + 12 + off) ∧
      fold_low12 (-1) = 11 ∧ fold_low12 91 = 79 := by
  obtain ⟨f, rfl⟩ : ∃ f, fuel = f + 3 := ⟨fuel - 3, by omega⟩
  have hstep : ∀ off : Int, (off = -12 ∨ (0 ≤ off ∧ off ≤ 36)) →
      spec_offset[d]? = some off → drawbar_harmonic_offset[d]? = some (u8 off) →
      ∃ (off : Int) (w : Nat), spec_offset[d]? = some off ∧
        drawbar_harmonic_offset[d]? = some (u8 off) ∧
        tap_wave_index (f + 3) note_index d = some w ∧
        (w : Int) = fold_low12 ((note_index : Int) + 12 + off) ∧
        fold_low12 (-1) = 11 ∧ fold_low12 91 = 79 := by
    intro off hoff hs hc
    obtain ⟨w, hw, hfold⟩ := foldback_core f note_index off hn hoff
    refine ⟨off, w, hs, hc, ?_, hfold, by decide, by decide⟩
    simp only [tap_wave_index, hc]
    exact hw
  interval_cases d
  · exact hstep (-12) (by omega) (by decide) (by decide)
  · exact hstep 7 (by omega) (by decide) (by decide)
  · exact hstep 0 (by omega) (by decide) (by decide)
  · exact hstep 12 (by omega) (by decide) (by decide)
  · exact hstep 19 (by omega) (by decide) (by decide)
  · exact hstep 24 (by omega) (by decide) (by decide)
  · exact hstep 28 (by omega) (by decide) (by decide)
  · exact hstep 31 (by omega) (by decide) (by decide)
  · exact hstep 36 (by omega) (by decide) (by decide)

/-- C10 amended, at concrete inputs: the top key with the three-octave tap. -/
theorem foldback_rule_witness :
    60 ≤ 60 ∧ 8 ≤ 8 ∧ 3 ≤ 3 ∧ tap_wave_index 3 60 8 = some 84 := by
  obtain ⟨off, w, hs, _, hw, hfold, _⟩ :=
    foldback_rule 60 8 3 (by decide) (by decide) (by decide)
  have hoff : off = 36 := by
    have : spec_offset[8]? = some 36 := rfl
    rw [this] at hs
    exact (Option.some.inj hs).symm
  subst hoff
  have h84 : fold_low12 ((60 : Nat) + 12 + 36) = 84 := by decide
  rw [h84] at hfold
  have : w = 84 := by exact_mod_cast hfold
  subst this
  exact ⟨by decide, by decide, by decide, hw⟩

/-! ## MIDI events -/

/-- The key byte of a note event in 36..96 maps to the key index `raw - 36`. -/
theorem key_index_in_range (raw : Nat) (h36 : 36 ≤ raw) (h96 : raw ≤ 96) :
    u8 ((raw : Int) - 3 * OCTAVE) = raw - 36 ∧ raw - 36 < 61 := by
  simp only [u8, OCTAVE]
  omega

/-- The key byte of a note event outside 36..96 maps to no key. -/
theorem key_index_out_of_range (raw : Nat) (hb : raw < 256) (h : raw < 36 ∨ 96 < raw) :
    ¬ u8 ((raw : Int) - 3 * OCTAVE) < NUM_KEYS := by
  simp only [u8, OCTAVE, NUM_KEYS]
  omega

/-- The table `DB_G` holds the nine levels of the specification. -/
theorem DB_G_levels :
    DB_G = ([0, 0.0891, 0.125, 0.178, 0.25, 0.355, 0.5, 0.708, 1.0] : List ℚ) := by
  simp only [DB_G, DB_G0, DB_G1, DB_G2, DB_G3, DB_G4, DB_G5, DB_G6, DB_G7, DB_G8]
  norm_num

/-- A control change on a drawbar controller with a value in 0..127 is
applied, and stores a level of `DB_G`. -/
theorem control_change_applies (my : instrument_t) (c v : Nat) (hc1 : 16 ≤ c) (hc2 : c ≤ 24)
    (hv : v ≤ 127) :
    ∃ g, DB_G[db_pos v]? = some g ∧ g ∈ DB_G ∧
      midi_event my { status := 0xB0, data1 := c, data2 := v } =
        some { my with drawbar_gains := Function.update my.drawbar_gains (c - 16) g } := by
  have hlen : db_pos v < DB_G.length := by
    rw [db_pos_eq]
    simp only [DB_G, List.length_cons, List.length_nil]
    omega
  have hget : DB_G[db_pos v]? = some DB_G[db_pos v] := List.getElem?_eq_getElem hlen
  refine ⟨DB_G[db_pos v], hget, List.getElem_mem hlen, ?_⟩
  simp only [midi_event, if_true, if_pos (And.intro hc1 hc2), hget]
  rw [if_neg (by decide), if_neg (by decide)]

/-- The drawbar gains at start-up are levels of `DB_G`. -/
theorem startup_gains_levels (sample_rate d : Nat) :
    (startup sample_rate).drawbar_gains d ∈ DB_G := by
  have h0 : (0 : ℚ) ∈ DB_G := by
    rw [DB_G_levels]
    simp
  have h8 : DB_G8 ∈ DB_G := by simp [DB_G]
  simp only [startup, init, my_zero, Function.update_apply]
  split_ifs
  · exact h8
  · exact h8
  · exact h8
  · exact h0

/-- Control changes on drawbar controllers with values in 0..127 are all
applied and keep every drawbar gain among the levels of `DB_G`. -/
theorem control_changes_levels (evs : List jack_midi_event_t) : ∀ (my : instrument_t),
    (∀ d, my.drawbar_gains d ∈ DB_G) →
    (∀ e ∈ evs, e.status = 0xB0 ∧ 16 ≤ e.data1 ∧ e.data1 ≤ 24 ∧ e.data2 ≤ 127) →
    ∃ my', midi_in my evs = some my' ∧ ∀ d, my'.drawbar_gains d ∈ DB_G := by
  induction evs with
  | nil =>
    intro my hI _
    exact ⟨my, rfl, hI⟩
  | cons e es ih =>
    intro my hI hevs
    obtain ⟨hst, h1, h2, h3⟩ := hevs e (by simp)
    obtain ⟨g, _, hg, hev⟩ := control_change_applies my e.data1 e.data2 h1 h2 h3
    have he : e = { status := 0xB0, data1 := e.data1, data2 := e.data2 } := by
      cases e
      simp only [jack_midi_event_t.mk.injEq, and_true]
      exact hst
    rw [← he] at hev
    have hI' : ∀ d, Function.update my.drawbar_gains (e.data1 - 16) g d ∈ DB_G := by
      intro d
      simp only [Function.update_apply]
      split_ifs
      · exact hg
      · exact hI d
    obtain ⟨my', hrun, hI''⟩ :=
      ih { my with drawbar_gains := Function.update my.drawbar_gains (e.data1 - 16) g } hI'
        (fun e' he' => hevs e' (by simp [he']))
    refine ⟨my', ?_, hI''⟩
    simp only [midi_in, hev]
    exact hrun

/-- C6: note-on key mapping and envelope initialisation.  In a state with a
well-formed registry and a positive sample rate, a note-on event (status 0x90)
whose key byte `raw` lies in 36..96 and whose key `raw - 36` is inactive is
handled without fault; the key index `raw - 36` lies in 0..60; the event sets
`is_on` of that key and puts it at the head of the active list; it sets the
envelope of that key to amplitude 0, rate `1 + 100000 / sample_rate` (integer
quotient) and `ref_time` equal to the global clock, and leaves its `step`
alone; no other note has its `is_on` flag or envelope changed, and the drawbar
gains, the global clock and the sample rate are as before. -/
theorem note_on_effect (my : instrument_t) (raw data2 : Nat) (hwf : wf my.notes)
    (hsr : 0 < my.sample_rate) (h36 : 36 ≤ raw) (h96 : raw ≤ 96)
    (hoff : (my.notes (raw - 36)).is_on = false) :
    ∃ my' l, midi_event my { status := 0x90, data1 := raw, data2 := data2 } = some my' ∧
      raw - 36 ≤ 60 ∧
      (my'.notes (raw - 36)).is_on = true ∧
      active_notes my.notes = some l ∧
      active_notes my'.notes = some ((raw - 36) :: l) ∧
      (my'.notes (raw - 36)).envelope.amplitude = 0 ∧
      (my'.notes (raw - 36)).envelope.rate = 1 + ((100000 / my.sample_rate : Nat) : ℚ) ∧
      (my'.notes (raw - 36)).envelope.ref_time = my.global_time ∧
      (my'.notes (raw - 36)).envelope.step = (my.notes (raw - 36)).envelope.step ∧
      (∀ j, j ≠ raw - 36 → (my'.notes j).is_on = (my.notes j).is_on ∧
        (my'.notes j).envelope = (my.notes j).envelope) ∧
      my'.drawbar_gains = my.drawbar_gains ∧
      my'.global_time = my.global_time ∧
      my'.sample_rate = my.sample_rate := by
  obtain ⟨hidx, hlt⟩ := key_index_in_range raw h36 h96
  obtain ⟨l, hh⟩ := wf_exists_holds my.notes hwf
  obtain ⟨n', hadd, hh', hison, henv, _⟩ := add_note_holds my.notes (raw - 36) l hh hlt hoff
  have hsr0 : my.sample_rate ≠ 0 := by omega
  have hev : ∃ my', midi_event my { status := 0x90, data1 := raw, data2 := data2 } = some my' ∧
      my'.notes = Function.update n' (raw - 36) { n' (raw - 36) with
        envelope := { step := (n' (raw - 36)).envelope.step, ref_time := my.global_time,
                      amplitude := 0, rate := 1 + ((100000 / my.sample_rate : Nat) : ℚ) } } ∧
      my'.drawbar_gains = my.drawbar_gains ∧ my'.global_time = my.global_time ∧
      my'.sample_rate = my.sample_rate := by
    simp only [midi_event, hidx, hadd, if_true, if_pos (show raw - 36 < NUM_KEYS from hlt),
      if_neg hsr0]
    exact ⟨_, rfl, rfl, rfl, rfl, rfl⟩
  obtain ⟨my', hmy, hnotes, hg, ht, hr⟩ := hev
  have hhold := holds_set_envelope n' ((raw - 36) :: l) (raw - 36)
    { step := (n' (raw - 36)).envelope.step, ref_time := my.global_time,
      amplitude := 0, rate := 1 + ((100000 / my.sample_rate : Nat) : ℚ) } hh'
  rw [← hnotes] at hhold
  refine ⟨my', l, hmy, by omega, ?_, holds_active _ _ hh, holds_active _ _ hhold,
    ?_, ?_, ?_, ?_, ?_, hg, ht, hr⟩
  · exact (hhold.2.2.1 (raw - 36) (by simp)).2
  · rw [hnotes, Function.update_same]
  · rw [hnotes, Function.update_same]
  · rw [hnotes, Function.update_same]
  · rw [hnotes, Function.update_same]
    show (n' (raw - 36)).envelope.step = (my.notes (raw - 36)).envelope.step
    rw [henv (raw - 36)]
  · intro j hj
    rw [hnotes, Function.update_noteq hj]
    exact ⟨by rw [hison j, if_neg hj], henv j⟩

/-- C6 at a concrete input: note-on for MIDI note 60 at 48000 Hz on the
start-up state activates key 24. -/
theorem note_on_effect_witness :
    wf (startup 48000).notes ∧ 0 < (startup 48000).sample_rate ∧ 36 ≤ 60 ∧ 60 ≤ 96 ∧
    ((startup 48000).notes (60 - 36)).is_on = false ∧
    ∃ my', midi_event (startup 48000) { status := 0x90, data1 := 60, data2 := 100 } = some my' ∧
      active_notes my'.notes = some [24] ∧
      (my'.notes 24).envelope.rate = 3 := by
  have hwf : wf (startup 48000).notes := holds_wf _ _ (holds_startup 48000)
  have hsr : 0 < (startup 48000).sample_rate := by
    simp [startup, init, my_zero]
  have hoff : ((startup 48000).notes (60 - 36)).is_on = false := by
    simp [startup, init, my_zero, Function.update_apply, DUMMY_NOTE_eq]
  refine ⟨hwf, hsr, by decide, by decide, hoff, ?_⟩
  obtain ⟨my', l, hev, _, _, hl, hl', _, hrate, _⟩ :=
    note_on_effect (startup 48000) 60 100 hwf hsr (by decide) (by decide) hoff
  rw [holds_active _ _ (holds_startup 48000)] at hl
  cases hl
  refine ⟨my', hev, hl', ?_⟩
  rw [show (24 : Nat) = 60 - 36 from rfl, hrate]
  simp only [startup, init, my_zero]
  norm_num

/-- C7: benign events are silently ignored.  For every instrument state and
every event, of any status byte and value byte and with a key or controller
byte in 0..255, that is (i) of a status other than 0x90, 0x80 and
0xB0, or (ii) a note-on or note-off whose key byte lies outside 36..96 (below
36 the 8-bit subtraction wraps), or (iii) a control change whose controller
lies outside 16..24, or (iv) a note-on for an active key or a note-off for an
inactive key, the event is handled without fault and leaves the whole
instrument state as it was. -/
theorem benign_events_ignored (my : instrument_t) (ev : jack_midi_event_t)
    (hb1 : ev.data1 < 256)
    (h : (ev.status ≠ 0x90 ∧ ev.status ≠ 0x80 ∧ ev.status ≠ 0xB0) ∨
      ((ev.status = 0x90 ∨ ev.status = 0x80) ∧ (ev.data1 < 36 ∨ 96 < ev.data1)) ∨
      (ev.status = 0xB0 ∧ (ev.data1 < 16 ∨ 24 < ev.data1)) ∨
      (ev.status = 0x90 ∧ 36 ≤ ev.data1 ∧ ev.data1 ≤ 96 ∧
        (my.notes (ev.data1 - 36)).is_on = true) ∨
      (ev.status = 0x80 ∧ 36 ≤ ev.data1 ∧ ev.data1 ≤ 96 ∧
        (my.notes (ev.data1 - 36)).is_on = false)) :
    midi_event my ev = some my := by
  rcases h with ⟨h1, h2, h3⟩ | ⟨hst, hout⟩ | ⟨hst, hout⟩ | ⟨hst, h36, h96, hon⟩ |
    ⟨hst, h36, h96, hoff⟩
  · simp only [midi_event]
    rw [if_neg h1, if_neg h2, if_neg h3]
  · have hk := key_index_out_of_range ev.data1 hb1 hout
    rcases hst with hst | hst
    · simp only [midi_event]
      rw [if_pos hst, if_neg hk]
    · simp only [midi_event]
      rw [if_neg (by omega), if_pos hst, if_neg hk]
  · simp only [midi_event]
    rw [if_neg (by omega), if_neg (by omega), if_pos hst, if_neg (by omega)]
  · obtain ⟨hidx, hlt⟩ := key_index_in_range ev.data1 h36 h96
    have hadd := add_note_on my.notes (ev.data1 - 36) (by omega) hon
    simp only [midi_event, hidx]
    rw [if_pos hst, if_pos (show ev.data1 - 36 < NUM_KEYS from hlt), hadd]
  · obtain ⟨hidx, hlt⟩ := key_index_in_range ev.data1 h36 h96
    have hrem := remove_note_off my.notes (ev.data1 - 36) (by omega) hoff
    simp only [midi_event, hidx]
    rw [if_neg (by omega), if_pos hst, if_pos (show ev.data1 - 36 < NUM_KEYS from hlt), hrem]

/-- C7 at a concrete input: a note-on for MIDI note 20, below the keyboard. -/
theorem benign_events_ignored_witness :
    midi_event (startup 48000) { status := 0x90, data1 := 20, data2 := 100 } =
      some (startup 48000) :=
  benign_events_ignored (startup 48000) { status := 0x90, data1 := 20, data2 := 100 }
    (by decide) (Or.inr (Or.inl ⟨Or.inl rfl, Or.inl (by decide)⟩))

/-- C9: control-change effect and frame.  A control change (status 0xB0) with
controller `c` in 16..24 and value `v` in 0..127 is handled without fault; it
sets drawbar gain `c - 16` to `DB_G[(v + 8) >> 4]` and changes nothing else:
the other drawbar gains, the note array, the global clock and the sample rate
are as before.  Hence after any sequence of such events from start-up each of
the nine drawbar gains is one of the levels 0, 0.0891, 0.125, 0.178, 0.25,
0.355, 0.5, 0.708, 1.0. -/
theorem control_change_effect (my : instrument_t) (c v : Nat) (hc1 : 16 ≤ c) (hc2 : c ≤ 24)
    (hv : v ≤ 127) :
    (∃ my' g, midi_event my { status := 0xB0, data1 := c, data2 := v } = some my' ∧
      DB_G[db_pos v]? = some g ∧
      my'.drawbar_gains (c - 16) = g ∧
      (∀ d, d ≠ c - 16 → my'.drawbar_gains d = my.drawbar_gains d) ∧
      my'.notes = my.notes ∧ my'.global_time = my.global_time ∧
      my'.sample_rate = my.sample_rate) ∧
    (∀ sample_rate (evs : List jack_midi_event_t),
      (∀ e ∈ evs, e.status = 0xB0 ∧ 16 ≤ e.data1 ∧ e.data1 ≤ 24 ∧ e.data2 ≤ 127) →
      ∃ my', midi_in (startup sample_rate) evs = some my' ∧
        ∀ d, d < NUM_DRAWBARS → my'.drawbar_gains d ∈
          ([0, 0.0891, 0.125, 0.178, 0.25, 0.355, 0.5, 0.708, 1.0] : List ℚ)) := by
  constructor
  · obtain ⟨g, hget, _, hev⟩ := control_change_applies my c v hc1 hc2 hv
    refine ⟨_, g, hev, hget, ?_, ?_, rfl, rfl, rfl⟩
    · simp only [Function.update_same]
    · intro d hd
      simp only [Function.update_noteq hd]
  · intro sr evs hevs
    obtain ⟨my', hrun, hI⟩ :=
      control_changes_levels evs (startup sr) (startup_gains_levels sr) hevs
    refine ⟨my', hrun, fun d _ => ?_⟩
    rw [← DB_G_levels]
    exact hI d

/-- C9 at a concrete input: controller 18 set to 64 at start-up stores level 4,
the gain 0.25. -/
theorem control_change_effect_witness :
    16 ≤ 18 ∧ 18 ≤ 24 ∧ 64 ≤ 127 ∧
    ∃ my', midi_event (startup 48000) { status := 0xB0, data1 := 18, data2 := 64 } = some my' ∧
      my'.drawbar_gains 2 = DB_G4 := by
  obtain ⟨my', g, hev, hget, hg, _⟩ :=
    (control_change_effect (startup 48000) 18 64 (by decide) (by decide) (by decide)).1
  have h4 : DB_G[db_pos 64]? = some DB_G4 := rfl
  rw [h4] at hget
  cases hget
  exact ⟨by decide, by decide, by decide, my', hev, hg⟩

/-! ## Envelope -/

/-- The floor gain `DB_G1` lies strictly between 0 and 1. -/
theorem DB_G1_bounds : (0 : ℚ) < DB_G1 ∧ DB_G1 < 1 := by
  simp only [DB_G1]
  constructor <;> norm_num

/-- The function `update_envelope` writes the amplitude only. -/
theorem update_envelope_frame (e : envelope_t) :
    (update_envelope e).rate = e.rate ∧ (update_envelope e).step = e.step ∧
    (update_envelope e).ref_time = e.ref_time := by
  simp only [update_envelope]
  split_ifs <;> exact ⟨rfl, rfl, rfl⟩

/-- One update of an envelope whose amplitude lies in 0..1 and whose rate is at
least 1: the amplitude does not decrease, stays at most 1 and is at least the
floor gain. -/
theorem update_envelope_step (e : envelope_t) (h0 : 0 ≤ e.amplitude) (h1 : e.amplitude ≤ 1)
    (hr : 1 ≤ e.rate) :
    e.amplitude ≤ (update_envelope e).amplitude ∧ (update_envelope e).amplitude ≤ 1 ∧
    DB_G1 ≤ (update_envelope e).amplitude := by
  obtain ⟨hg0, hg1⟩ := DB_G1_bounds
  simp only [update_envelope]
  by_cases ha : e.amplitude = 1
  · rw [if_neg (by simpa using ha)]
    rw [ha]
    exact ⟨le_refl _, le_refl _, le_of_lt hg1⟩
  · rw [if_pos ha]
    by_cases hf : e.amplitude < DB_G1
    · rw [if_pos hf]
      exact ⟨le_of_lt hf, le_of_lt hg1, le_refl _⟩
    · rw [if_neg hf]
      have hge : DB_G1 ≤ e.amplitude := not_lt.1 hf
      have hmul : e.amplitude ≤ e.amplitude * e.rate := le_mul_of_one_le_right h0 hr
      by_cases hc : e.amplitude * e.rate > 1
      · simp only [if_pos hc]
        exact ⟨h1, le_refl _, le_of_lt hg1⟩
      · simp only [if_neg hc]
        exact ⟨hmul, not_lt.1 hc, le_trans hge hmul⟩

/-- An envelope at amplitude 1 is left as it is. -/
theorem update_envelope_steady (e : envelope_t) (h : e.amplitude = 1) :
    update_envelope e = e := by
  simp only [update_envelope]
  rw [if_neg (by simpa using h)]

/-- The first update after activation lifts the amplitude 0 to the floor. -/
theorem update_envelope_zero (e : envelope_t) (h : e.amplitude = 0) :
    (update_envelope e).amplitude = DB_G1 := by
  obtain ⟨hg0, _⟩ := DB_G1_bounds
  simp only [update_envelope, h]
  rw [if_pos (by norm_num), if_pos hg0]

/-- Repeated updates keep the rate, keep the amplitude in 0..1 and never
lower it. -/
theorem update_envelope_iterate (e : envelope_t) (h0 : 0 ≤ e.amplitude) (h1 : e.amplitude ≤ 1)
    (hr : 1 ≤ e.rate) (n : Nat) :
    (update_envelope^[n] e).rate = e.rate ∧ 0 ≤ (update_envelope^[n] e).amplitude ∧
    (update_envelope^[n] e).amplitude ≤ 1 ∧
    (update_envelope^[n] e).amplitude ≤ (update_envelope^[n + 1] e).amplitude := by
  induction n with
  | zero =>
    have hs := update_envelope_step e h0 h1 hr
    exact ⟨rfl, h0, h1, by simpa using hs.1⟩
  | succ n ih =>
    obtain ⟨ihr, ih0, ih1, _⟩ := ih
    have hr' : 1 ≤ (update_envelope^[n] e).rate := by rw [ihr]; exact hr
    have hs := update_envelope_step (update_envelope^[n] e) ih0 ih1 hr'
    have hr1 : (update_envelope^[n + 1] e).rate = e.rate := by
      rw [Function.iterate_succ_apply', (update_envelope_frame _).1, ihr]
    have h01 : 0 ≤ (update_envelope^[n + 1] e).amplitude := by
      rw [Function.iterate_succ_apply']
      exact le_trans ih0 hs.1
    have h11 : (update_envelope^[n + 1] e).amplitude ≤ 1 := by
      rw [Function.iterate_succ_apply']
      exact hs.2.1
    have hs' := update_envelope_step (update_envelope^[n + 1] e) h01 h11 (by rw [hr1]; exact hr)
    refine ⟨hr1, h01, h11, ?_⟩
    rw [Function.iterate_succ_apply' update_envelope (n + 1)]
    exact hs'.1

/-- Once the amplitude is 1, further updates change nothing. -/
theorem update_envelope_iterate_steady (e : envelope_t) (h : e.amplitude = 1) (m : Nat) :
    update_envelope^[m] e = e := by
  induction m with
  | zero => rfl
  | succ m ih => rw [Function.iterate_succ_apply', ih, update_envelope_steady e h]

/-- The rate assigned by the note-on handler is at least 1. -/
theorem handler_rate_ge_one (sample_rate : Nat) :
    (1 : ℚ) ≤ 1 + ((100000 / sample_rate : Nat) : ℚ) := by
  have : (0 : ℚ) ≤ ((100000 / sample_rate : Nat) : ℚ) := Nat.cast_nonneg _
  linarith

/-- C11: envelope monotonicity and bound, over exact rationals.  For a
positive sample rate, starting from the envelope set at activation (amplitude
0, rate `1 + 100000 / sample_rate` as the note-on handler assigns it) and for
every number `n` of successive calls of `update_envelope`, the amplitude after
`n + 1` updates is at least the amplitude after `n` updates, and the amplitude
after `n` updates is at most 1; once the amplitude is 1 every further update
leaves it 1. -/
theorem envelope_monotone_bounded (sample_rate : Nat) (_hsr : 0 < sample_rate)
    (e : envelope_t) (hamp : e.amplitude = 0)
    (hrate : e.rate = 1 + ((100000 / sample_rate : Nat) : ℚ)) (n : Nat) :
    (update_envelope^[n] e).amplitude ≤ (update_envelope^[n + 1] e).amplitude ∧
    (update_envelope^[n] e).amplitude ≤ 1 ∧
    ((update_envelope^[n] e).amplitude = 1 →
      ∀ m, (update_envelope^[n + m] e).amplitude = 1) := by
  have h0 : 0 ≤ e.amplitude := by rw [hamp]
  have h1 : e.amplitude ≤ 1 := by rw [hamp]; norm_num
  have hr : 1 ≤ e.rate := by rw [hrate]; exact handler_rate_ge_one sample_rate
  obtain ⟨_, _, hle, hmono⟩ := update_envelope_iterate e h0 h1 hr n
  refine ⟨hmono, hle, ?_⟩
  intro hone m
  rw [Nat.add_comm, Function.iterate_add_apply,
    update_envelope_iterate_steady _ hone m]
  exact hone

/-- C11 at a concrete input: the envelope set at activation at 48000 Hz, after
three updates. -/
theorem envelope_monotone_bounded_witness :
    0 < 48000 ∧
    (update_envelope^[3]
      { step := 0, ref_time := 0, amplitude := 0, rate := 1 + ((100000 / 48000 : Nat) : ℚ) }
      ).amplitude ≤ 1 :=
  ⟨by decide,
    (envelope_monotone_bounded 48000 (by decide)
      { step := 0, ref_time := 0, amplitude := 0, rate := 1 + ((100000 / 48000 : Nat) : ℚ) }
      rfl rfl 3).2.1⟩

/-! ## Note-on, shared facts -/

/-- A note-on for an inactive key in range, on a registry that holds `l` and
with a positive sample rate: the handler returns, the registry then holds the
key in front of `l`, and the envelope of the key is the activation envelope. -/
theorem note_on_applies (my : instrument_t) (raw data2 : Nat) (l : List Nat)
    (hh : holds my.notes l) (hsr : 0 < my.sample_rate) (h36 : 36 ≤ raw) (h96 : raw ≤ 96)
    (hoff : (my.notes (raw - 36)).is_on = false) :
    ∃ my', midi_event my { status := 0x90, data1 := raw, data2 := data2 } = some my' ∧
      holds my'.notes ((raw - 36) :: l) ∧
      (my'.notes (raw - 36)).envelope =
        { step := (my.notes (raw - 36)).envelope.step, ref_time := my.global_time,
          amplitude := 0, rate := 1 + ((100000 / my.sample_rate : Nat) : ℚ) } ∧
      my'.drawbar_gains = my.drawbar_gains ∧ my'.global_time = my.global_time ∧
      my'.sample_rate = my.sample_rate := by
  obtain ⟨hidx, hlt⟩ := key_index_in_range raw h36 h96
  obtain ⟨n', hadd, hh', _, henv, _⟩ := add_note_holds my.notes (raw - 36) l hh hlt hoff
  have hsr0 : my.sample_rate ≠ 0 := by omega
  have hev : ∃ my', midi_event my { status := 0x90, data1 := raw, data2 := data2 } = some my' ∧
      my'.notes = Function.update n' (raw - 36) { n' (raw - 36) with
        envelope := { step := (n' (raw - 36)).envelope.step, ref_time := my.global_time,
                      amplitude := 0, rate := 1 + ((100000 / my.sample_rate : Nat) : ℚ) } } ∧
      my'.drawbar_gains = my.drawbar_gains ∧ my'.global_time = my.global_time ∧
      my'.sample_rate = my.sample_rate := by
    simp only [midi_event, hidx, hadd, if_true, if_pos (show raw - 36 < NUM_KEYS from hlt),
      if_neg hsr0]
    exact ⟨_, rfl, rfl, rfl, rfl, rfl⟩
  obtain ⟨my', hmy, hnotes, hg, ht, hr⟩ := hev
  have hhold := holds_set_envelope n' ((raw - 36) :: l) (raw - 36)
    { step := (n' (raw - 36)).envelope.step, ref_time := my.global_time,
      amplitude := 0, rate := 1 + ((100000 / my.sample_rate : Nat) : ℚ) } hh'
  rw [← hnotes] at hhold
  refine ⟨my', hmy, hhold, ?_, hg, ht, hr⟩
  rw [hnotes, Function.update_same]
  show _ = _
  rw [← henv (raw - 36)]

/-- The start-up state has the sample rate it was given and a zero clock. -/
theorem startup_fields (sample_rate : Nat) :
    (startup sample_rate).sample_rate = sample_rate ∧ (startup sample_rate).global_time = 0 := by
  simp [startup, init, my_zero]

/-- Every key is silent at start-up. -/
theorem startup_off (sample_rate k : Nat) (hk : k < 61) :
    ((startup sample_rate).notes k).is_on = false := by
  cases h : ((startup sample_rate).notes k).is_on with
  | false => rfl
  | true =>
    have := (holds_startup sample_rate).2.2.2 k hk h
    simp at this

/-- C12, evaluated on the code.  At 48000 Hz the note-on handler stores the
rate 3, the integer quotient 100000 / 48000 = 2 plus 1, which is not
1 + 100000/48000; at 192000 Hz it stores the rate 1, and the amplitude then
stays at the floor gain through every further update. -/
theorem note_on_rate_integer_quotient :
    (∃ my', midi_event (startup 48000) { status := 0x90, data1 := 60, data2 := 100 } = some my' ∧
      (my'.notes 24).envelope.rate = 3 ∧
      (my'.notes 24).envelope.rate ≠ 1 + (100000 : ℚ) / 48000) ∧
    (∃ my', midi_event (startup 192000) { status := 0x90, data1 := 60, data2 := 100 } = some my' ∧
      (my'.notes 24).envelope.rate = 1 ∧
      (my'.notes 24).envelope.rate ≠ 1 + (100000 : ℚ) / 192000 ∧
      ∀ n, (update_envelope^[n + 1] (my'.notes 24).envelope).amplitude = DB_G1) := by
  constructor
  · obtain ⟨my', hev, _, henv, _⟩ :=
      note_on_applies (startup 48000) 60 100 [] (holds_startup 48000)
        (by rw [(startup_fields 48000).1]; decide) (by decide) (by decide)
        (startup_off 48000 24 (by decide))
    have hrate : (my'.notes 24).envelope.rate = 3 := by
      have := congrArg envelope_t.rate henv
      simp only [(startup_fields 48000).1] at this
      rw [show (24 : Nat) = 60 - 36 from rfl, this]
      norm_num
    refine ⟨my', hev, hrate, ?_⟩
    rw [hrate]
    norm_num
  · obtain ⟨my', hev, _, henv, _⟩ :=
      note_on_applies (startup 192000) 60 100 [] (holds_startup 192000)
        (by rw [(startup_fields 192000).1]; decide) (by decide) (by decide)
        (startup_off 192000 24 (by decide))
    have henv24 : (my'.notes 24).envelope =
        { step := ((startup 192000).notes 24).envelope.step,
          ref_time := (startup 192000).global_time, amplitude := 0, rate := 1 } := by
      rw [show (24 : Nat) = 60 - 36 from rfl, henv, (startup_fields 192000).1]
      norm_num
    have hrate : (my'.notes 24).envelope.rate = 1 := by rw [henv24]
    refine ⟨my', hev, hrate, ?_, ?_⟩
    · rw [hrate]
      norm_num
    · intro n
      induction n with
      | zero =>
        exact update_envelope_zero _ (by rw [henv24])
      | succ n ih =>
        obtain ⟨hg0, hg1⟩ := DB_G1_bounds
        have hr : (update_envelope^[n + 1] (my'.notes 24).envelope).rate = 1 := by
          have h := update_envelope_iterate (my'.notes 24).envelope (by rw [henv24])
            (by rw [henv24]; norm_num) (by rw [hrate]) (n + 1)
          rw [h.1, hrate]
        rw [Function.iterate_succ_apply' update_envelope (n + 1)]
        simp only [update_envelope, ih, hr, mul_one]
        rw [if_pos (ne_of_lt hg1), if_neg (lt_irrefl _), if_neg (not_lt.2 (le_of_lt hg1))]

/-! ## Wheel lookup: bounds -/

/-- The foldback rule in closed form on the requested indices 0..108. -/
theorem fold_low12_closed (i : Int) (h0 : 0 ≤ i) (h1 : i ≤ 108) :
    fold_low12 i =
      if i < 12 then i + 12 else if i < 91 then i else if i < 103 then i - 12 else i - 24 := by
  simp only [fold_low12]
  by_cases h12 : i < 12
  · rw [if_pos h12, if_pos h12]
  · rw [if_neg h12, if_neg h12]
    by_cases h91 : 91 ≤ i
    · rw [if_pos h91, if_neg (by omega), spec_fold_down_lt_115 i h91 (by omega)]
    · rw [if_neg h91, if_pos (by omega)]

/-- The wave index of a tap of a key, through the table of the code and the
offsets of the specification. -/
theorem tap_wave_index_fold (note_index d f : Nat) (hn : note_index ≤ 60) (hd : d ≤ 8) :
    ∃ (off : Int) (w : Nat), spec_offset[d]? = some off ∧
      drawbar_harmonic_offset[d]? = some (u8 off) ∧
      (off = -12 ∨ (0 ≤ off ∧ off ≤ 36)) ∧
      tap_wave_index (f + 3) note_index d = some w ∧
      (w : Int) = fold_low12 ((note_index : Int) + 12 + off) := by
  have hstep : ∀ off : Int, (off = -12 ∨ (0 ≤ off ∧ off ≤ 36)) →
      spec_offset[d]? = some off → drawbar_harmonic_offset[d]? = some (u8 off) →
      ∃ (off : Int) (w : Nat), spec_offset[d]? = some off ∧
        drawbar_harmonic_offset[d]? = some (u8 off) ∧
        (off = -12 ∨ (0 ≤ off ∧ off ≤ 36)) ∧
        tap_wave_index (f + 3) note_index d = some w ∧
        (w : Int) = fold_low12 ((note_index : Int) + 12 + off) := by
    intro off hoff hs hc
    obtain ⟨w, hw, hfold⟩ := foldback_core f note_index off hn hoff
    refine ⟨off, w, hs, hc, hoff, ?_, hfold⟩
    simp only [tap_wave_index, hc]
    exact hw
  interval_cases d
  · exact hstep (-12) (by omega) (by decide) (by decide)
  · exact hstep 7 (by omega) (by decide) (by decide)
  · exact hstep 0 (by omega) (by decide) (by decide)
  · exact hstep 12 (by omega) (by decide) (by decide)
  · exact hstep 19 (by omega) (by decide) (by decide)
  · exact hstep 24 (by omega) (by decide) (by decide)
  · exact hstep 28 (by omega) (by decide) (by decide)
  · exact hstep 31 (by omega) (by decide) (by decide)
  · exact hstep 36 (by omega) (by decide) (by decide)

/-- The wave index of a tap of a key lies in 12..90, keeps the pitch class,
is `note_index + 12` on the lower foldback and lies in 79..90 on the upper. -/
theorem tap_wave_index_bounds (note_index d f : Nat) (hn : note_index ≤ 60) (hd : d ≤ 8) :
    ∃ (off : Int) (w : Nat), spec_offset[d]? = some off ∧
      drawbar_harmonic_offset[d]? = some (u8 off) ∧
      tap_wave_index (f + 3) note_index d = some w ∧
      12 ≤ w ∧ w < 91 ∧
      (w : Int) % 12 = ((note_index : Int) + off) % 12 ∧
      ((note_index : Int) + 12 + off < 12 → w = note_index + 12) ∧
      (91 ≤ (note_index : Int) + 12 + off → 79 ≤ w) := by
  obtain ⟨off, w, hs, hc, hoff, hw, hfold⟩ := tap_wave_index_fold note_index d f hn hd
  have h0 : 0 ≤ (note_index : Int) + 12 + off := by omega
  have h1 : (note_index : Int) + 12 + off ≤ 108 := by omega
  rw [fold_low12_closed _ h0 h1] at hfold
  refine ⟨off, w, hs, hc, hw, ?_, ?_, ?_, ?_, ?_⟩ <;> split_ifs at hfold <;> omega

/-- Any fuel of three or more gives the wave index `tap_wheel`. -/
theorem tap_wave_index_fuel (note_index d f : Nat) (hn : note_index ≤ 60) (hd : d ≤ 8) :
    tap_wave_index (f + 3) note_index d = some (tap_wheel note_index d) := by
  obtain ⟨off, w, hs, _, _, hw, hfold⟩ := tap_wave_index_fold note_index d f hn hd
  obtain ⟨off', w', hs', _, _, hw', hfold'⟩ := tap_wave_index_fold note_index d 253 hn hd
  rw [hs] at hs'
  cases hs'
  have hww : w = w' := by omega
  subst hww
  have hwheel : tap_wheel note_index d = w := by
    simp only [tap_wheel, hw', Option.getD_some]
  rw [hwheel]
  exact hw

/-- The tap of a key always contributes: with waves of positive length the
body of the drawbar loop adds amplitude times gain times the wave sample at
`global_time mod length` of the folded-back wheel. -/
theorem tap_mix_contributes (tg : tone_generator_t) (gains : Nat → ℚ) (gt : Nat) (env : ℚ)
    (note_index d : Nat) (sample : ℚ) (hok : waves_ok tg) (hn : note_index ≤ 60) (hd : d ≤ 8) :
    tap_wheel note_index d < 91 ∧
    tap_wave_index 256 note_index d = some (tap_wheel note_index d) ∧
    tap_mix tg gains gt env note_index d sample =
      some (sample + env * gains d *
        (tg (tap_wheel note_index d)).samples.getD
          (gt % (tg (tap_wheel note_index d)).length) 0) := by
  obtain ⟨off, w, _, _, hw, _, hw91, _⟩ := tap_wave_index_bounds note_index d 253 hn hd
  have hwheel : tap_wheel note_index d = w := by
    simp only [tap_wheel, hw, Option.getD_some]
  rw [hwheel]
  obtain ⟨hlen, hbuf⟩ := hok w hw91
  have hidx : gt % (tg w).length < (tg w).samples.length := by
    rw [hbuf]
    exact Nat.mod_lt _ hlen
  refine ⟨hw91, hw, ?_⟩
  simp only [tap_mix, hw]
  rw [if_pos hw91, if_neg (by omega), List.getElem?_eq_getElem hidx,
    List.getD_eq_getElem _ _ hidx]

/-- C20: wheel lookup is always in bounds and keeps the pitch class.  For every
key index in 0..60 and every tap `d` in 0..8, with the wave index computed in
8-bit unsigned arithmetic (the offset -12 is stored as the byte 244), the
upper foldback loop ends within three evaluations of its condition and the
final wave index lies in 12..90; so the guard `wave_index < NUM_WAVES` holds,
the tap contributes its product to the sample, and wheels 0..11 are not read.
The final wave index is congruent modulo 12 to the key index plus the semitone
offset, equals the key index plus 12 when the requested index is below 12, and
lies in 79..90 when the requested index is 91 or more. -/
theorem wheel_lookup_in_bounds (note_index d fuel : Nat) (hn : note_index ≤ 60) (hd : d ≤ 8)
    (hf : 3 ≤ fuel) :
    u8 (-12) = 244 ∧
    ∃ (off : Int) (w : Nat), spec_offset[d]? = some off ∧
      drawbar_harmonic_offset[d]? = some (u8 off) ∧
      tap_wave_index fuel note_index d = some w ∧
      12 ≤ w ∧ w < NUM_WAVES ∧
      (w : Int) % 12 = ((note_index : Int) + off) % 12 ∧
      ((note_index : Int) + 12 + off < 12 → w = note_index + 12) ∧
      (91 ≤ (note_index : Int) + 12 + off → 79 ≤ w ∧ w < 91) ∧
      (∀ (tg : tone_generator_t) (gains : Nat → ℚ) (gt : Nat) (env sample : ℚ), waves_ok tg →
        tap_mix tg gains gt env note_index d sample =
          some (sample + env * gains d * (tg w).samples.getD (gt % (tg w).length) 0)) := by
  obtain ⟨f, rfl⟩ : ∃ f, fuel = f + 3 := ⟨fuel - 3, by omega⟩
  obtain ⟨off, w, hs, hc, hw, h12, h91, hmod, hlow, hhigh⟩ :=
    tap_wave_index_bounds note_index d f hn hd
  refine ⟨by decide, off, w, hs, hc, hw, h12, h91, hmod, hlow, fun h => ⟨hhigh h, h91⟩, ?_⟩
  intro tg gains gt env sample hok
  obtain ⟨_, _, hmix⟩ := tap_mix_contributes tg gains gt env note_index d sample hok hn hd
  have hww : tap_wheel note_index d = w := by
    have h := tap_wave_index_fuel note_index d f hn hd
    rw [hw] at h
    exact (Option.some.inj h).symm
  rw [hww] at hmix
  exact hmix

/-- C20 at a concrete input: the lowest key with the sub-octave tap reads
wheel 12. -/
theorem wheel_lookup_in_bounds_witness :
    0 ≤ 60 ∧ 0 ≤ 8 ∧ 3 ≤ 3 ∧ tap_wave_index 3 0 0 = some 12 := by
  obtain ⟨_, off, w, hs, _, hw, _, _, _, hlow, _⟩ :=
    wheel_lookup_in_bounds 0 0 3 (by decide) (by decide) (by decide)
  have hoff : off = -12 := by
    have : spec_offset[0]? = some (-12) := by decide
    rw [this] at hs
    exact (Option.some.inj hs).symm
  subst hoff
  have : w = 0 + 12 := hlow (by decide)
  subst this
  exact ⟨by decide, by decide, by decide, hw⟩

/-! ## The sample loop -/

/-- The drawbar loop over taps `ds` adds the products of those taps. -/
theorem drawbar_loop_sum (tg : tone_generator_t) (gains : Nat → ℚ) (gt : Nat) (env : ℚ)
    (note_index : Nat) (hok : waves_ok tg) (hn : note_index ≤ 60) (ds : List Nat) :
    ∀ sample : ℚ, (∀ d ∈ ds, d ≤ 8) →
    drawbar_loop tg gains gt env note_index ds sample =
      some (sample + (ds.map (fun d => env * gains d *
        (tg (tap_wheel note_index d)).samples.getD
          (gt % (tg (tap_wheel note_index d)).length) 0)).sum) := by
  induction ds with
  | nil =>
    intro sample _
    simp [drawbar_loop]
  | cons d ds ih =>
    intro sample hds
    obtain ⟨_, _, hmix⟩ :=
      tap_mix_contributes tg gains gt env note_index d sample hok hn (hds d (by simp))
    simp only [drawbar_loop, hmix]
    rw [ih _ (fun d' hd' => hds d' (by simp [hd']))]
    simp only [List.map_cons, List.sum_cons]
    rw [add_assoc]

/-- The drawbar loop of a key adds the contribution `note_value` of the key. -/
theorem drawbar_loop_note (tg : tone_generator_t) (gains : Nat → ℚ) (gt : Nat) (env : ℚ)
    (note_index : Nat) (sample : ℚ) (hok : waves_ok tg) (hn : note_index ≤ 60) :
    drawbar_loop tg gains gt env note_index (List.range NUM_DRAWBARS) sample =
      some (sample + note_value tg gains env note_index gt) := by
  rw [drawbar_loop_sum tg gains gt env note_index hok hn (List.range NUM_DRAWBARS) sample
    (fun d hd => by
      have h9 : d < 9 := List.mem_range.1 hd
      omega)]
  rfl

/-- The note loop along a segment that ends at the sentinel: every note of the
segment is mixed with the amplitude it has on entry, and has its envelope
updated once; nothing else in the note array changes. -/
theorem note_loop_seg (tg : tone_generator_t) (gains : Nat → ℚ) (gt : Nat) (hok : waves_ok tg)
    (l : List Nat) : ∀ (notes : notes_t) (p fuel : Nat) (sample : ℚ),
    seg notes p l 61 → l.Nodup → (∀ x ∈ l, x < 61) → l.length ≤ fuel →
    ∃ notes', note_loop tg gains gt fuel notes (notes p).next sample =
        some (notes', sample + mix_value tg gains (fun i => (notes i).envelope.amplitude) l gt) ∧
      (∀ x, notes' x =
        if x ∈ l then { notes x with envelope := update_envelope (notes x).envelope }
        else notes x) := by
  induction l with
  | nil =>
    intro notes p fuel sample hs _ _ _
    simp only [seg] at hs
    refine ⟨notes, ?_, fun x => by simp⟩
    unfold note_loop
    rw [hs.1, if_pos DUMMY_NOTE_eq.symm]
    simp [mix_value]
  | cons y ys ih =>
    intro notes p fuel sample hs hnd hlt hlen
    simp only [seg] at hs
    have hy : y < 61 := hlt y (by simp)
    have hyys : y ∉ ys := (List.nodup_cons.1 hnd).1
    cases fuel with
    | zero => simp at hlen
    | succ f =>
      have hfield : ∀ x,
          ((Function.update notes y
            { notes y with envelope := update_envelope (notes y).envelope }) x).next =
            (notes x).next ∧
          ((Function.update notes y
            { notes y with envelope := update_envelope (notes y).envelope }) x).prev =
            (notes x).prev := by
        intro x
        simp only [Function.update_apply]
        split_ifs with hx
        · subst hx
          exact ⟨rfl, rfl⟩
        · exact ⟨rfl, rfl⟩
      have hs1 := seg_congr notes
        (Function.update notes y { notes y with envelope := update_envelope (notes y).envelope })
        ys y 61 (fun x _ => (hfield x).1) (fun x _ => (hfield x).2) hs.2.2
      obtain ⟨notes', hloop, hnotes'⟩ := ih
        (Function.update notes y { notes y with envelope := update_envelope (notes y).envelope })
        y f (sample + note_value tg gains (notes y).envelope.amplitude y gt) hs1
        (List.nodup_cons.1 hnd).2 (fun x hx => hlt x (List.mem_cons_of_mem _ hx))
        (by simpa using hlen)
      refine ⟨notes', ?_, ?_⟩
      · unfold note_loop
        rw [hs.1, if_neg (by simp only [DUMMY_NOTE_eq]; omega),
          if_neg (by simp only [NOTES_LEN_eq]; omega)]
        simp only
        rw [drawbar_loop_note tg gains gt _ y sample hok (by omega)]
        simp only
        rw [hloop]
        congr 2
        rw [add_assoc]
        congr 1
        simp only [mix_value, List.map_cons, List.sum_cons]
        congr 2
        apply List.map_congr_left
        intro i hi
        have hiy : i ≠ y := fun he => hyys (he ▸ hi)
        rw [Function.update_noteq hiy]
      · intro x
        rw [hnotes' x]
        by_cases hxy : x = y
        · subst hxy
          rw [if_neg hyys, if_pos (by simp), Function.update_same]
        · rw [Function.update_noteq hxy]
          by_cases hx : x ∈ ys
          · rw [if_pos hx, if_pos (by simp [hx])]
          · rw [if_neg hx, if_neg (by simp [hx, hxy])]

/-- The list held by the registry depends on the flags and links only. -/
theorem holds_congr (n n' : notes_t) (l : List Nat) (h : holds n l)
    (hf : ∀ x, (n' x).is_on = (n x).is_on ∧ (n' x).next = (n x).next ∧
      (n' x).prev = (n x).prev) : holds n' l := by
  obtain ⟨hs, hnd, hon, hall⟩ := h
  refine ⟨seg_congr n n' l 61 61 (fun x _ => (hf x).2.1) (fun x _ => (hf x).2.2) hs, hnd, ?_, ?_⟩
  · intro x hx
    exact ⟨(hon x hx).1, by rw [(hf x).1]; exact (hon x hx).2⟩
  · intro k hk hkon
    rw [(hf k).1] at hkon
    exact hall k hk hkon

/-- The state `advance my l n` differs from `my` in envelopes and clock only. -/
theorem advance_frame (my : instrument_t) (l : List Nat) (n : Nat) :
    (∀ x, ((advance my l n).notes x).is_on = (my.notes x).is_on ∧
      ((advance my l n).notes x).next = (my.notes x).next ∧
      ((advance my l n).notes x).prev = (my.notes x).prev) ∧
    (advance my l n).drawbar_gains = my.drawbar_gains ∧
    (advance my l n).sample_rate = my.sample_rate ∧
    (advance my l n).global_time = (my.global_time + n) % 2 ^ 32 := by
  refine ⟨?_, rfl, rfl, rfl⟩
  intro x
  simp only [advance]
  split_ifs <;> exact ⟨rfl, rfl, rfl⟩

/-- Advancing by `n` samples after one sample is advancing by `n + 1`. -/
theorem advance_succ (my : instrument_t) (l : List Nat) (n : Nat) :
    advance (advance my l 1) l n = advance my l (n + 1) := by
  have hclock : ((my.global_time + 1) % 2 ^ 32 + n) % 2 ^ 32 =
      (my.global_time + (n + 1)) % 2 ^ 32 := by omega
  have hnotes : (advance (advance my l 1) l n).notes = (advance my l (n + 1)).notes := by
    funext x
    simp only [advance]
    by_cases hx : x ∈ l
    · simp only [if_pos hx, Function.iterate_succ_apply, Function.iterate_zero, id_eq]
    · simp only [if_neg hx]
  simp only [advance] at hnotes ⊢
  rw [hnotes, hclock]

/-- The mix depends on the amplitudes of the notes of the list only. -/
theorem mix_value_congr (tg : tone_generator_t) (gains : Nat → ℚ) (a b : Nat → ℚ)
    (l : List Nat) (clock : Nat) (h : ∀ i ∈ l, a i = b i) :
    mix_value tg gains a l clock = mix_value tg gains b l clock := by
  simp only [mix_value]
  congr 1
  apply List.map_congr_left
  intro i hi
  rw [h i hi]

/-- One output sample on a registry that holds `l`, with waves of positive
length: the sample written is the mix of the notes of `l` at the amplitudes
and the clock of the state on entry, and the state on exit is that state
advanced by one sample. -/
theorem render_sample_holds (tg : tone_generator_t) (my : instrument_t) (l : List Nat)
    (hok : waves_ok tg) (hh : holds my.notes l) :
    render_sample tg my =
      some (advance my l 1,
        mix_value tg my.drawbar_gains (fun i => (my.notes i).envelope.amplitude) l
          my.global_time) := by
  obtain ⟨hs, hnd, hon, _⟩ := hh
  obtain ⟨notes', hloop, hnotes'⟩ :=
    note_loop_seg tg my.drawbar_gains my.global_time hok l my.notes 61 61 0 hs hnd
      (fun x hx => (hon x hx).1) (nodup_length_le l 61 hnd (fun x hx => (hon x hx).1))
  have hn : notes' = (advance my l 1).notes := by
    funext x
    rw [hnotes' x]
    simp only [advance, Function.iterate_one]
  simp only [render_sample, DUMMY_NOTE_eq, NUM_KEYS_eq]
  rw [hloop]
  simp only [zero_add]
  rw [hn]
  rfl

/-- A block of `n` output samples on a registry that holds `l`, with waves of
positive length and a 32-bit clock: the state on exit is the state on entry
advanced by `n` samples, and sample `k` is the mix of the notes of `l` at the
amplitudes reached after `k` updates, at the clock value `old + k` modulo
2^32. -/
theorem audio_out_holds (tg : tone_generator_t) (l : List Nat) (hok : waves_ok tg) (n : Nat) :
    ∀ my : instrument_t, holds my.notes l → my.global_time < 2 ^ 32 →
    audio_out tg n my =
      some (advance my l n,
        (List.range n).map (fun k =>
          mix_value tg my.drawbar_gains
            (fun i => (update_envelope^[k] (my.notes i).envelope).amplitude) l
            ((my.global_time + k) % 2 ^ 32))) := by
  induction n with
  | zero =>
    intro my _ hgt
    have hadv : advance my l 0 = my := by
      have hnotes : (advance my l 0).notes = my.notes := by
        funext x
        simp only [advance, Function.iterate_zero, id_eq]
        split_ifs <;> rfl
      have hclock : (my.global_time + 0) % 2 ^ 32 = my.global_time := by
        rw [Nat.add_zero, Nat.mod_eq_of_lt hgt]
      simp only [advance] at hnotes ⊢
      rw [hnotes, hclock]
    simp only [audio_out, hadv, List.range_zero, List.map_nil]
  | succ n ih =>
    intro my hh hgt
    have hh1 : holds (advance my l 1).notes l :=
      holds_congr my.notes _ l hh (advance_frame my l 1).1
    have hgt1 : (advance my l 1).global_time < 2 ^ 32 := by
      rw [(advance_frame my l 1).2.2.2]
      exact Nat.mod_lt _ (by norm_num)
    simp only [audio_out, render_sample_holds tg my l hok hh, ih (advance my l 1) hh1 hgt1,
      advance_succ]
    congr 2
    rw [List.range_succ_eq_map, List.map_cons, List.map_map]
    congr 1
    · rw [Nat.add_zero, Nat.mod_eq_of_lt hgt]
      rfl
    · apply List.map_congr_left
      intro k _
      have hclock : ((advance my l 1).global_time + k) % 2 ^ 32 =
          (my.global_time + (k + 1)) % 2 ^ 32 := by
        rw [(advance_frame my l 1).2.2.2]
        omega
      simp only [Function.comp_apply, hclock, (advance_frame my l 1).2.1]
      apply mix_value_congr
      intro i hi
      simp only [advance, if_pos hi, Function.iterate_succ_apply, Function.iterate_zero, id_eq]

/-- The waves of `unit_waves` have a positive length. -/
theorem unit_waves_ok : waves_ok unit_waves := by
  intro w _
  exact ⟨Nat.one_pos, rfl⟩

/-- The sample `k` of a block, read from the output buffer. -/
theorem audio_out_sample (tg : tone_generator_t) (l : List Nat) (hok : waves_ok tg)
    (n : Nat) (my : instrument_t) (hh : holds my.notes l) (hgt : my.global_time < 2 ^ 32) :
    ∃ out, audio_out tg n my = some (advance my l n, out) ∧ out.length = n ∧
      ∀ k, k < n → out[k]? = some (mix_value tg my.drawbar_gains
        (fun i => (update_envelope^[k] (my.notes i).envelope).amplitude) l
        ((my.global_time + k) % 2 ^ 32)) := by
  refine ⟨_, audio_out_holds tg l hok n my hh hgt, by simp, ?_⟩
  intro k hk
  rw [List.getElem?_map, List.getElem?_range hk]
  rfl

/-! ## The sample loop: claims -/

/-- C14: per-sample mix, with the sample arithmetic over the rationals.  In a
state with a well-formed registry and a 32-bit clock, and with waves of
positive length, the value written for an output sample is the sum, over the
notes of the active list and the taps 0..8, of the amplitude of the note
before this sample's update, times the drawbar gain of the tap, times the
sample at `global_time mod length` of the folded-back wheel of the note and
tap, with one clock value for all notes and taps; with no active note it is 0.
This holds for every sample of a block: sample `k` of a block of `n` frames is
that sum in the state reached after `k` samples. -/
theorem per_sample_mix (tg : tone_generator_t) (my : instrument_t) (hwf : wf my.notes)
    (hok : waves_ok tg) (hgt : my.global_time < 2 ^ 32) :
    ∃ l, active_notes my.notes = some l ∧
      (∃ my', render_sample tg my = some (my',
        (l.map (fun i => ((List.range 9).map (fun d =>
          (my.notes i).envelope.amplitude * my.drawbar_gains d *
            (tg (tap_wheel i d)).samples.getD
              (my.global_time % (tg (tap_wheel i d)).length) 0)).sum)).sum)) ∧
      (∀ i ∈ l, ∀ d, d < 9 →
        tap_wave_index 256 i d = some (tap_wheel i d) ∧ tap_wheel i d < NUM_WAVES) ∧
      (l = [] → ∃ my', render_sample tg my = some (my', 0)) ∧
      (∀ n k, k < n → ∃ myn out myk outk lk,
        audio_out tg n my = some (myn, out) ∧ audio_out tg k my = some (myk, outk) ∧
        active_notes myk.notes = some lk ∧
        out[k]? = some ((lk.map (fun i => ((List.range 9).map (fun d =>
          (myk.notes i).envelope.amplitude * myk.drawbar_gains d *
            (tg (tap_wheel i d)).samples.getD
              (myk.global_time % (tg (tap_wheel i d)).length) 0)).sum)).sum)) := by
  obtain ⟨l, hh⟩ := wf_exists_holds my.notes hwf
  have hrs := render_sample_holds tg my l hok hh
  refine ⟨l, holds_active _ _ hh, ⟨_, hrs⟩, ?_, ?_, ?_⟩
  · intro i hi d hd
    have hi61 : i < 61 := (hh.2.2.1 i hi).1
    obtain ⟨h1, h2, _⟩ :=
      tap_mix_contributes tg my.drawbar_gains 0 0 i d 0 hok (by omega) (by omega)
    exact ⟨h2, h1⟩
  · intro hl
    subst hl
    exact ⟨_, hrs⟩
  · intro n k hk
    obtain ⟨out, hout, _, hsample⟩ := audio_out_sample tg l hok n my hh hgt
    have hhk : holds (advance my l k).notes l :=
      holds_congr my.notes _ l hh (advance_frame my l k).1
    refine ⟨_, out, advance my l k, _, l, hout, audio_out_holds tg l hok k my hh hgt,
      holds_active _ _ hhk, ?_⟩
    rw [hsample k hk]
    congr 1
    have hc := mix_value_congr tg my.drawbar_gains
      (fun i => (update_envelope^[k] (my.notes i).envelope).amplitude)
      (fun i => ((advance my l k).notes i).envelope.amplitude) l
      ((my.global_time + k) % 2 ^ 32)
      (fun i hi => by simp only [advance, if_pos hi])
    rw [hc]
    rfl

/-- C14 at a concrete input, with a sounding note.  On the start-up state at
48000 Hz the note-on for key 24 is handled and one sample is rendered; in the
state reached the registry holds key 24 with the amplitude 0.0891, the clock is
1 and the drawbars 0, 1, 2 have gain 1.  With the waves of `wheel_waves`, whose
sample 1 is the wheel number, the next sample is
0.0891 * (24 + 43 + 36) = 9.1773: the taps 0, 1, 2 of key 24 read the wheels
24, 43 and 36 at the clock value 1. -/
theorem per_sample_mix_witness :
    ∃ my1 my2, midi_event (startup 48000) { status := 0x90, data1 := 60, data2 := 100 } =
        some my1 ∧
      render_sample wheel_waves my1 = some (my2, 0) ∧
      wf my2.notes ∧ waves_ok wheel_waves ∧ my2.global_time < 2 ^ 32 ∧
      active_notes my2.notes = some [24] ∧
      (my2.notes 24).envelope.amplitude = 0.0891 ∧ my2.global_time = 1 ∧
      ∃ my3, render_sample wheel_waves my2 = some (my3, 9.1773) := by
  obtain ⟨my1, hev, hh, henv, hg, hclock, _⟩ :=
    note_on_applies (startup 48000) 60 100 [] (holds_startup 48000)
      (by rw [(startup_fields 48000).1]; decide) (by decide) (by decide)
      (startup_off 48000 24 (by decide))
  have hok : waves_ok wheel_waves := fun w _ => ⟨Nat.succ_pos 1, rfl⟩
  have henv24 : (my1.notes 24).envelope.amplitude = 0 := by
    rw [show (24 : Nat) = 60 - 36 from rfl, henv]
  have hh2 : holds (advance my1 [24] 1).notes [24] :=
    holds_congr my1.notes _ [24] hh (advance_frame my1 [24] 1).1
  have hwf : wf (advance my1 [24] 1).notes := holds_wf _ _ hh2
  have hclock2 : (advance my1 [24] 1).global_time = 1 := by
    simp only [advance, hclock, (startup_fields 48000).2]
    norm_num
  have hgt : (advance my1 [24] 1).global_time < 2 ^ 32 := by
    rw [hclock2]
    norm_num
  have hamp : ((advance my1 [24] 1).notes 24).envelope.amplitude = 0.0891 := by
    simp only [advance, List.mem_singleton, if_true, Function.iterate_one]
    rw [update_envelope_zero _ henv24]
    rfl
  have hgains : (advance my1 [24] 1).drawbar_gains = (startup 48000).drawbar_gains := hg
  obtain ⟨l, hl, ⟨my3, hrender⟩, _⟩ :=
    per_sample_mix wheel_waves (advance my1 [24] 1) hwf hok hgt
  have hl24 : l = [24] := by
    rw [holds_active _ _ hh2] at hl
    exact (Option.some.inj hl).symm
  subst hl24
  refine ⟨my1, advance my1 [24] 1, hev, ?_, hwf, hok, hgt, holds_active _ _ hh2, hamp, hclock2,
    my3, ?_⟩
  · rw [render_sample_holds wheel_waves my1 [24] hok hh]
    congr 2
    simp only [mix_value, note_value, List.map_cons, List.map_nil, List.sum_cons,
      List.sum_nil, henv24, zero_mul, add_zero]
    simp
  · rw [hrender]
    congr 2
    simp only [List.map_cons, List.map_nil, List.sum_cons, List.sum_nil, hamp, hclock2, hgains,
      show List.range 9 = [0, 1, 2, 3, 4, 5, 6, 7, 8] from by decide,
      show tap_wheel 24 0 = 24 from by decide, show tap_wheel 24 1 = 43 from by decide,
      show tap_wheel 24 2 = 36 from by decide, show tap_wheel 24 3 = 48 from by decide,
      show tap_wheel 24 4 = 55 from by decide, show tap_wheel 24 5 = 60 from by decide,
      show tap_wheel 24 6 = 64 from by decide, show tap_wheel 24 7 = 67 from by decide,
      show tap_wheel 24 8 = 72 from by decide,
      wheel_waves, startup, init, my_zero, Function.update_apply, DB_G8]
    norm_num

/-- With only the unison drawbar open, the contribution of key 24 is its
amplitude times the sample of wheel 36. -/
theorem note_value_unison (tg : tone_generator_t) (a : ℚ) (clock : Nat) :
    note_value tg (fun d => if d = 2 then 1 else 0) a 24 clock =
      a * (tg 36).samples.getD (clock % (tg 36).length) 0 := by
  have h36 : tap_wheel 24 2 = 36 := by decide
  have hr : List.range NUM_DRAWBARS = [0, 1, 2, 3, 4, 5, 6, 7, 8] := by decide
  simp only [note_value, hr, List.map_cons, List.map_nil, List.sum_cons, List.sum_nil, h36]
  norm_num

/-- The amplitudes of the activation envelope at 48000 Hz, whose rate is 3:
0, then the floor 0.0891, then 0.2673, 0.8019, and 1 from the fourth update
on. -/
theorem scenario_amplitudes (e : envelope_t) (hamp : e.amplitude = 0) (hrate : e.rate = 3) :
    (update_envelope^[0] e).amplitude = 0 ∧
    (update_envelope^[1] e).amplitude = 0.0891 ∧
    (update_envelope^[2] e).amplitude = 0.2673 ∧
    (update_envelope^[3] e).amplitude = 0.8019 ∧
    (∀ n, 4 ≤ n → (update_envelope^[n] e).amplitude = 1) := by
  have hr : ∀ n, (update_envelope^[n] e).rate = 3 := by
    intro n
    induction n with
    | zero => exact hrate
    | succ n ih => rw [Function.iterate_succ_apply', (update_envelope_frame _).1, ih]
  have h1 : (update_envelope^[1] e).amplitude = 0.0891 := by
    rw [Function.iterate_one, update_envelope_zero e hamp]
    rfl
  have h2 : (update_envelope^[2] e).amplitude = 0.2673 := by
    rw [Function.iterate_succ_apply' update_envelope 1]
    simp only [update_envelope, h1, hr 1, DB_G1]
    norm_num
  have h3 : (update_envelope^[3] e).amplitude = 0.8019 := by
    rw [Function.iterate_succ_apply' update_envelope 2]
    simp only [update_envelope, h2, hr 2, DB_G1]
    norm_num
  have h4 : (update_envelope^[4] e).amplitude = 1 := by
    rw [Function.iterate_succ_apply' update_envelope 3]
    simp only [update_envelope, h3, hr 3, DB_G1]
    norm_num
  refine ⟨hamp, h1, h2, h3, ?_⟩
  intro n hn
  obtain ⟨m, rfl⟩ : ∃ m, n = m + 4 := ⟨n - 4, by omega⟩
  rw [Function.iterate_add_apply, update_envelope_iterate_steady _ h4 m]
  exact h4

/-- C16: end-to-end scenario.  From the instrument initialised at 48000 Hz with
clock 0, no active note and drawbar gains 0, 0, 1, 0, 0, 0, 0, 0, 0, and with
waves of positive length, one block of 128 frames whose only MIDI event is a
note-on for raw note 60 (key 24) returns 128 samples, and for every `n` in
0..127 sample `n` is `amplitude n` times the sample `n mod length` of wheel
36, the unison wheel of key 24, where `amplitude n` is the envelope amplitude
of key 24 after `n` updates since activation: 0, 0.0891, 0.2673, 0.8019, and 1
from the fourth update on. -/
theorem end_to_end_scenario (tg : tone_generator_t) (velocity : Nat) (hok : waves_ok tg) :
    ∃ (my1 my' : instrument_t) (out : List ℚ) (amplitude : Nat → ℚ),
      midi_event scenario_my { status := 0x90, data1 := 60, data2 := velocity } = some my1 ∧
      (∀ n, amplitude n = (update_envelope^[n] (my1.notes 24).envelope).amplitude) ∧
      process_callback tg scenario_my [{ status := 0x90, data1 := 60, data2 := velocity }] 128 =
        some (my', out) ∧
      out.length = 128 ∧
      tap_wheel 24 2 = 24 + 12 ∧
      (∀ n, n < 128 →
        out[n]? = some (amplitude n * (tg 36).samples.getD (n % (tg 36).length) 0)) ∧
      amplitude 0 = 0 ∧ amplitude 1 = 0.0891 ∧ amplitude 2 = 0.2673 ∧ amplitude 3 = 0.8019 ∧
      (∀ n, 4 ≤ n → amplitude n = 1) := by
  have hsr : scenario_my.sample_rate = 48000 := (startup_fields 48000).1
  have hgt0 : scenario_my.global_time = 0 := (startup_fields 48000).2
  obtain ⟨my1, hev, hh, henv, hg, hclock, _⟩ :=
    note_on_applies scenario_my 60 velocity [] (holds_startup 48000)
      (by rw [hsr]; decide) (by decide) (by decide) (startup_off 48000 24 (by decide))
  have hgt1 : my1.global_time = 0 := by rw [hclock, hgt0]
  have hgains : my1.drawbar_gains = fun d => if d = 2 then 1 else 0 := by rw [hg]; rfl
  have henv24 : (my1.notes 24).envelope =
      { step := (scenario_my.notes (60 - 36)).envelope.step,
        ref_time := scenario_my.global_time, amplitude := 0, rate := 3 } := by
    rw [show (24 : Nat) = 60 - 36 from rfl, henv, hsr]
    norm_num
  obtain ⟨a0, a1, a2, a3, a4⟩ :=
    scenario_amplitudes (my1.notes 24).envelope (by rw [henv24]) (by rw [henv24])
  obtain ⟨out, hout, hlen, hsample⟩ :=
    audio_out_sample tg [60 - 36] hok 128 my1 hh (by rw [hgt1]; norm_num)
  refine ⟨my1, advance my1 [60 - 36] 128, out,
    fun n => (update_envelope^[n] (my1.notes 24).envelope).amplitude, hev,
    fun _ => rfl, ?_, hlen, by decide, ?_, a0, a1, a2, a3, a4⟩
  · simp only [process_callback, midi_in, hev]
    exact hout
  · intro n hn
    rw [hsample n hn, hgains, hgt1]
    have hmod : (0 + n) % 2 ^ 32 = n := by omega
    rw [hmod]
    congr 1
    simp only [mix_value, List.map_cons, List.map_nil, List.sum_cons, List.sum_nil, add_zero]
    exact note_value_unison tg _ n

/-- C16 at a concrete tone generator: with waves of constant sample 1 the
fourth sample of the block is the amplitude 0.8019. -/
theorem end_to_end_scenario_witness :
    waves_ok unit_waves ∧
    ∃ (my' : instrument_t) (out : List ℚ),
      process_callback unit_waves scenario_my [{ status := 0x90, data1 := 60, data2 := 100 }] 128 =
        some (my', out) ∧
      out[3]? = some (0.8019 : ℚ) := by
  obtain ⟨_, my', out, amplitude, _, _, hpc, _, _, hsample, _, _, _, h3, _⟩ :=
    end_to_end_scenario unit_waves 100 unit_waves_ok
  refine ⟨unit_waves_ok, my', out, hpc, ?_⟩
  rw [hsample 3 (by decide), h3]
  simp [unit_waves]

/-! ## Double arithmetic -/

/-- Rounding to the nearest integer moves a value by at most one half. -/
theorem round_even_near (y : ℚ) : |((round_even y : ℤ) : ℚ) - y| ≤ 1 / 2 := by
  have h0 := Int.fract_nonneg y
  have h1 := Int.fract_lt_one y
  have hy : y = (⌊y⌋ : ℚ) + Int.fract y := (Int.floor_add_fract y).symm
  simp only [round_even]
  split_ifs with ha hb hc
  · rw [abs_le]
    constructor <;> linarith
  · rw [abs_le]
    push_cast
    constructor <;> linarith
  · rw [abs_le]
    constructor <;> linarith
  · rw [abs_le]
    push_cast
    constructor <;> linarith

/-- An integer less than one half away from a value is what the value rounds to. -/
theorem round_even_of_near (y : ℚ) (m : ℤ) (h : |y - (m : ℚ)| < 1 / 2) : round_even y = m := by
  rw [abs_lt] at h
  obtain ⟨h1, h2⟩ := h
  have hf0 := Int.fract_nonneg y
  have hf1 := Int.fract_lt_one y
  have hy : y = (⌊y⌋ : ℚ) + Int.fract y := (Int.floor_add_fract y).symm
  rcases lt_or_le y (m : ℚ) with hlt | hge
  · have hfl : ⌊y⌋ = m - 1 := by
      rw [Int.floor_eq_iff]
      push_cast
      constructor <;> linarith
    have hfr : 1 / 2 < Int.fract y := by
      rw [hfl] at hy
      push_cast at hy
      linarith
    simp only [round_even]
    rw [if_neg (not_lt.2 (le_of_lt hfr)), if_pos hfr, hfl]
    ring
  · have hfl : ⌊y⌋ = m := by
      rw [Int.floor_eq_iff]
      constructor <;> linarith
    have hfr : Int.fract y < 1 / 2 := by
      rw [hfl] at hy
      linarith
    simp only [round_even]
    rw [if_pos hfr, hfl]

/-- An integer rounds to itself. -/
theorem round_even_intCast (n : ℤ) : round_even (n : ℚ) = n :=
  round_even_of_near _ n (by simp)

/-- The exponent of the unit in the last place of a value in the binade `[2^e, 2^(e+1))`
of the normal range is `e - 52`. -/
theorem ulp_exp_of_bounds (x : ℚ) (e : ℤ) (he : -1022 ≤ e) (h1 : (2 : ℚ) ^ e ≤ |x|)
    (h2 : |x| < (2 : ℚ) ^ (e + 1)) : ulp_exp x = e - 52 := by
  have hpos : 0 < |x| := lt_of_lt_of_le (zpow_pos (by norm_num) e) h1
  have hlog : Int.log 2 |x| = e := by
    apply le_antisymm
    · have := (Int.lt_zpow_iff_log_lt (b := 2) (by norm_num) hpos).1 (by exact_mod_cast h2)
      omega
    · exact (Int.zpow_le_iff_le_log (b := 2) (by norm_num) hpos).1 (by exact_mod_cast h1)
  simp only [ulp_exp, hlog]
  rw [max_eq_left he]

/-- Below `2^(e+1)` the exponent of the unit in the last place is at most `e - 52`. -/
theorem ulp_exp_le (x : ℚ) (e : ℤ) (he : -1022 ≤ e) (hx : |x| < (2 : ℚ) ^ (e + 1)) (h0 : x ≠ 0) :
    ulp_exp x ≤ e - 52 := by
  have hpos : 0 < |x| := abs_pos.2 h0
  have hlog := (Int.lt_zpow_iff_log_lt (b := 2) (by norm_num) hpos).1 (by exact_mod_cast hx)
  simp only [ulp_exp]
  have hmax : max (Int.log 2 |x|) (-1022) ≤ e := max_le (by omega) he
  omega

/-- From `2^e` on the exponent of the unit in the last place is at least `e - 52`. -/
theorem ulp_exp_ge (x : ℚ) (e : ℤ) (hx : (2 : ℚ) ^ e ≤ |x|) : e - 52 ≤ ulp_exp x := by
  have hpos : 0 < |x| := lt_of_lt_of_le (zpow_pos (by norm_num) e) hx
  have hlog := (Int.zpow_le_iff_le_log (b := 2) (by norm_num) hpos).1 (by exact_mod_cast hx)
  simp only [ulp_exp]
  have hmax := le_max_left (Int.log 2 |x|) (-1022)
  omega

/-- Evaluation of `round_double`: in the binade `[2^e, 2^(e+1))` a value rounds to
`m * 2^(e-52)` when `m` is less than one half away from the scaled value. -/
theorem round_double_of_near (x : ℚ) (e m : ℤ) (he : -1022 ≤ e) (h1 : (2 : ℚ) ^ e ≤ |x|)
    (h2 : |x| < (2 : ℚ) ^ (e + 1)) (h : |x / 2 ^ (e - 52) - (m : ℚ)| < 1 / 2) :
    round_double x = (m : ℚ) * 2 ^ (e - 52) := by
  simp only [round_double, ulp_exp_of_bounds x e he h1 h2]
  rw [round_even_of_near _ m h]

/-- Evaluation of `round_double` on a positive value, with every side condition
a comparison of numerals. -/
theorem round_double_pos_eval (x : ℚ) (e m : ℤ) (y : ℚ) (he : -1022 ≤ e)
    (h1 : (2 : ℚ) ^ e ≤ x) (h2 : x < (2 : ℚ) ^ (e + 1))
    (h3 : (m : ℚ) - 1 / 2 < x / 2 ^ (e - 52)) (h4 : x / 2 ^ (e - 52) < (m : ℚ) + 1 / 2)
    (hy : y = (m : ℚ) * 2 ^ (e - 52)) : round_double x = y := by
  have hx : 0 < x := lt_of_lt_of_le (zpow_pos (by norm_num) e) h1
  rw [hy]
  apply round_double_of_near x e m he
  · rw [abs_of_pos hx]
    exact h1
  · rw [abs_of_pos hx]
    exact h2
  · rw [abs_lt]
    constructor <;> linarith

/-- Zero rounds to zero. -/
theorem round_double_zero : round_double 0 = 0 := by
  have h : round_even (0 : ℚ) = 0 := round_even_intCast 0
  simp only [round_double, zero_div, h, Int.cast_zero, zero_mul]

/-- Rounding moves a value by at most half a unit in the last place. -/
theorem round_double_step (x : ℚ) :
    |round_double x - x| ≤ 2 ^ (ulp_exp x) / 2 := by
  have hq : (0 : ℚ) < 2 ^ (ulp_exp x) := zpow_pos (by norm_num) _
  have h := round_even_near (x / 2 ^ (ulp_exp x))
  have heq : round_double x - x =
      (((round_even (x / 2 ^ (ulp_exp x)) : ℤ) : ℚ) - x / 2 ^ (ulp_exp x)) * 2 ^ (ulp_exp x) := by
    simp only [round_double]
    field_simp
  rw [heq, abs_mul, abs_of_pos hq]
  calc _ ≤ 1 / 2 * (2 : ℚ) ^ (ulp_exp x) := mul_le_mul_of_nonneg_right h (le_of_lt hq)
    _ = _ := by ring

/-- In the normal range the relative error of rounding is at most `2^-53`. -/
theorem round_double_error (x : ℚ) (hx : (2 : ℚ) ^ (-1022 : ℤ) ≤ |x|) :
    |round_double x - x| ≤ |x| / 2 ^ 53 := by
  have hpos : 0 < |x| := lt_of_lt_of_le (zpow_pos (by norm_num) _) hx
  have hlog : (-1022 : ℤ) ≤ Int.log 2 |x| :=
    (Int.zpow_le_iff_le_log (b := 2) (by norm_num) hpos).1 (by exact_mod_cast hx)
  have hle : ((2 : ℕ) : ℚ) ^ (Int.log 2 |x|) ≤ |x| := Int.zpow_log_le_self (by norm_num) hpos
  have hu : ulp_exp x = Int.log 2 |x| - 52 := by
    simp only [ulp_exp]
    rw [max_eq_left hlog]
  have h := round_double_step x
  rw [hu, zpow_sub₀ (by norm_num : (2 : ℚ) ≠ 0)] at h
  have h2 : (2 : ℚ) ^ (Int.log 2 |x|) ≤ |x| := by exact_mod_cast hle
  calc |round_double x - x| ≤ (2 : ℚ) ^ (Int.log 2 |x|) / 2 ^ (52 : ℤ) / 2 := h
    _ = (2 : ℚ) ^ (Int.log 2 |x|) / 2 ^ 53 := by norm_num; ring
    _ ≤ |x| / 2 ^ 53 := by
      apply div_le_div_of_nonneg_right h2 (by positivity)

/-- Below `2^(e+1)` rounding moves a value by at most `2^(e-53)`. -/
theorem round_double_small (x : ℚ) (e : ℤ) (he : -1022 ≤ e) (hx : |x| < (2 : ℚ) ^ (e + 1)) :
    |round_double x - x| ≤ (2 : ℚ) ^ (e - 53) := by
  by_cases h0 : x = 0
  · subst h0
    rw [round_double_zero, sub_zero, abs_zero]
    exact le_of_lt (zpow_pos (by norm_num) _)
  · have hu := ulp_exp_le x e he hx h0
    have h := round_double_step x
    have h2 : (2 : ℚ) ^ (ulp_exp x) ≤ 2 ^ (e - 52) := zpow_le_zpow_right₀ (by norm_num) hu
    have h3 : (2 : ℚ) ^ (e - 52) = 2 ^ (e - 53) * 2 := by
      rw [show e - 52 = (e - 53) + 1 by ring, zpow_add_one₀ (by norm_num)]
    linarith

/-- From `2^e` on every rounded value is an integer multiple of `2^(e-52)`. -/
theorem round_double_grid (x : ℚ) (e : ℤ) (hx : (2 : ℚ) ^ e ≤ |x|) :
    ∃ n : ℤ, round_double x = (n : ℚ) * 2 ^ (e - 52) := by
  have hu := ulp_exp_ge x e hx
  obtain ⟨d, hd⟩ : ∃ d : ℕ, ulp_exp x = (e - 52) + (d : ℤ) :=
    ⟨(ulp_exp x - (e - 52)).toNat, by omega⟩
  simp only [round_double]
  generalize round_even (x / 2 ^ ulp_exp x) = m
  refine ⟨m * 2 ^ d, ?_⟩
  rw [hd, zpow_add₀ (by norm_num), zpow_natCast]
  push_cast
  ring

/-- An integer below `2^53` in absolute value is a double: it rounds to itself. -/
theorem round_double_intCast (n : ℤ) (h : |n| < 2 ^ 53) : round_double (n : ℚ) = (n : ℚ) := by
  by_cases h0 : n = 0
  · subst h0
    rw [Int.cast_zero]
    exact round_double_zero
  · have hx : |(n : ℚ)| < (2 : ℚ) ^ ((52 : ℤ) + 1) := by
      have h1 : ((|n| : ℤ) : ℚ) < (((2 : ℤ) ^ 53 : ℤ) : ℚ) := Int.cast_lt.2 h
      rw [Int.cast_abs] at h1
      norm_num at h1 ⊢
      exact h1
    have hu := ulp_exp_le (n : ℚ) 52 (by norm_num) hx (by exact_mod_cast h0)
    obtain ⟨d, hd⟩ : ∃ d : ℕ, ulp_exp (n : ℚ) = -(d : ℤ) :=
      ⟨(-(ulp_exp (n : ℚ))).toNat, by omega⟩
    have hpow : (0 : ℚ) < 2 ^ d := pow_pos (by norm_num) d
    simp only [round_double]
    rw [hd]
    have hq : (n : ℚ) / 2 ^ (-(d : ℤ)) = ((n * 2 ^ d : ℤ) : ℚ) := by
      rw [zpow_neg, zpow_natCast]
      push_cast
      field_simp
    rw [hq, round_even_intCast]
    push_cast
    rw [zpow_neg, zpow_natCast]
    field_simp

/-- The result of an operation is finite exactly when the rounded value is below
`2^1024` in absolute value, and it is then the rounded value. -/
theorem to_double_eq_some (x y : ℚ) : to_double x = some y ↔
    |round_double x| < 2 ^ 1024 ∧ y = round_double x := by
  simp only [to_double]
  split_ifs with h
  · simp only [Option.some.injEq, h, true_and]
    exact eq_comm
  · constructor
    · intro h'
      cases h'
    · rintro ⟨h', _⟩
      exact absurd h' h

/-- The conversion of an integer below `2^53` in absolute value is exact. -/
theorem to_double_intCast (n : ℤ) (h : |n| < 2 ^ 53) : to_double (n : ℚ) = some (n : ℚ) := by
  rw [to_double_eq_some, round_double_intCast n h]
  refine ⟨?_, rfl⟩
  have h1 : ((|n| : ℤ) : ℚ) < (((2 : ℤ) ^ 53 : ℤ) : ℚ) := Int.cast_lt.2 h
  rw [Int.cast_abs] at h1
  refine lt_trans h1 ?_
  norm_num

/-- A quotient is finite exactly when the divisor is not zero and the rounded
quotient is below `2^1024` in absolute value. -/
theorem double_div_eq_some (a b y : ℚ) : double_div a b = some y ↔
    b ≠ 0 ∧ |round_double (a / b)| < 2 ^ 1024 ∧ y = round_double (a / b) := by
  simp only [double_div]
  split_ifs with h
  · constructor
    · intro h'
      cases h'
    · rintro ⟨h', _⟩
      exact absurd h h'
  · rw [to_double_eq_some]
    constructor
    · rintro ⟨h1, h2⟩
      exact ⟨h, h1, h2⟩
    · rintro ⟨_, h1, h2⟩
      exact ⟨h1, h2⟩

/-- The smallest normal double is below `1 / 65536`. -/
theorem double_tiny : (2 : ℚ) ^ (-1022 : ℤ) ≤ 1 / 65536 := by
  have h : (2 : ℚ) ^ (-1022 : ℤ) ≤ 2 ^ (-16 : ℤ) :=
    zpow_le_zpow_right₀ (by norm_num) (by norm_num)
  have e : (2 : ℚ) ^ (-16 : ℤ) = 1 / 65536 := by norm_num
  rw [← e]
  exact h

/-- The constant `1e-4` of the source is the double `7378697629483821 / 2^66`, a
little above 1/10000. -/
theorem double_1e4 : round_double 1e-4 = 7378697629483821 / 73786976294838206464 := by
  have h := round_double_of_near (1e-4 : ℚ) (-14) 7378697629483821 (by norm_num)
    (by rw [abs_of_pos (by norm_num)]; norm_num)
    (by rw [abs_of_pos (by norm_num)]; norm_num)
    (by rw [abs_lt]; constructor <;> norm_num)
  rw [h]
  norm_num

/-- The expression `freq` of `init_tone_generator` is rounded once: for operands
up to `2^20` both products are exact, so the double computed from left to
right is the exact quotient `20 * teeth * a / b` rounded. -/
theorem double_freq_eq (teeth : Nat) (a b : Int) (ht : teeth ≤ 2 ^ 20) (ha0 : 0 ≤ a)
    (ha : a ≤ 2 ^ 20) (hb : b ≠ 0) :
    double_freq teeth a b = to_double (20 * (teeth : ℚ) * (a : ℚ) / (b : ℚ)) := by
  have ht' : ((teeth : ℕ) : ℤ) ≤ 2 ^ 20 := by exact_mod_cast ht
  have ht0 : (0 : ℤ) ≤ (teeth : ℤ) := Int.natCast_nonneg teeth
  have hprod : (20 * (teeth : ℤ)) * a ≤ (20 * 2 ^ 20) * 2 ^ 20 :=
    mul_le_mul (by omega) ha ha0 (by norm_num)
  have hprod0 : 0 ≤ (20 * (teeth : ℤ)) * a := mul_nonneg (by omega) ha0
  have h1 : double_mul 20 (teeth : ℚ) = some ((20 * (teeth : ℤ) : ℤ) : ℚ) := by
    have := to_double_intCast (20 * (teeth : ℤ)) (by rw [abs_of_nonneg (by omega)]; omega)
    simp only [double_mul]
    push_cast at this ⊢
    exact this
  have h2 : double_mul ((20 * (teeth : ℤ) : ℤ) : ℚ) (a : ℚ) =
      some ((20 * (teeth : ℤ) * a : ℤ) : ℚ) := by
    have := to_double_intCast (20 * (teeth : ℤ) * a) (by
      rw [abs_of_nonneg hprod0]
      refine lt_of_le_of_lt hprod ?_
      norm_num)
    simp only [double_mul]
    push_cast at this ⊢
    exact this
  have hbq : (b : ℚ) ≠ 0 := by exact_mod_cast hb
  simp only [double_freq, h1, Option.some_bind, h2, double_div, if_neg hbq]
  push_cast
  rfl

/-! ## Tone waves -/

/-- On a phase that is not negative, `fmod(ph, 1.0)` is the fractional part. -/
theorem fmod1_of_nonneg (x : ℚ) (h : 0 ≤ x) : fmod1 x = Int.fract x := by
  simp only [fmod1, if_pos h, Int.fract]

/-- The phase is finite exactly when the sample rate is not zero and the product
and the quotient are finite; it is the rounded quotient of the rounded product
by the sample rate. -/
theorem phase_eq_some (f : ℚ) (sr k : Nat) (ph : ℚ) :
    phase f sr k = some ph ↔
      sr ≠ 0 ∧ |round_double (f * (k : ℚ))| < 2 ^ 1024 ∧
      |round_double (round_double (f * (k : ℚ)) / (sr : ℚ))| < 2 ^ 1024 ∧
      ph = round_double (round_double (f * (k : ℚ)) / (sr : ℚ)) := by
  have hsr : (sr : ℚ) ≠ 0 ↔ sr ≠ 0 := Nat.cast_ne_zero
  unfold phase double_mul
  rw [Option.bind_eq_some]
  constructor
  · rintro ⟨p, hp, hd⟩
    obtain ⟨h1, h2⟩ := (to_double_eq_some _ _).1 hp
    subst h2
    obtain ⟨h3, h4, h5⟩ := (double_div_eq_some _ _ _).1 hd
    exact ⟨hsr.1 h3, h1, h4, h5⟩
  · rintro ⟨h3, h1, h4, h5⟩
    exact ⟨_, (to_double_eq_some _ _).2 ⟨h1, rfl⟩, (double_div_eq_some _ _ _).2 ⟨hsr.2 h3, h4, h5⟩⟩

/-- The loop test holds exactly when the phase is finite and passes the test. -/
theorem loop_closes_iff (f : ℚ) (sr k : Nat) :
    loop_closes f sr k ↔ ∃ ph, phase f sr k = some ph ∧ loop_test ph := by
  unfold loop_closes
  generalize phase f sr k = o
  cases o with
  | none =>
    constructor
    · intro h'
      exact absurd h' id
    · rintro ⟨_, h', _⟩
      cases h'
  | some ph =>
    constructor
    · intro h1
      exact ⟨ph, rfl, h1⟩
    · rintro ⟨_, h1, h2⟩
      cases h1
      exact h2

/-- At sample index 0 a finite phase is 0. -/
theorem phase_zero (f : ℚ) (sr : Nat) (ph : ℚ) (h : phase f sr 0 = some ph) : ph = 0 := by
  obtain ⟨_, _, _, h4⟩ := (phase_eq_some f sr 0 ph).1 h
  rw [h4]
  simp only [Nat.cast_zero, mul_zero, round_double_zero, zero_div]

/-- The loop test fails at sample index 0. -/
theorem loop_closes_zero (f : ℚ) (sr : Nat) : ¬ loop_closes f sr 0 := by
  rw [loop_closes_iff]
  rintro ⟨ph, h, h1, _⟩
  rw [phase_zero f sr ph h] at h1
  norm_num at h1

/-- When the product and the quotient lie in the normal range, the computed
phase differs from the exact phase `f * k / sr` by at most a `2^-51`-th of the
exact phase. -/
theorem phase_error (f : ℚ) (sr k : Nat) (ph : ℚ) (h : phase f sr k = some ph)
    (h1 : (2 : ℚ) ^ (-1022 : ℤ) ≤ f * (k : ℚ))
    (h2 : (2 : ℚ) ^ (-1022 : ℤ) ≤ round_double (f * (k : ℚ)) / (sr : ℚ)) :
    |ph - exact_phase f sr k| ≤ exact_phase f sr k / 2 ^ 51 := by
  obtain ⟨hsr, _, _, hph⟩ := (phase_eq_some f sr k ph).1 h
  have hs : (0 : ℚ) < (sr : ℚ) := by exact_mod_cast Nat.pos_of_ne_zero hsr
  have hpos : (0 : ℚ) < 2 ^ (-1022 : ℤ) := zpow_pos (by norm_num) _
  have hx1 : 0 < f * (k : ℚ) := lt_of_lt_of_le hpos h1
  have hx2 : 0 < round_double (f * (k : ℚ)) / (sr : ℚ) := lt_of_lt_of_le hpos h2
  have e1 := round_double_error (f * (k : ℚ)) (by rw [abs_of_pos hx1]; exact h1)
  have e2 := round_double_error (round_double (f * (k : ℚ)) / (sr : ℚ))
    (by rw [abs_of_pos hx2]; exact h2)
  rw [abs_of_pos hx1, abs_le] at e1
  rw [abs_of_pos hx2, abs_le, ← hph] at e2
  have hxs : 0 < exact_phase f sr k := div_pos hx1 hs
  have e3 : round_double (f * (k : ℚ)) / (sr : ℚ) ≤
      exact_phase f sr k + exact_phase f sr k / 2 ^ 53 := by
    have := div_le_div_of_nonneg_right (by linarith [e1.2] :
      round_double (f * (k : ℚ)) ≤ f * (k : ℚ) + f * (k : ℚ) / 2 ^ 53) (le_of_lt hs)
    simp only [exact_phase]
    calc _ ≤ _ := this
      _ = _ := by ring
  have e4 : exact_phase f sr k - exact_phase f sr k / 2 ^ 53 ≤
      round_double (f * (k : ℚ)) / (sr : ℚ) := by
    have := div_le_div_of_nonneg_right (by linarith [e1.1] :
      f * (k : ℚ) - f * (k : ℚ) / 2 ^ 53 ≤ round_double (f * (k : ℚ))) (le_of_lt hs)
    simp only [exact_phase]
    calc _ = _ := by ring
      _ ≤ _ := this
  rw [abs_le]
  constructor
  · linarith [e2.1]
  · linarith [e2.2]

/-- A computed phase of at least 9.5 comes from a quotient of at least 8 and,
for a frequency that is not negative, from a product of at least 4: both
roundings are in the normal range. -/
theorem closing_phase (f : ℚ) (sr k : Nat) (ph : ℚ) (hf : 0 ≤ f) (h : phase f sr k = some ph)
    (h95 : 9.5 ≤ ph) :
    8 ≤ round_double (f * (k : ℚ)) / (sr : ℚ) ∧ 4 ≤ f * (k : ℚ) := by
  obtain ⟨hsr, _, _, hph⟩ := (phase_eq_some f sr k ph).1 h
  have hs : (1 : ℚ) ≤ (sr : ℚ) := by exact_mod_cast Nat.pos_of_ne_zero hsr
  have hx1 : 0 ≤ f * (k : ℚ) := mul_nonneg hf (Nat.cast_nonneg k)
  have h8 : 8 ≤ round_double (f * (k : ℚ)) / (sr : ℚ) := by
    by_contra hlt
    rw [not_le] at hlt
    rcases le_or_lt (round_double (f * (k : ℚ)) / (sr : ℚ)) (-8) with hneg | hgt
    · have hab : |round_double (f * (k : ℚ)) / (sr : ℚ)| =
          -(round_double (f * (k : ℚ)) / (sr : ℚ)) := abs_of_neg (by linarith)
      have e := round_double_error (round_double (f * (k : ℚ)) / (sr : ℚ)) (by
        rw [hab]
        refine le_trans ?_ (by linarith : (8 : ℚ) ≤ -(round_double (f * (k : ℚ)) / (sr : ℚ)))
        exact le_trans (zpow_le_zpow_right₀ (by norm_num) (by norm_num : (-1022 : ℤ) ≤ 0))
          (by norm_num))
      rw [hab, abs_le, ← hph] at e
      norm_num at h95
      linarith [e.2]
    · have e := round_double_small (round_double (f * (k : ℚ)) / (sr : ℚ)) 2 (by norm_num) (by
        rw [abs_lt]
        constructor <;> norm_num <;> linarith)
      rw [abs_le, ← hph] at e
      have hp : (2 : ℚ) ^ ((2 : ℤ) - 53) ≤ 1 := by
        exact zpow_le_one_of_nonpos₀ (by norm_num) (by norm_num)
      norm_num at h95
      linarith [e.2]
  refine ⟨h8, ?_⟩
  by_contra hlt
  rw [not_le] at hlt
  have e := round_double_small (f * (k : ℚ)) 1 (by norm_num) (by
    rw [abs_of_nonneg hx1]
    norm_num
    linarith)
  rw [abs_le] at e
  have hp : (2 : ℚ) ^ ((1 : ℤ) - 53) ≤ 1 := by
    exact zpow_le_one_of_nonpos₀ (by norm_num) (by norm_num)
  have hp8 : 8 * (sr : ℚ) ≤ round_double (f * (k : ℚ)) := by
    have := (le_div_iff₀ (by linarith : (0 : ℚ) < (sr : ℚ))).1 h8
    exact this
  linarith [e.2]

/-- A phase whose fractional part is below 1e-4 is within 1e-4 of an integer. -/
theorem near_of_fract_lt (x : ℚ) (h : Int.fract x < 1 / 10000) : spec_near_integer x := by
  simp only [spec_near_integer]
  have h1 := round_le x ⌊x⌋
  have h2 : |x - (⌊x⌋ : ℚ)| = Int.fract x := by
    rw [Int.self_sub_floor, abs_of_nonneg (Int.fract_nonneg _)]
  rw [h2] at h1
  have : (1e-4 : ℚ) = 1 / 10000 := by norm_num
  rw [this]
  exact lt_of_le_of_lt h1 h

/-- A computed phase that passes the loop test is at least 10 and its
fractional part is below 1/10000: a double from 8 on is a multiple of `2^-49`,
and no such multiple lies between 1/10000 and the double constant `1e-4`. -/
theorem closing_phase_fract (f : ℚ) (sr k : Nat) (ph : ℚ) (hf : 0 ≤ f)
    (h : phase f sr k = some ph) (ht : loop_test ph) :
    10 ≤ ph ∧ Int.fract ph < 1 / 10000 := by
  obtain ⟨h95, hfm⟩ := ht
  obtain ⟨h8, _⟩ := closing_phase f sr k ph hf h h95
  obtain ⟨_, _, _, hph⟩ := (phase_eq_some f sr k ph).1 h
  have e95 : (9.5 : ℚ) = 19 / 2 := by norm_num
  rw [ge_iff_le, e95] at h95
  have h0 : 0 ≤ ph := le_trans (by norm_num) h95
  rw [fmod1_of_nonneg ph h0, abs_of_nonneg (Int.fract_nonneg _), double_1e4] at hfm
  obtain ⟨n, hn⟩ := round_double_grid (round_double (f * (k : ℚ)) / (sr : ℚ)) 3 (by
    rw [abs_of_nonneg (by linarith)]
    norm_num
    exact h8)
  rw [← hph] at hn
  have hgrid : ph = (n : ℚ) / 2 ^ 49 := by
    rw [hn]
    norm_num
    ring
  have hfr : Int.fract ph = ((n - ⌊ph⌋ * 2 ^ 49 : ℤ) : ℚ) / 2 ^ 49 := by
    have hsub := Int.self_sub_floor ph
    push_cast
    norm_num at hgrid ⊢
    linarith
  have hN : (n - ⌊ph⌋ * 2 ^ 49) * 131072 < 7378697629483821 := by
    have h1 : ((n - ⌊ph⌋ * 2 ^ 49 : ℤ) : ℚ) * 131072 < 7378697629483821 := by
      rw [hfr, div_lt_div_iff₀ (by norm_num) (by norm_num)] at hfm
      linarith
    exact_mod_cast h1
  have hN2 : n - ⌊ph⌋ * 2 ^ 49 ≤ 56294995342 := by omega
  have hfrac : Int.fract ph < 1 / 10000 := by
    rw [hfr]
    have h1 : ((n - ⌊ph⌋ * 2 ^ 49 : ℤ) : ℚ) ≤ 56294995342 := by exact_mod_cast hN2
    rw [div_lt_div_iff₀ (by norm_num) (by norm_num)]
    linarith
  refine ⟨?_, hfrac⟩
  have hfl : (9 : ℤ) < ⌊ph⌋ := by
    have h1 : ((9 : ℤ) : ℚ) < (⌊ph⌋ : ℚ) := by
      have := Int.floor_add_fract ph
      push_cast
      linarith
    exact_mod_cast h1
  have h10 : ((10 : ℤ) : ℚ) ≤ (⌊ph⌋ : ℚ) := by exact_mod_cast (by omega : (10 : ℤ) ≤ ⌊ph⌋)
  have := Int.floor_le ph
  push_cast at h10
  linarith

/-- A scan that returns: the loop length is the first index from `k` on at
which the loop test holds, it lies before the end of the work buffer, and the
copied samples are those synthesised in this call, provided the work buffer
holds them below `k`. -/
theorem tone_wave_scan_some (f : ℚ) (sr : Nat) (synth : Nat → ℚ) (r : Nat) :
    ∀ (k : Nat) (work : Nat → ℚ) (wave : wave_t) (work1 : Nat → ℚ),
    tone_wave_scan f sr synth r k work = some (wave, work1) →
    (∀ i, i < k → work i = synth i) →
    k ≤ wave.length ∧ wave.length < k + r ∧ loop_closes f sr wave.length ∧
    (∀ j, k ≤ j → j < wave.length → ¬ loop_closes f sr j) ∧
    wave.samples = (List.range wave.length).map synth := by
  induction r with
  | zero =>
    intro k work wave work1 h _
    simp [tone_wave_scan] at h
  | succ r ih =>
    intro k work wave work1 h hwork
    simp only [tone_wave_scan] at h
    by_cases hc : loop_closes f sr k
    · rw [if_pos hc] at h
      simp only [Option.some.injEq, Prod.mk.injEq] at h
      obtain ⟨hw, _⟩ := h
      subst hw
      refine ⟨le_refl _, by simp, hc, ?_, ?_⟩
      · intro j hj1 hj2
        simp only at hj2
        omega
      · simp only
        apply List.map_congr_left
        intro i hi
        exact hwork i (List.mem_range.1 hi)
    · rw [if_neg hc] at h
      have hwork' : ∀ i, i < k + 1 → Function.update work k (synth k) i = synth i := by
        intro i hi
        by_cases hik : i = k
        · subst hik
          simp
        · rw [Function.update_noteq hik]
          exact hwork i (by omega)
      obtain ⟨h1, h2, h3, h4, h5⟩ := ih (k + 1) _ wave work1 h hwork'
      refine ⟨by omega, by omega, h3, ?_, h5⟩
      intro j hj1 hj2
      by_cases hjk : j = k
      · subst hjk
        exact hc
      · exact h4 j (by omega) hj2

/-- A scan returns the loop length `L` when `L` is the first index from `k` on
at which the loop test holds and lies before the end of the work buffer. -/
theorem tone_wave_scan_first (f : ℚ) (sr : Nat) (synth : Nat → ℚ) (L : Nat) (r : Nat) :
    ∀ (k : Nat) (work : Nat → ℚ), k ≤ L → L < k + r → loop_closes f sr L →
    (∀ j, k ≤ j → j < L → ¬ loop_closes f sr j) →
    ∃ wave work1, tone_wave_scan f sr synth r k work = some (wave, work1) ∧ wave.length = L := by
  induction r with
  | zero =>
    intro k work h1 h2 _ _
    omega
  | succ r ih =>
    intro k work h1 h2 hL hfirst
    simp only [tone_wave_scan]
    by_cases hc : loop_closes f sr k
    · rw [if_pos hc]
      have hkL : k = L := by
        by_contra hne
        exact hfirst k (le_refl _) (by omega) hc
      exact ⟨_, _, rfl, hkL⟩
    · rw [if_neg hc]
      have hkL : k ≠ L := fun he => hc (he ▸ hL)
      exact ih (k + 1) _ (by omega) (by omega) hL (fun j hj1 hj2 => hfirst j (by omega) hj2)

/-- A scan exits exactly when the loop test fails at every index left. -/
theorem tone_wave_scan_none (f : ℚ) (sr : Nat) (synth : Nat → ℚ) (r : Nat) :
    ∀ (k : Nat) (work : Nat → ℚ),
    tone_wave_scan f sr synth r k work = none ↔
      ∀ j, k ≤ j → j < k + r → ¬ loop_closes f sr j := by
  induction r with
  | zero =>
    intro k work
    simp only [tone_wave_scan, true_iff]
    intro j h1 h2
    omega
  | succ r ih =>
    intro k work
    simp only [tone_wave_scan]
    by_cases hc : loop_closes f sr k
    · rw [if_pos hc]
      constructor
      · intro h
        cases h
      · intro h
        exact absurd hc (h k (le_refl _) (by omega))
    · rw [if_neg hc, ih (k + 1)]
      constructor
      · intro h j hj1 hj2
        by_cases hjk : j = k
        · subst hjk
          exact hc
        · exact h j (by omega) (by omega)
      · intro h j hj1 hj2
        exact h j (by omega) (by omega)

/-- A phase that lies at least 1e-4 above an integer and at least 1e-4 below
the next one is not within 1e-4 of an integer. -/
theorem not_near_of_between (x : ℚ) (n : ℤ) (h1 : (n : ℚ) + 1 / 10000 ≤ x)
    (h2 : x ≤ (n : ℚ) + 1 - 1 / 10000) : ¬ spec_near_integer x := by
  simp only [spec_near_integer]
  have e4 : (1e-4 : ℚ) = 1 / 10000 := by norm_num
  rw [e4]
  intro h
  rw [abs_lt] at h
  rcases le_or_lt (round x) n with hm | hm
  · have hm' : ((round x : ℤ) : ℚ) ≤ (n : ℚ) := by exact_mod_cast hm
    linarith [h.2]
  · have hm' : (n : ℚ) + 1 ≤ ((round x : ℤ) : ℚ) := by exact_mod_cast hm
    linarith [h.1]

/-- The frequency of wheel 5, `20.0 * 2 * 84 / 77`, is the double
`6141272219141585 / 2^47`, a little below 480/11. -/
theorem wheel5_freq :
    to_double (20 * 2 * 84 / 77) = some (6141272219141585 / 140737488355328) := by
  have h : round_double (20 * 2 * 84 / 77) = 6141272219141585 / 140737488355328 :=
    round_double_pos_eval _ 5 6141272219141585 _ (by norm_num) (by norm_num) (by norm_num)
      (by norm_num) (by norm_num) (by norm_num)
  rw [to_double_eq_some, h]
  constructor
  · rw [abs_of_pos (by norm_num)]
    norm_num
  · rfl

/-- Wheel 5 at 48000 samples per second: at index 11000 the product is rounded
to `8246337208319999 / 2^34` and the phase to `5629499534213119 / 2^49`, which
is `10 - 2^-49`. -/
theorem wheel5_phase_11000 :
    phase (6141272219141585 / 140737488355328) 48000 11000 =
      some (5629499534213119 / 562949953421312) := by
  have h1 : round_double (6141272219141585 / 140737488355328 * ((11000 : ℕ) : ℚ)) =
      8246337208319999 / 17179869184 :=
    round_double_pos_eval _ 18 8246337208319999 _ (by norm_num) (by norm_num) (by norm_num)
      (by norm_num) (by norm_num) (by norm_num)
  have h2 : round_double (8246337208319999 / 17179869184 / ((48000 : ℕ) : ℚ)) =
      5629499534213119 / 562949953421312 :=
    round_double_pos_eval _ 3 5629499534213119 _ (by norm_num) (by norm_num) (by norm_num)
      (by norm_num) (by norm_num) (by norm_num)
  rw [phase_eq_some, h1, h2]
  refine ⟨by norm_num, ?_, ?_, rfl⟩
  · rw [abs_of_pos (by norm_num)]
    norm_num
  · rw [abs_of_pos (by norm_num)]
    norm_num

/-- Wheel 5 at 48000 samples per second: at index 12100 the product is rounded
to 528000 and the phase is 11. -/
theorem wheel5_phase_12100 :
    phase (6141272219141585 / 140737488355328) 48000 12100 = some 11 := by
  have h1 : round_double (6141272219141585 / 140737488355328 * ((12100 : ℕ) : ℚ)) = 528000 :=
    round_double_pos_eval _ 19 4535485464576000 _ (by norm_num) (by norm_num) (by norm_num)
      (by norm_num) (by norm_num) (by norm_num)
  have h2 : round_double (528000 / ((48000 : ℕ) : ℚ)) = 11 :=
    round_double_pos_eval _ 3 6192449487634432 _ (by norm_num) (by norm_num) (by norm_num)
      (by norm_num) (by norm_num) (by norm_num)
  rw [phase_eq_some, h1, h2]
  refine ⟨by norm_num, ?_, ?_, rfl⟩
  · rw [abs_of_pos (by norm_num)]
    norm_num
  · rw [abs_of_pos (by norm_num)]
    norm_num

/-- Wheel 5 at 48000 samples per second: at index `j` the computed phase is
within `j / 2^60` of `j / 1100`. -/
theorem wheel5_phase_bounds (j : Nat) (hj : 1 ≤ j) (ph : ℚ)
    (h : phase (6141272219141585 / 140737488355328) 48000 j = some ph) :
    (j : ℚ) / 1100 - (j : ℚ) / 2 ^ 60 ≤ ph ∧ ph ≤ (j : ℚ) / 1100 + (j : ℚ) / 2 ^ 60 := by
  have hjq : (1 : ℚ) ≤ (j : ℚ) := by exact_mod_cast hj
  have h1 : (2 : ℚ) ^ (-1022 : ℤ) ≤ 6141272219141585 / 140737488355328 * (j : ℚ) := by
    have := double_tiny
    linarith
  have e1 := round_double_error (6141272219141585 / 140737488355328 * (j : ℚ)) (by
    rw [abs_of_pos (by linarith)]
    exact h1)
  rw [abs_of_pos (show (0 : ℚ) < 6141272219141585 / 140737488355328 * (j : ℚ) by linarith),
    abs_le] at e1
  have h2 : (2 : ℚ) ^ (-1022 : ℤ) ≤
      round_double (6141272219141585 / 140737488355328 * (j : ℚ)) / ((48000 : ℕ) : ℚ) := by
    rw [le_div_iff₀ (by norm_num)]
    have := double_tiny
    push_cast
    linarith [e1.1]
  have e := phase_error _ 48000 j ph h h1 h2
  rw [abs_le] at e
  simp only [exact_phase] at e
  push_cast at e
  constructor
  · linarith [e.1]
  · linarith [e.2]

/-- Wheel 5 at 48000 samples per second: the loop test holds at index 12100,
fails at index 11000 and at every other index below 12100. -/
theorem wheel5_loop :
    loop_closes (6141272219141585 / 140737488355328) 48000 12100 ∧
    ¬ loop_closes (6141272219141585 / 140737488355328) 48000 11000 ∧
    ∀ j, j < 12100 → ¬ loop_closes (6141272219141585 / 140737488355328) 48000 j := by
  have h11000 : ¬ loop_closes (6141272219141585 / 140737488355328) 48000 11000 := by
    rw [loop_closes_iff]
    rintro ⟨ph, h, ht⟩
    have h10 := (closing_phase_fract _ _ _ ph (by norm_num) h ht).1
    rw [wheel5_phase_11000] at h
    cases h
    norm_num at h10
  refine ⟨?_, h11000, ?_⟩
  · rw [loop_closes_iff]
    refine ⟨11, wheel5_phase_12100, ?_, ?_⟩
    · norm_num
    · have hfl : fmod1 11 = 0 := by
        rw [fmod1_of_nonneg _ (by norm_num)]
        exact Int.fract_intCast (11 : ℤ)
      rw [hfl, double_1e4]
      norm_num
  · intro j hj
    rcases Nat.eq_zero_or_pos j with h0 | hpos
    · rw [h0]
      exact loop_closes_zero _ _
    · by_cases hj1 : j = 11000
      · rw [hj1]
        exact h11000
      · rw [loop_closes_iff]
        rintro ⟨ph, h, ht⟩
        obtain ⟨h10, hfr⟩ := closing_phase_fract _ _ _ ph (by norm_num) h ht
        obtain ⟨hlo, hhi⟩ := wheel5_phase_bounds j hpos ph h
        rcases Nat.lt_or_ge j 11000 with hlt | hge
        · have hjq : (j : ℚ) ≤ 10999 := by exact_mod_cast (by omega : j ≤ 10999)
          have hjq0 : (0 : ℚ) ≤ (j : ℚ) := Nat.cast_nonneg j
          norm_num at hhi
          linarith
        · have hjq : (11001 : ℚ) ≤ (j : ℚ) := by exact_mod_cast (by omega : 11001 ≤ j)
          have hjq2 : (j : ℚ) ≤ 12099 := by exact_mod_cast (by omega : j ≤ 12099)
          norm_num at hhi hlo
          have hfl : ⌊ph⌋ = 10 := by
            rw [Int.floor_eq_iff]
            push_cast
            constructor <;> linarith
          have hfr2 : Int.fract ph = ph - 10 := by
            rw [Int.fract, hfl]
            norm_num
          rw [hfr2] at hfr
          linarith

/-- Wheel 5 at 48000 samples per second: `compute_tone_wave` returns a wave
of loop length 12100. -/
theorem wheel5_wave (synth work : Nat → ℚ) :
    ∃ wave work1,
      compute_tone_wave (6141272219141585 / 140737488355328) 48000 synth (10 * 48000) work =
        some (wave, work1) ∧ wave.length = 12100 :=
  tone_wave_scan_first _ 48000 synth 12100 (10 * 48000) 0 work (by decide) (by decide)
    wheel5_loop.1 (fun j _ hj => wheel5_loop.2.2 j hj)

/-- C18, as stated, fails: the loop test is made on the rounded phase, and the
exact phase of a returned wave need not be within 1e-4 of an integer.  For the
target frequency 2^60 at 3 samples per second the phase at index 1 is computed
as the double 384307168202282304, an integer, so `compute_tone_wave` returns
the loop length 1; the exact phase 2^60 / 3 lies one third above an integer. -/
theorem rounded_phase_counterexample :
    (0 : ℚ) < 2 ^ 60 ∧ 0 < 3 ∧
    phase (2 ^ 60) 3 1 = some 384307168202282304 ∧
    exact_phase (2 ^ 60) 3 1 = 384307168202282325 + 1 / 3 ∧
    ¬ spec_near_integer (exact_phase (2 ^ 60) 3 1) ∧
    ∀ synth work : Nat → ℚ, ∃ wave work1,
      compute_tone_wave (2 ^ 60) 3 synth (10 * 3) work = some (wave, work1) ∧
      wave.length = 1 := by
  have hexact : exact_phase (2 ^ 60) 3 1 = 384307168202282325 + 1 / 3 := by
    simp only [exact_phase]
    norm_num
  have hphase : phase (2 ^ 60) 3 1 = some 384307168202282304 := by
    have h1 : round_double (2 ^ 60 * ((1 : ℕ) : ℚ)) = 1152921504606846976 :=
      round_double_pos_eval _ 60 4503599627370496 _ (by norm_num) (by norm_num) (by norm_num)
        (by norm_num) (by norm_num) (by norm_num)
    have h2 : round_double (1152921504606846976 / ((3 : ℕ) : ℚ)) = 384307168202282304 :=
      round_double_pos_eval _ 58 6004799503160661 _ (by norm_num) (by norm_num) (by norm_num)
        (by norm_num) (by norm_num) (by norm_num)
    rw [phase_eq_some, h1, h2]
    refine ⟨by norm_num, ?_, ?_, rfl⟩
    · rw [abs_of_pos (by norm_num)]
      norm_num
    · rw [abs_of_pos (by norm_num)]
      norm_num
  have hclose : loop_closes (2 ^ 60) 3 1 := by
    rw [loop_closes_iff]
    refine ⟨_, hphase, by norm_num, ?_⟩
    have hfl : fmod1 384307168202282304 = 0 := by
      rw [fmod1_of_nonneg _ (by norm_num)]
      exact Int.fract_intCast (384307168202282304 : ℤ)
    rw [hfl, double_1e4]
    norm_num
  refine ⟨by norm_num, by decide, hphase, hexact, ?_, ?_⟩
  · rw [hexact]
    exact not_near_of_between _ 384307168202282325 (by norm_num) (by norm_num)
  · intro synth work
    exact tone_wave_scan_first _ 3 synth 1 (10 * 3) 0 work (by decide) (by decide) hclose
      (fun j _ hj => by
        have hj0 : j = 0 := by omega
        rw [hj0]
        exact loop_closes_zero _ _)

/-- C18, amended: generated waves close their loop in the computed phase.
For a positive target frequency and a positive sample rate, if
`compute_tone_wave` returns a wave of loop length `L`, then `L` is positive and
lies before the end of the work buffer; the phase that the code computes at
`L` in double arithmetic is finite, at least 10 cycles, and less than 1e-4
above an integer number of cycles, hence within 1e-4 of one; it differs from
the exact phase `f * L / sr` by at most a `2^-51`-th of the exact phase, which
is at least 9.5 cycles; exactly `L` samples are copied, and copied sample `i`
is the value synthesised for this wave at index `i`, whatever the work buffer
held before. -/
theorem generated_wave_closes_loop (note_freq : ℚ) (sample_rate work_length : Nat)
    (synth work work1 : Nat → ℚ) (wave : wave_t) (hf : 0 < note_freq)
    (_hsr : 0 < sample_rate)
    (h : compute_tone_wave note_freq sample_rate synth work_length work = some (wave, work1)) :
    0 < wave.length ∧ wave.length < work_length ∧
    (∃ ph : ℚ, phase note_freq sample_rate wave.length = some ph ∧ 10 ≤ ph ∧
      (∃ m : ℤ, 0 ≤ ph - (m : ℚ) ∧ ph - (m : ℚ) < 1e-4) ∧ spec_near_integer ph ∧
      |ph - exact_phase note_freq sample_rate wave.length| ≤
        exact_phase note_freq sample_rate wave.length / 2 ^ 51) ∧
    (9.5 : ℚ) ≤ exact_phase note_freq sample_rate wave.length ∧
    wave.samples.length = wave.length ∧
    (∀ i, i < wave.length → wave.samples[i]? = some (synth i)) := by
  obtain ⟨_, hlt, hclose, _, hsamples⟩ :=
    tone_wave_scan_some note_freq sample_rate synth work_length 0 work wave work1 h
      (fun i hi => absurd hi (Nat.not_lt_zero i))
  have hpos : 0 < wave.length := by
    rcases Nat.eq_zero_or_pos wave.length with h0 | h0
    · rw [h0] at hclose
      exact absurd hclose (loop_closes_zero note_freq sample_rate)
    · exact h0
  obtain ⟨ph, hph, ht⟩ := (loop_closes_iff note_freq sample_rate wave.length).1 hclose
  obtain ⟨h10, hfr⟩ := closing_phase_fract _ _ _ ph (le_of_lt hf) hph ht
  obtain ⟨h8, h4⟩ := closing_phase _ _ _ ph (le_of_lt hf) hph ht.1
  have htiny := double_tiny
  have herr := phase_error _ _ _ ph hph (le_trans htiny (by linarith))
    (le_trans htiny (by linarith))
  have e4 : (1e-4 : ℚ) = 1 / 10000 := by norm_num
  have h95 : (9.5 : ℚ) ≤ exact_phase note_freq sample_rate wave.length := by
    have := (abs_le.1 herr).2
    norm_num at this ⊢
    linarith
  refine ⟨hpos, by omega, ⟨ph, hph, h10, ?_, near_of_fract_lt ph hfr, herr⟩, h95, ?_, ?_⟩
  · refine ⟨⌊ph⌋, ?_, ?_⟩
    · rw [Int.self_sub_floor]
      exact Int.fract_nonneg _
    · rw [Int.self_sub_floor, e4]
      exact hfr
  · rw [hsamples]
    simp
  · intro i hi
    rw [hsamples, List.getElem?_map, List.getElem?_range hi]
    rfl

/-- C18 amended, at a concrete input: the wave of wheel 5 at 48000 samples per
second has loop length 12100, its copied sample 7 is the one synthesised at
index 7, and its exact phase is at least 9.5 cycles. -/
theorem generated_wave_closes_loop_witness :
    (0 : ℚ) < 6141272219141585 / 140737488355328 ∧ 0 < 48000 ∧
    ∃ wave work1,
      compute_tone_wave (6141272219141585 / 140737488355328) 48000 (fun k => (k : ℚ))
        (10 * 48000) (fun _ => 0) = some (wave, work1) ∧
      wave.length = 12100 ∧ wave.samples[7]? = some (7 : ℚ) ∧
      (9.5 : ℚ) ≤ exact_phase (6141272219141585 / 140737488355328) 48000 12100 := by
  obtain ⟨wave, work1, hrun, hlen⟩ := wheel5_wave (fun k => (k : ℚ)) (fun _ => 0)
  have h := generated_wave_closes_loop (6141272219141585 / 140737488355328) 48000 (10 * 48000)
    (fun k => (k : ℚ)) (fun _ => 0) work1 wave (by norm_num) (by decide) hrun
  refine ⟨by norm_num, by decide, wave, work1, hrun, hlen, ?_, ?_⟩
  · have h7 := h.2.2.2.2.2 7 (by rw [hlen]; decide)
    simpa using h7
  · rw [← hlen]
    exact h.2.2.2.1

/-- C19, evaluated on the code for wheel 5 at 48000 samples per second and a
work buffer of 480000 samples.  The call receives the double
`6141272219141585 / 2^47` for the target frequency 20 * 2 * 84 / 77, whose
exact phase at index 11000 is 10.  Index 11000 is the first index whose exact
phase has passed 9.5 cycles and is within 1e-4 of an integer.  The code
computes the phase `10 - 2^-49` there; `fmod(ph, 1.0)` is `1 - 2^-49`, the loop
test fails, and `compute_tone_wave` returns the loop length 12100, where the
computed phase is 11. -/
theorem loop_point_wheel5 :
    to_double (20 * 2 * 84 / 77) = some (6141272219141585 / 140737488355328) ∧
    11000 < 10 * 48000 ∧
    exact_phase (20 * 2 * 84 / 77) 48000 11000 = 10 ∧
    spec_loop_point (6141272219141585 / 140737488355328) 48000 11000 ∧
    (∀ k, k < 11000 → ¬ spec_loop_point (6141272219141585 / 140737488355328) 48000 k) ∧
    phase (6141272219141585 / 140737488355328) 48000 11000 =
      some (5629499534213119 / 562949953421312) ∧
    fmod1 (5629499534213119 / 562949953421312) = 562949953421311 / 562949953421312 ∧
    ¬ loop_closes (6141272219141585 / 140737488355328) 48000 11000 ∧
    phase (6141272219141585 / 140737488355328) 48000 12100 = some 11 ∧
    ∀ synth work : Nat → ℚ, ∃ wave work1,
      compute_tone_wave (6141272219141585 / 140737488355328) 48000 synth (10 * 48000) work =
        some (wave, work1) ∧ wave.length = 12100 := by
  have hex : ∀ k : Nat, exact_phase (6141272219141585 / 140737488355328) 48000 k =
      1228254443828317 / 1351079888211148800 * (k : ℚ) := by
    intro k
    simp only [exact_phase]
    push_cast
    ring
  refine ⟨wheel5_freq, by decide, ?_, ?_, ?_, wheel5_phase_11000, ?_, wheel5_loop.2.1,
    wheel5_phase_12100, ?_⟩
  · simp only [exact_phase]
    norm_num
  · constructor
    · rw [hex]
      norm_num
    · rw [hex]
      simp only [spec_near_integer]
      have h1 := round_le (1228254443828317 / 1351079888211148800 * ((11000 : ℕ) : ℚ)) 10
      refine lt_of_le_of_lt h1 ?_
      rw [abs_lt]
      constructor <;> norm_num
  · intro k hk
    rintro ⟨h1, h2⟩
    rw [hex] at h1 h2
    have hkq : (k : ℚ) ≤ 10999 := by exact_mod_cast (by omega : k ≤ 10999)
    have hk1 : 10450 ≤ k := by
      by_contra hlt
      have hk' : (k : ℚ) ≤ 10449 := by exact_mod_cast (by omega : k ≤ 10449)
      norm_num at h1
      linarith
    have hkq1 : (10450 : ℚ) ≤ (k : ℚ) := by exact_mod_cast hk1
    refine not_near_of_between _ 9 ?_ ?_ h2
    · push_cast
      linarith
    · push_cast
      linarith
  · have hfl : ⌊(5629499534213119 / 562949953421312 : ℚ)⌋ = 9 := by
      rw [Int.floor_eq_iff]
      constructor <;> norm_num
    rw [fmod1_of_nonneg _ (by norm_num), Int.fract, hfl]
    norm_num
  · exact wheel5_wave

/-- The selection made by `compute_tone_wave` on a work buffer of `n` samples:
it returns the loop length `L` exactly when `L` is the first index below `n` at
which the loop test holds on the computed phase, and it exits exactly when the
test holds at no index below `n`. -/
theorem compute_tone_wave_selection (note_freq : ℚ) (sample_rate n : Nat)
    (synth work : Nat → ℚ) :
    (∀ L, (∃ wave work1,
        compute_tone_wave note_freq sample_rate synth n work = some (wave, work1) ∧
          wave.length = L) ↔
      (L < n ∧ loop_closes note_freq sample_rate L ∧
        ∀ k, k < L → ¬ loop_closes note_freq sample_rate k)) ∧
    (compute_tone_wave note_freq sample_rate synth n work = none ↔
      ∀ k, k < n → ¬ loop_closes note_freq sample_rate k) := by
  constructor
  · intro L
    constructor
    · rintro ⟨wave, work1, hrun, hlen⟩
      obtain ⟨_, hlt, hclose, hfirst, _⟩ :=
        tone_wave_scan_some note_freq sample_rate synth n 0 work wave work1 hrun
          (fun i hi => absurd hi (Nat.not_lt_zero i))
      rw [hlen] at hlt hclose hfirst
      exact ⟨by omega, hclose, fun k hk => hfirst k (Nat.zero_le _) hk⟩
    · rintro ⟨hlt, hclose, hfirst⟩
      exact tone_wave_scan_first note_freq sample_rate synth L n 0 work
        (Nat.zero_le _) (by omega) hclose (fun j _ hj => hfirst j hj)
  · simp only [compute_tone_wave]
    rw [tone_wave_scan_none]
    constructor
    · intro h k hk
      exact h k (Nat.zero_le _) (by omega)
    · intro h j _ hj
      exact h j (by omega)

/-! ## Tonewheel frequencies -/

/-- The tables have twelve entries each. -/
theorem table_reads (j : Nat) (hj : j < 12) :
    driving[j]? = some (driving.getD j 0) ∧ driven[j]? = some (driven.getD j 1) := by
  interval_cases j <;> exact ⟨rfl, rfl⟩

/-- The frequency expression in the first seven groups. -/
theorem tone_freq_low (i teeth j : Nat) (hi : i < 7) (hj : j < 12) :
    tone_freq i teeth j = some (20 * (teeth : ℚ) * gear j) := by
  obtain ⟨h1, h2⟩ := table_reads j hj
  simp only [tone_freq, if_pos hi, h1, h2, gear]
  rw [mul_div_assoc]

/-- The frequency expression in the eighth group. -/
theorem tone_freq_high (i teeth j : Nat) (hi : ¬ i < 7) (hj : j < 7) :
    tone_freq i teeth j = some (20 * 192 * gear (j + 5)) := by
  obtain ⟨h1, h2⟩ := table_reads (j + 5) (by omega)
  simp only [tone_freq, if_neg hi, h1, h2, gear]
  rw [mul_div_assoc]

/-- The inner loop over positions whose frequency expression evaluates makes
one call per position, on consecutive wave slots. -/
theorem tone_group_spec (i teeth : Nat) (F : Nat → ℚ) (js : List Nat) :
    ∀ w, (∀ j ∈ js, tone_freq i teeth j = some (F j)) → w + js.length ≤ 91 →
    ∃ rs, tone_group i teeth js w = some (rs, w + js.length) ∧ rs.length = js.length ∧
      ∀ k, k < js.length → rs[k]? =
        some { wave_index := w + k, note_freq := F (js.getD k 0),
               lfo_freq := F (js.getD k 0) / (teeth : ℚ) } := by
  induction js with
  | nil =>
    intro w _ _
    exact ⟨[], rfl, rfl, fun k hk => absurd hk (Nat.not_lt_zero k)⟩
  | cons j js ih =>
    intro w hF hlen
    simp only [List.length_cons] at hlen
    obtain ⟨rs, hrs, hl, hk⟩ := ih (w + 1) (fun j' hj' => hF j' (by simp [hj'])) (by omega)
    refine ⟨{ wave_index := w, note_freq := F j, lfo_freq := F j / (teeth : ℚ) } :: rs, ?_,
      by simp [hl], ?_⟩
    · simp only [tone_group, hF j (by simp), NUM_WAVES]
      rw [if_neg (by omega), hrs]
      simp only [List.length_cons]
      congr 2
      omega
    · intro k hk'
      cases k with
      | zero => simp
      | succ k =>
        simp only [List.length_cons] at hk'
        simp only [List.getElem?_cons_succ, List.getD_cons_succ]
        rw [hk k (by omega)]
        congr 2
        omega

/-- The entry `k` of `List.range n`. -/
theorem range_getD (n k : Nat) (hk : k < n) : (List.range n).getD k 0 = k := by
  rw [List.getD_eq_getElem _ _ (by simpa using hk)]
  simp

/-- The calls of one of the first seven groups. -/
theorem tone_group_low (i : Nat) (hi : i < 7) :
    ∃ rs, tone_group i (2 ^ (i + 1)) (List.range 12) (12 * i) = some (rs, 12 * (i + 1)) ∧
      rs.length = 12 ∧ ∀ k, k < 12 → rs[k]? = some (spec_request (12 * i + k)) := by
  obtain ⟨rs, hrs, hl, hk⟩ := tone_group_spec i (2 ^ (i + 1))
    (fun j => 20 * ((2 ^ (i + 1) : Nat) : ℚ) * gear j) (List.range 12) (12 * i)
    (fun j hj => tone_freq_low i _ j hi (List.mem_range.1 hj))
    (by simp only [List.length_range]; omega)
  simp only [List.length_range] at hrs hl hk
  refine ⟨rs, by rw [hrs, Nat.mul_succ], hl, ?_⟩
  intro k hk12
  rw [hk k hk12, range_getD 12 k hk12]
  have hdiv : (12 * i + k) / 12 = i := by omega
  have hmod : (12 * i + k) % 12 = k := by omega
  have hlt : 12 * i + k < 84 := by omega
  simp only [spec_request, spec_wheel_freq, if_pos hlt, hdiv, hmod]
  push_cast
  rfl

/-- The calls of the eighth group. -/
theorem tone_group_high :
    ∃ rs, tone_group 7 (2 ^ (7 + 1)) (List.range 7) (12 * 7) = some (rs, 91) ∧
      rs.length = 7 ∧ ∀ k, k < 7 → rs[k]? = some (spec_request (12 * 7 + k)) := by
  obtain ⟨rs, hrs, hl, hk⟩ := tone_group_spec 7 (2 ^ (7 + 1))
    (fun j => 20 * 192 * gear (j + 5)) (List.range 7) (12 * 7)
    (fun j hj => tone_freq_high 7 _ j (by decide) (List.mem_range.1 hj))
    (by simp only [List.length_range]; decide)
  simp only [List.length_range] at hrs hl hk
  refine ⟨rs, hrs, hl, ?_⟩
  intro k hk7
  rw [hk k hk7, range_getD 7 k hk7]
  have hdiv : (12 * 7 + k) / 12 = 7 := by omega
  have hsub : 12 * 7 + k - 84 + 5 = k + 5 := by omega
  have hlt : ¬ 12 * 7 + k < 84 := by omega
  simp only [spec_request, spec_wheel_freq, if_neg hlt, hdiv, hsub]
  push_cast
  rfl

/-- The outer loop from group `i` on, entered with `teeth = 2^(i+1)` and
`wave_index = 12 * i`, makes the calls of the wheels `12 * i` .. 90. -/
theorem tone_groups_spec (m : Nat) : ∀ i, i + m = 8 →
    ∃ rs, tone_groups (List.range' i m) (2 ^ (i + 1)) (12 * i) = some rs ∧
      rs.length = 91 - 12 * i ∧
      ∀ k, k < 91 - 12 * i → rs[k]? = some (spec_request (12 * i + k)) := by
  induction m with
  | zero =>
    intro i hi
    refine ⟨[], rfl, by simp only [List.length_nil]; omega, ?_⟩
    intro k hk
    omega
  | succ m ih =>
    intro i hi
    rw [List.range'_succ]
    by_cases hi7 : i < 7
    · obtain ⟨rs1, hrs1, hl1, hk1⟩ := tone_group_low i hi7
      obtain ⟨rs2, hrs2, hl2, hk2⟩ := ih (i + 1) (by omega)
      have hteeth : 2 ^ (i + 1) * 2 = 2 ^ (i + 1 + 1) := (pow_succ 2 (i + 1)).symm
      refine ⟨rs1 ++ rs2, ?_, ?_, ?_⟩
      · simp only [tone_groups, if_pos hi7, hrs1, hteeth, hrs2]
      · rw [List.length_append, hl1, hl2]
        omega
      · intro k hk
        by_cases hk12 : k < 12
        · rw [List.getElem?_append_left (by rw [hl1]; exact hk12)]
          exact hk1 k hk12
        · rw [List.getElem?_append_right (by rw [hl1]; omega), hl1, hk2 (k - 12) (by omega)]
          congr 2
          omega
    · have hi' : i = 7 := by omega
      subst hi'
      have hm : m = 0 := by omega
      subst hm
      obtain ⟨rs1, hrs1, hl1, hk1⟩ := tone_group_high
      refine ⟨rs1 ++ [], ?_, ?_, ?_⟩
      · simp only [tone_groups, if_neg hi7, hrs1, List.range'_zero]
      · rw [List.append_nil, hl1]
      · intro k hk
        rw [List.append_nil]
        exact hk1 k (by omega)

/-- The calls made by `init_tone_generator` are those of the wheels 0..90 of
the specification, in order. -/
theorem tone_requests_spec :
    tone_requests = some ((List.range 91).map spec_request) := by
  obtain ⟨rs, hrs, hl, hk⟩ := tone_groups_spec 8 0 (by decide)
  have hrange : List.range 8 = List.range' 0 8 := List.range_eq_range' 8
  have heq : rs = (List.range 91).map spec_request := by
    apply List.ext_getElem?
    intro k
    by_cases hk91 : k < 91
    · rw [hk k (by omega), List.getElem?_map, List.getElem?_range hk91]
      simp
    · rw [List.getElem?_eq_none (by omega), List.getElem?_eq_none (by simp; omega)]
  simp only [tone_requests, hrange]
  rw [← heq]
  exact hrs

/-- A wave returned by `compute_tone_wave` has a positive loop length and a
sample buffer of that length. -/
theorem compute_tone_wave_ok (f : ℚ) (sr wl : Nat) (synth work work1 : Nat → ℚ) (wave : wave_t)
    (h : compute_tone_wave f sr synth wl work = some (wave, work1)) :
    0 < wave.length ∧ wave.samples.length = wave.length := by
  obtain ⟨_, _, hclose, _, hsamples⟩ :=
    tone_wave_scan_some f sr synth wl 0 work wave work1 h
      (fun i hi => absurd hi (Nat.not_lt_zero i))
  constructor
  · rcases Nat.eq_zero_or_pos wave.length with h0 | h0
    · rw [h0] at hclose
      exact absurd hclose (loop_closes_zero f sr)
    · exact h0
  · rw [hsamples]
    simp

/-- After the calls have run, every slot named by a call, and every slot that
held such a wave before, holds a wave of positive loop length with a sample
buffer of that length. -/
theorem run_requests_ok (sr : Nat) (synth : tone_request → Nat → ℚ) (wl : Nat)
    (rs : List tone_request) : ∀ (work : Nat → ℚ) (waves tg : tone_generator_t),
    run_requests sr synth wl rs work waves = some tg →
    ∀ w, (w ∈ rs.map (fun r => r.wave_index) ∨
        (0 < (waves w).length ∧ (waves w).samples.length = (waves w).length)) →
      0 < (tg w).length ∧ (tg w).samples.length = (tg w).length := by
  induction rs with
  | nil =>
    intro work waves tg h w hw
    rw [run_requests, Option.some.injEq] at h
    subst h
    rcases hw with hw | hw
    · simp at hw
    · exact hw
  | cons r rs ih =>
    intro work waves tg h w hw
    rw [run_requests, Option.bind_eq_some] at h
    obtain ⟨freq, _, h⟩ := h
    rw [Option.bind_eq_some] at h
    obtain ⟨res, hc, h⟩ := h
    obtain ⟨wave, work1⟩ := res
    dsimp only at h
    have hgood := compute_tone_wave_ok _ _ _ _ _ _ _ hc
    refine ih work1 (Function.update waves r.wave_index wave) tg h w ?_
    by_cases hwr : w = r.wave_index
    · right
      rw [hwr, Function.update_same]
      exact hgood
    · rcases hw with hw | hw
      · left
        simp only [List.map_cons, List.mem_cons] at hw
        rcases hw with hw | hw
        · exact absurd hw hwr
        · exact hw
      · right
        rw [Function.update_noteq hwr]
        exact hw

/-- A tone generator returned by `init_tone_generator` has, in each of its 91
slots, a wave of positive loop length with a sample buffer of that length. -/
theorem init_tone_generator_waves_ok (sr : Nat) (synth : tone_request → Nat → ℚ)
    (work : Nat → ℚ) (waves tg : tone_generator_t)
    (h : init_tone_generator sr synth work waves = some tg) :
    waves_ok tg := by
  simp only [init_tone_generator, tone_requests_spec] at h
  intro w hw
  refine run_requests_ok sr synth _ _ work waves tg h w (Or.inl ?_)
  rw [List.map_map]
  have : (fun r : tone_request => r.wave_index) ∘ spec_request = id := by
    funext w
    rfl
  rw [this, List.map_id]
  exact List.mem_range.2 hw

/-- The entries of `driving` lie between 0 and `2^20`, and no entry of
`driven` is zero. -/
theorem table_entry_bounds :
    (∀ a ∈ driving, 0 ≤ a ∧ a ≤ 2 ^ 20) ∧ (∀ b ∈ driven, b ≠ 0) := by
  decide

/-- The frequency that a call receives: the double computed by the expression
`freq` from left to right, with the multiplier `teeth` in the first seven
groups and 192 in the last, is the exact quotient of the call rounded once. -/
theorem tone_freq_double (i teeth j : Nat) (f : ℚ) (ht : teeth ≤ 2 ^ 20)
    (h : tone_freq i teeth j = some f) :
    ∃ a b : Int, f = 20 * ((if i < 7 then teeth else 192 : Nat) : ℚ) * (a : ℚ) / (b : ℚ) ∧
      double_freq (if i < 7 then teeth else 192) a b = to_double f := by
  have hmem : ∀ (k : Nat) (a b : Int), driving[k]? = some a → driven[k]? = some b →
      0 ≤ a ∧ a ≤ 2 ^ 20 ∧ b ≠ 0 := by
    intro k a b ha hb
    have h1 := table_entry_bounds.1 a (List.getElem?_mem ha)
    have h2 := table_entry_bounds.2 b (List.getElem?_mem hb)
    exact ⟨h1.1, h1.2, h2⟩
  simp only [tone_freq] at h
  by_cases hi : i < 7
  · rw [if_pos hi] at h
    rw [if_pos hi]
    rcases Option.eq_none_or_eq_some driving[j]? with ha | ⟨a, ha⟩
    · simp only [ha] at h
      cases h
    · rcases Option.eq_none_or_eq_some driven[j]? with hb | ⟨b, hb⟩
      · simp only [ha, hb] at h
        cases h
      · simp only [ha, hb, Option.some.injEq] at h
        obtain ⟨h0, h1, h2⟩ := hmem j a b ha hb
        refine ⟨a, b, h.symm, ?_⟩
        rw [double_freq_eq teeth a b ht h0 h1 h2, h]
  · rw [if_neg hi] at h
    rw [if_neg hi]
    rcases Option.eq_none_or_eq_some driving[j + 5]? with ha | ⟨a, ha⟩
    · simp only [ha] at h
      cases h
    · rcases Option.eq_none_or_eq_some driven[j + 5]? with hb | ⟨b, hb⟩
      · simp only [ha, hb] at h
        cases h
      · simp only [ha, hb, Option.some.injEq] at h
        obtain ⟨h0, h1, h2⟩ := hmem (j + 5) a b ha hb
        refine ⟨a, b, ?_, ?_⟩
        · rw [← h]
          norm_num
        · rw [double_freq_eq 192 a b (by norm_num) h0 h1 h2, ← h]
          norm_num

end Beta3
